import Mathlib

/-!
Verification of the Synth_NeuroDark23 step sequencer core.

This file gives a shallow embedding, in Lean 4, of the pattern data model
(`TimeMatrix`), the CSV codec (`exportToCSV` / `importFromCSV`), the look-ahead
audio scheduler (`AudioEngine.scheduler` / `advanceNote` / `scheduleNote`), and
the MIDI codec (`MidiIO.exportMidi` / `parseMidi`) of the JavaScript source,
and proves or refutes the specification claims about them.

Modelling conventions:
  * JavaScript strings are `List Char` (`Str`); `split`, `trim`, `startsWith`,
    `replace` are re-implemented with the exact single-character-separator
    semantics of the source.
  * JavaScript numbers that the code produces with `parseInt` / `Number` are
    `Option Int`: `none` models `NaN`, which the source stores and later
    re-renders as the string `NaN`.  Fractional literals are not modelled
    (the codec only ever writes integers).
  * JavaScript objects used as string-keyed maps (`block.tracks`,
    `importedData.bass`, ...) are association lists in insertion order,
    matching JS property-enumeration order.
  * Audio-clock time is `ℚ`: the scheduler arithmetic is exact, so the
    "within floating-point tolerance" claims become exact equalities.
  * The ambient collaborators checked for truthiness by the source
    (`window.audioEngine`, `window.drumSynth`) are modelled as present.
-/

set_option autoImplicit false
set_option maxRecDepth 10000

namespace SynthND

/-- JavaScript strings, modelled as lists of characters. -/
abbrev Str := List Char

/-! ### JS string primitives -/

/-- `s.split(sep)` for a one-character separator: always returns at least one
(possibly empty) chunk, and one extra chunk per separator occurrence. -/
def splitOnChar (sep : Char) : Str → List Str
  | [] => [[]]
  | c :: rest =>
    let r := splitOnChar sep rest
    if c = sep then [] :: r
    else
      match r with
      | [] => [[c]]
      | h :: t => (c :: h) :: t

/-- `pat.isPrefixOfJS s`, i.e. JS `s.startsWith(pat)`. -/
def startsWithJS : Str → Str → Bool
  | [], _ => true
  | _, [] => false
  | p :: ps, c :: cs => p = c && startsWithJS ps cs

/-- JS `s.replace(c, '')` for a one-character pattern: removes the first
occurrence only. -/
def removeFirstChar (c : Char) : Str → Str
  | [] => []
  | a :: rest => if a = c then rest else a :: removeFirstChar c rest

/-- JS `s.trim()` (ASCII whitespace). -/
def trimJS (s : Str) : Str :=
  ((s.dropWhile Char.isWhitespace).reverse.dropWhile Char.isWhitespace).reverse

/-! ### JS number rendering and parsing -/

def digitToChar (d : ℕ) : Char := Char.ofNat (48 + d)

def charToDigit (c : Char) : ℕ := c.toNat - 48

/-- Little-endian decimal digits of `n` as characters; the fuel argument
bounds the division loop (`n` iterations always suffice). -/
def natToCharsAux : ℕ → ℕ → List Char
  | 0, _ => []
  | fuel + 1, n => if n = 0 then [] else digitToChar (n % 10) :: natToCharsAux fuel (n / 10)

/-- Decimal rendering of a natural number, as JS template literals produce. -/
def natToChars (n : ℕ) : Str :=
  if n = 0 then ['0'] else (natToCharsAux n n).reverse

/-- Decimal rendering of an integer. -/
def intToChars (z : ℤ) : Str :=
  if z < 0 then '-' :: natToChars z.natAbs else natToChars z.toNat

/-- Rendering of a possibly-NaN JS number (`none` renders as `NaN`). -/
def renderNum (o : Option ℤ) : Str :=
  match o with
  | some z => intToChars z
  | none => ['N', 'a', 'N']

/-- Value of a digit string (used on strings already known to be digits). -/
def parseDigits (s : Str) : ℕ :=
  s.foldl (fun a c => 10 * a + charToDigit c) 0

def isHexDigit (c : Char) : Bool := c.isDigit || ('a' ≤ c && c ≤ 'f') || ('A' ≤ c && c ≤ 'F')

def hexVal (c : Char) : ℕ :=
  if c.isDigit then charToDigit c
  else if 'a' ≤ c && c ≤ 'f' then c.toNat - 87
  else c.toNat - 55

def parseHexDigits (s : Str) : ℕ :=
  s.foldl (fun a c => 16 * a + hexVal c) 0

/-- Maximal decimal-digit prefix, `none` (NaN) if there is none. -/
def parseDec (s : Str) : Option ℕ :=
  let ds := s.takeWhile Char.isDigit
  if ds.isEmpty then none else some (parseDigits ds)

def parseHex (s : Str) : Option ℕ :=
  let ds := s.takeWhile isHexDigit
  if ds.isEmpty then none else some (parseHexDigits ds)

/-- Unsigned part of JS `parseInt`: `0x` prefix selects hexadecimal. -/
def parseIntCore (s : Str) : Option ℕ :=
  match s with
  | '0' :: c :: rest => if c = 'x' ∨ c = 'X' then parseHex rest else parseDec s
  | _ => parseDec s

/-- JS `parseInt(s)` (radix auto-detected): skips leading whitespace, accepts
an optional sign, parses the maximal digit prefix; `none` models `NaN`. -/
def parseIntJS (s : Str) : Option ℤ :=
  let s1 := s.dropWhile Char.isWhitespace
  match s1 with
  | '-' :: rest => (parseIntCore rest).map (fun n => -(n : ℤ))
  | '+' :: rest => (parseIntCore rest).map (fun n => (n : ℤ))
  | _ => (parseIntCore s1).map (fun n => (n : ℤ))

/-- JS `Number(s)` restricted to the integer literals this codec can meet:
the empty (trimmed) string is `0`, a signed digit string is its value, and
anything else is `NaN` (`none`).  Fractional, hex and exponent literals are
not modelled; no claim in this file observes them. -/
def numberJS (s : Str) : Option ℤ :=
  let t := trimJS s
  if t.isEmpty then some 0
  else
    match t with
    | '-' :: rest => if rest ≠ [] ∧ rest.all Char.isDigit then some (-(parseDigits rest : ℤ)) else none
    | '+' :: rest => if rest ≠ [] ∧ rest.all Char.isDigit then some ((parseDigits rest : ℤ)) else none
    | _ => if t.all Char.isDigit then some ((parseDigits t : ℤ)) else none

/-! ### Generic JS-faithful container helpers -/

/-- Read property `id` of a keyed JS object (association list in insertion
order); `none` models `undefined`. -/
def jsGetProp {κ α : Type} [DecidableEq κ] (id : κ) : List (κ × α) → Option α
  | [] => none
  | (k, v) :: rest => if k = id then some v else jsGetProp id rest

/-- JS property assignment: overwrite in place if the key exists, otherwise
append it. -/
def jsSetProp {κ α : Type} [DecidableEq κ] (id : κ) (v : α) : List (κ × α) → List (κ × α)
  | [] => [(id, v)]
  | (k, w) :: rest => if k = id then (k, v) :: rest else (k, w) :: jsSetProp id v rest

/-- Modify the value stored under key `id` in place; no-op if absent. -/
def assocModify {κ α : Type} [DecidableEq κ] (id : κ) (f : α → α) :
    List (κ × α) → List (κ × α)
  | [] => []
  | (k, v) :: rest => if k = id then (k, f v) :: rest else (k, v) :: assocModify id f rest

/-- Modify the element at index `i` in place; no-op past the end (mirrors the
source's `if (!arr[i]) return` guards). -/
def listModify {α : Type} : List α → ℕ → (α → α) → List α
  | [], _, _ => []
  | a :: t, 0, f => f a :: t
  | a :: t, i + 1, f => a :: listModify t i f

/-- Read index `i` of a JS array whose entries may themselves be `undefined`;
out-of-range reads give `undefined` (`none`). -/
def jsArrGet {α : Type} (l : List (Option α)) (i : ℕ) : Option α :=
  l.getD i none

/-- JS array index assignment: in range it overwrites; past the end it extends
the array with `undefined` holes. -/
def jsArrSet {α : Type} (l : List (Option α)) (i : ℕ) (v : Option α) : List (Option α) :=
  if i < l.length then l.set i v
  else l ++ List.replicate (i - l.length) none ++ [v]

/-! ### Pattern data model (`TimeMatrix`, part_000) -/

/-- One grid note, as stored in `block.tracks[id][step]`.
`octave` is `Option ℤ` because the importer stores `parseInt` results
(`none` = `NaN`). The `note` field is the pitch-class name string. -/
structure Note where
  note : Str
  octave : Option ℤ
  slide : Bool
  accent : Bool
deriving DecidableEq, Repr, Inhabited

/-- One pattern block: named note tracks plus a drum-hit index list per step. -/
structure Block where
  tracks : List (Str × List (Option Note))
  drums : List (List ℕ)
deriving DecidableEq, Repr, Inhabited

namespace TimeMatrix

/-- `this.totalSteps` — steps per block, fixed at construction. -/
def totalSteps : ℕ := 16

def defaultTrackId : Str := ['b', 'a', 's', 's', '-', '1']

/-- A fresh all-null track array (`new Array(totalSteps).fill(null)`). -/
def freshTrack : List (Option Note) := List.replicate totalSteps none

/-- `noteMapRev` — index 0 is the reserved "none" entry `'-'`. -/
def noteMapRevList : List Str :=
  [['-'], ['C'], ['C', '#'], ['D'], ['D', '#'], ['E'], ['F'], ['F', '#'],
   ['G'], ['G', '#'], ['A'], ['A', '#'], ['B']]

/-- `noteMap` — pitch-class name to 1-based CSV index. -/
def noteMapList : List (Str × ℕ) :=
  [(['C'], 1), (['C', '#'], 2), (['D'], 3), (['D', '#'], 4), (['E'], 5), (['F'], 6),
   (['F', '#'], 7), (['G'], 8), (['G', '#'], 9), (['A'], 10), (['A', '#'], 11), (['B'], 12)]

/-- `this.noteMap[name] || 0`. -/
def noteMapVal (name : Str) : ℕ := (jsGetProp name noteMapList).getD 0

/-- `registerTrack(id)`: add the track key to every block that lacks it. -/
def registerTrack (id : Str) (blocks : List Block) : List Block :=
  blocks.map fun b =>
    if (jsGetProp id b.tracks).isSome then b
    else { b with tracks := b.tracks ++ [(id, freshTrack)] }

/-- `removeTrack(id)`: delete the track key from every block. -/
def removeTrack (id : Str) (blocks : List Block) : List Block :=
  blocks.map fun b => { b with tracks := b.tracks.filter fun p => ¬p.1 = id }

/-- `addBlock()`: append a block whose track keys mirror the first block's
(or the single default track when the list is empty). -/
def addBlock (blocks : List Block) : List Block :=
  let newTracks :=
    match blocks with
    | [] => [(defaultTrackId, freshTrack)]
    | b0 :: _ => b0.tracks.map fun p => (p.1, freshTrack)
  blocks ++ [{ tracks := newTracks, drums := List.replicate totalSteps ([] : List ℕ) }]

/-- `clearBlock(idx)`: null every note slot and empty every drum set in place. -/
def clearBlock (idx : ℕ) (blocks : List Block) : List Block :=
  listModify blocks idx fun b =>
    { tracks := b.tracks.map fun p => (p.1, p.2.map fun _ => none),
      drums := b.drums.map fun _ => [] }

/-- `removeBlock(idx)`: clear block 0 in place when at most one block remains,
otherwise splice the block out. -/
def removeBlock (idx : ℕ) (blocks : List Block) : List Block :=
  if blocks.length ≤ 1 then clearBlock 0 blocks else blocks.eraseIdx idx

/-- `moveBlock(idx, dir)` over a JS array (entries may be `undefined`): only
the destination index `idx + dir` is range-checked before the swap. -/
def moveBlock (blocks : List (Option Block)) (idx : ℕ) (dir : ℤ) :
    Bool × List (Option Block) :=
  let t : ℤ := (idx : ℤ) + dir
  if t < 0 ∨ (blocks.length : ℤ) ≤ t then (false, blocks)
  else
    let tn := t.toNat
    let tmp := jsArrGet blocks tn
    let b1 := jsArrSet blocks tn (jsArrGet blocks idx)
    let b2 := jsArrSet b1 idx tmp
    (true, b2)

/-- `getStepData(step, block)`: `none` models the empty object `{}` returned
for an invalid block index; otherwise the tracks map and that step's drums
(`b.drums[step] || []`). -/
def getStepData (blocks : List Block) (step blockIdx : ℕ) :
    Option (List (Str × List (Option Note)) × List ℕ) :=
  match blocks.get? blockIdx with
  | none => none
  | some b => some (b.tracks, b.drums.getD step [])

/-- The constructor's initial block list (`this.addBlock()` on empty). -/
def initialBlocks : List Block := addBlock []

end TimeMatrix

/-! ### Drum synth configuration state (drum_synth.js) -/

/-- One of the 9 fixed drum channels.  `variant`/`volume` are `Option ℤ`
(`none` = `NaN` stored by an unchecked `parseInt`); `colorId` is `Option ℤ`
with `none` modelling the JS `undefined` checked by `!== undefined` (that
path never stores `NaN` into it). Audio-only fields are omitted. -/
structure DrumChannel where
  id : ℕ
  type : Str
  variant : Option ℤ
  volume : Option ℤ
  colorId : Option ℤ
deriving DecidableEq, Repr, Inhabited

structure DrumSynthState where
  masterVolume : Option ℤ
  channels : List DrumChannel
deriving DecidableEq, Repr, Inhabited

namespace DrumSynth

def tyKick : Str := ['k', 'i', 'c', 'k']
def tySnare : Str := ['s', 'n', 'a', 'r', 'e']
def tyClap : Str := ['c', 'l', 'a', 'p']
def tyChat : Str := ['c', 'h', 'a', 't']
def tyOhat : Str := ['o', 'h', 'a', 't']
def tyLtom : Str := ['l', 't', 'o', 'm']
def tyHtom : Str := ['h', 't', 'o', 'm']
def tyCrash : Str := ['c', 'r', 'a', 's', 'h']
def tyPerc : Str := ['p', 'e', 'r', 'c']

/-- The 9 fixed channel slots with their constructor defaults. -/
def defaultChannels : List DrumChannel :=
  [⟨0, tyKick, some 1, some 90, some 0⟩,
   ⟨1, tySnare, some 1, some 85, some 1⟩,
   ⟨2, tyClap, some 1, some 80, some 2⟩,
   ⟨3, tyChat, some 1, some 75, some 3⟩,
   ⟨4, tyOhat, some 1, some 75, some 4⟩,
   ⟨5, tyLtom, some 1, some 80, some 5⟩,
   ⟨6, tyHtom, some 1, some 80, some 6⟩,
   ⟨7, tyCrash, some 1, some 70, some 7⟩,
   ⟨8, tyPerc, some 1, some 75, some 8⟩]

def initState : DrumSynthState := ⟨some 85, defaultChannels⟩

/-- `Math.max(0, Math.min(100, val))`, with `NaN` propagating. -/
def clamp100 (v : Option ℤ) : Option ℤ := v.map fun z => max 0 (min 100 z)

def setMasterVolume (v : Option ℤ) (d : DrumSynthState) : DrumSynthState :=
  { d with masterVolume := clamp100 v }

def setChannelVolume (id : ℕ) (v : Option ℤ) (d : DrumSynthState) : DrumSynthState :=
  { d with channels := listModify d.channels id fun ch => { ch with volume := clamp100 v } }

/-- `setChannelVariant` re-runs `parseInt` on its argument, which is the
identity on the integer-or-NaN values the importer passes. -/
def setChannelVariant (id : ℕ) (v : Option ℤ) (d : DrumSynthState) : DrumSynthState :=
  { d with channels := listModify d.channels id fun ch => { ch with variant := v } }

/-- Direct `channels[idx].colorId = v` assignment used by the importer. -/
def setChannelColor (id : ℕ) (v : Option ℤ) (d : DrumSynthState) : DrumSynthState :=
  { d with channels := listModify d.channels id fun ch => { ch with colorId := v } }

end DrumSynth

/-! ### Bass synth parameters (part_001) and audio engine state -/

/-- The parameter record of one `BassSynth`.  Numeric fields are `Option ℤ`
because the importer writes raw `Number(...)` results into them. -/
structure BassParams where
  volume : Option ℤ
  distortion : Option ℤ
  distTone : Option ℤ
  distGain : Option ℤ
  cutoff : Option ℤ
  resonance : Option ℤ
  envMod : Option ℤ
  decay : Option ℤ
  accentInt : Option ℤ
  waveform : Str
deriving DecidableEq, Repr, Inhabited

def wfSawtooth : Str := ['s', 'a', 'w', 't', 'o', 'o', 't', 'h']

def wfSquare : Str := ['s', 'q', 'u', 'a', 'r', 'e']

/-- Constructor defaults of `BassSynth.params`. -/
def defaultParams : BassParams :=
  ⟨some 85, some 20, some 100, some 60, some 40, some 8, some 60, some 40, some 50, wfSawtooth⟩

structure BassSynth where
  id : Str
  params : BassParams
deriving DecidableEq, Repr, Inhabited

/-- The live session state touched by the CSV codec: `AppState.bpm`, the
`TimeMatrix` block list, `audioEngine.bassSynths`, and the drum synth
configuration. -/
structure EngineState where
  bpm : ℤ
  blocks : List Block
  bassSynths : List BassSynth
  drum : DrumSynthState
deriving DecidableEq, Repr, Inhabited

/-- `audioEngine.getSynth(id)` — first synth with the given id. -/
def getSynth (id : Str) (l : List BassSynth) : Option BassSynth :=
  l.find? fun s => s.id = id

/-- Apply `f` to the first synth with the given id (the source mutates the
object returned by `getSynth`). -/
def modifyFirstSynth (id : Str) (f : BassSynth → BassSynth) : List BassSynth → List BassSynth
  | [] => []
  | s :: rest => if s.id = id then f s :: rest else s :: modifyFirstSynth id f rest

/-- `audioEngine.addBassSynth(id)`: no-op when the id exists, otherwise append
a default synth and register its track in every block. -/
def addBassSynth (id : Str) (st : EngineState) : EngineState :=
  if (getSynth id st.bassSynths).isSome then st
  else
    { st with
      bassSynths := st.bassSynths ++ [⟨id, defaultParams⟩],
      blocks := TimeMatrix.registerTrack id st.blocks }

/-! ### CSV export (`TimeMatrix.exportToCSV`)

The source builds each row by appending `,<cell>` inside nested loops over
blocks and steps; that is written here as the row's config field followed by
`cells.flatMap (',' :: ·)` over the same cell sequence. -/

def drumsTok : Str := ['d', 'r', 'u', 'm', 's']

/-- `block.tracks[id] ? block.tracks[id][s] : null` (missing slots are null). -/
def trackNoteAt (b : Block) (id : Str) (s : ℕ) : Option Note :=
  match jsGetProp id b.tracks with
  | none => none
  | some tr => tr.getD s none

/-- One bass note cell: `0` for an empty slot, else
`<noteMap[name] || 0>-<octave>-<slideBit>-<accentBit>`. -/
def exportBassCell (n : Option Note) : Str :=
  match n with
  | none => ['0']
  | some nt =>
    natToChars (TimeMatrix.noteMapVal nt.note) ++
      ('-' :: renderNum nt.octave) ++
      ('-' :: (if nt.slide then ['1'] else ['0'])) ++
      ('-' :: (if nt.accent then ['1'] else ['0']))

/-- The dash-joined parameter list
`<vol>-<dist>-<distTone>-<distGain>-<cutoff>-<res>-<envMod>-<decay>-<accentInt>-<waveInt>`. -/
def bassParamsStr (p : BassParams) : Str :=
  renderNum p.volume ++ ('-' :: renderNum p.distortion) ++
    ('-' :: renderNum p.distTone) ++ ('-' :: renderNum p.distGain) ++
    ('-' :: renderNum p.cutoff) ++ ('-' :: renderNum p.resonance) ++
    ('-' :: renderNum p.envMod) ++ ('-' :: renderNum p.decay) ++
    ('-' :: renderNum p.accentInt) ++
    ('-' :: (if p.waveform = wfSquare then ['1'] else ['0']))

/-- The synth config field `<id>:<params>`. -/
def bassConfigCell (σ : BassSynth) : Str :=
  σ.id ++ ':' :: bassParamsStr σ.params

/-- The bass cells of one row, in block-major, step-minor order. -/
def bassCells (blocks : List Block) (id : Str) : List Str :=
  blocks.flatMap fun b =>
    (List.range TimeMatrix.totalSteps).map fun s => exportBassCell (trackNoteAt b id s)

def bassRow (blocks : List Block) (σ : BassSynth) : Str :=
  bassConfigCell σ ++ (bassCells blocks σ.id).flatMap (fun c => ',' :: c)

/-- One drum grid cell: one `'1'`/`'0'` character per configured channel, in
channel order, testing `dStep.includes(ch.id)`. -/
def drumCell (channels : List DrumChannel) (dStep : List ℕ) : Str :=
  channels.map fun ch => if ch.id ∈ dStep then '1' else '0'

/-- `<type>-<variant>-<vol>-<colorId>`; an `undefined` colorId falls back to
the channel's own id. -/
def drumChannelBody (ch : DrumChannel) : Str :=
  ch.type ++ ('-' :: renderNum ch.variant) ++ ('-' :: renderNum ch.volume) ++
    ('-' :: (match ch.colorId with | some c => intToChars c | none => natToChars ch.id))

def drumChannelCfg (ch : DrumChannel) : Str :=
  '|' :: drumChannelBody ch

def drumCells (st : EngineState) : List Str :=
  st.blocks.flatMap fun b =>
    (List.range TimeMatrix.totalSteps).map fun s =>
      drumCell st.drum.channels (b.drums.getD s [])

/-- `drums:<masterVol>:<channelCount>`. -/
def drumMainHeader (st : EngineState) : Str :=
  drumsTok ++ ':' :: (renderNum st.drum.masterVolume ++
    ':' :: natToChars st.drum.channels.length)

def drumConfigCell (st : EngineState) : Str :=
  drumMainHeader st ++ st.drum.channels.flatMap drumChannelCfg

def drumRow (st : EngineState) : Str :=
  drumConfigCell st ++ (drumCells st).flatMap (fun c => ',' :: c)

def headerCell (st : EngineState) : Str :=
  intToChars st.bpm ++ ('-' :: natToChars (st.blocks.length * TimeMatrix.totalSteps)) ++
    ('-' :: natToChars st.bassSynths.length)

def headerRow (st : EngineState) : Str :=
  headerCell st ++
    ((List.range (st.blocks.length * TimeMatrix.totalSteps)).map fun i =>
      natToChars (i + 1)).flatMap (fun c => ',' :: c)

/-- `TimeMatrix.exportToCSV`: header line, one line per bass synth, then the
drum row (no trailing newline).  The drum synth is present, so the drum row
is always emitted. -/
def exportToCSV (st : EngineState) : Str :=
  headerRow st ++ '\n' ::
    ((st.bassSynths.flatMap fun σ => bassRow st.blocks σ ++ ['\n']) ++ drumRow st)

/-! ### CSV import (`TimeMatrix.importFromCSV`)

The source wraps the whole import in `try/catch` and returns `false` from the
catch.  Every throwing check (`lines.length < 2`, non-numeric bpm or step
count) happens before the first state mutation; the remaining statements are
total (all array/property accesses are guarded), so the embedding returns
`(false, st)` exactly on those early checks. -/

/-- `noteMapRev[parseInt(...)]`: `undefined` for `NaN`, negative or
out-of-range indices.  Index 0 yields the truthy string `'-'`. -/
def decodeNoteChar (noteInt : Option ℤ) : Option Str :=
  match noteInt with
  | none => none
  | some z => if z < 0 then none else TimeMatrix.noteMapRevList.get? z.toNat

/-- `blocks[blockIdx].tracks[id][stepIdx] = nt` (the track key always exists
here: `registerTrack(id)` runs before the cell loop). -/
def writeNote (blocks : List Block) (blockIdx : ℕ) (id : Str) (stepIdx : ℕ) (nt : Note) :
    List Block :=
  listModify blocks blockIdx fun b =>
    { b with tracks := assocModify id (fun tr => tr.set stepIdx (some nt)) b.tracks }

/-- The body of the bass cell loop at global step `g`. -/
def processNoteCell (id : Str) (g : ℕ) (cells : List Str) (blocks : List Block) : List Block :=
  let noteData := cells.getD (g + 1) []
  if noteData.isEmpty ∨ noteData = ['0'] then blocks
  else
    let blockIdx := g / TimeMatrix.totalSteps
    let stepIdx := g % TimeMatrix.totalSteps
    let nParts := splitOnChar '-' noteData
    if nParts.length = 4 then
      match blocks.get? blockIdx, decodeNoteChar (parseIntJS (nParts.getD 0 [])) with
      | some _, some nm =>
        writeNote blocks blockIdx id stepIdx
          ⟨nm, parseIntJS (nParts.getD 1 []),
            decide (nParts.getD 2 [] = ['1']), decide (nParts.getD 3 [] = ['1'])⟩
      | _, _ => blocks
    else blocks

/-- The ten `synth.set*` calls (`pVals[0]` .. `pVals[9]`). -/
def setParams (pVals : List (Option ℤ)) (σ : BassSynth) : BassSynth :=
  { σ with params :=
    { volume := pVals.getD 0 none, distortion := pVals.getD 1 none,
      distTone := pVals.getD 2 none, distGain := pVals.getD 3 none,
      cutoff := pVals.getD 4 none, resonance := pVals.getD 5 none,
      envMod := pVals.getD 6 none, decay := pVals.getD 7 none,
      accentInt := pVals.getD 8 none,
      waveform := if pVals.getD 9 none = some 1 then wfSquare else wfSawtooth } }

/-- One bass line of the import: parse id and parameters, create the synth if
missing, set parameters when ten values parsed, register the track, then run
the cell loop. -/
def processBassLine (total : ℕ) (cells : List Str) (st : EngineState) : EngineState :=
  let configCell := cells.getD 0 []
  let parts := splitOnChar ':' configCell
  let id := parts.getD 0 []
  let paramsStr := parts.getD 1 []
  let pVals := (splitOnChar '-' paramsStr).map numberJS
  let st1 := if (getSynth id st.bassSynths).isSome then st else addBassSynth id st
  let st2 :=
    if 10 ≤ pVals.length then
      { st1 with bassSynths := modifyFirstSynth id (setParams pVals) st1.bassSynths }
    else st1
  let st3 := { st2 with blocks := TimeMatrix.registerTrack id st2.blocks }
  { st3 with blocks := (List.range total).foldl (fun bl g => processNoteCell id g cells bl) st3.blocks }

def writeDrums (blocks : List Block) (blockIdx stepIdx : ℕ) (hits : List ℕ) : List Block :=
  listModify blocks blockIdx fun b => { b with drums := b.drums.set stepIdx hits }

/-- The body of the drum grid loop at global step `g`: collect the `'1'` bit
positions of the cell into the step's hit list. -/
def processDrumCell (g : ℕ) (cells : List Str) (blocks : List Block) : List Block :=
  let binary := cells.getD (g + 1) []
  if binary.isEmpty then blocks
  else
    let blockIdx := g / TimeMatrix.totalSteps
    let stepIdx := g % TimeMatrix.totalSteps
    if (blocks.get? blockIdx).isSome then
      writeDrums blocks blockIdx stepIdx
        ((List.range binary.length).filter fun bit => binary.getD bit ' ' = '1')
    else blocks

/-- One iteration of the channel config loop (`c` ranges over `1 ..
parts.length - 1`): strip one `[` and one `]`, split on `-`, and restore
variant, volume and colorId (missing colorId resets to the channel index). -/
def processDrumChannel (parts : List Str) (c : ℕ) (d : DrumSynthState) : DrumSynthState :=
  let chIdx := c - 1
  if chIdx < d.channels.length then
    let chData := splitOnChar '-' (removeFirstChar ']' (removeFirstChar '[' (parts.getD c [])))
    let variant := parseIntJS (chData.getD 1 [])
    let vol := parseIntJS (chData.getD 2 [])
    let colId := parseIntJS (chData.getD 3 [])
    let d1 := DrumSynth.setChannelVariant chIdx variant d
    let d2 := DrumSynth.setChannelVolume chIdx vol d1
    if colId.isSome then DrumSynth.setChannelColor chIdx colId d2
    else DrumSynth.setChannelColor chIdx (some (chIdx : ℤ)) d2
  else d

/-- The drums line of the import: master volume, per-channel configs, then the
binary grid loop. -/
def processDrumLine (total : ℕ) (cells : List Str) (st : EngineState) : EngineState :=
  let configCell := cells.getD 0 []
  let parts := splitOnChar '|' configCell
  let mainHeader := splitOnChar ':' (parts.getD 0 [])
  let masterVol := parseIntJS (mainHeader.getD 1 [])
  let d0 := DrumSynth.setMasterVolume masterVol st.drum
  let d1 := (List.range (parts.length - 1)).foldl
    (fun d c0 => processDrumChannel parts (c0 + 1) d) d0
  let st1 := { st with drum := d1 }
  { st1 with blocks := (List.range total).foldl (fun bl g => processDrumCell g cells bl) st1.blocks }

/-- Dispatch for one non-header line: a `drums` prefix selects the drum
parser, otherwise a `:` in the first field selects the bass parser. -/
def processLine (total : ℕ) (st : EngineState) (line : Str) : EngineState :=
  let cells := splitOnChar ',' line
  let configCell := cells.getD 0 []
  if startsWithJS drumsTok configCell then processDrumLine total cells st
  else if ':' ∈ configCell then processBassLine total cells st
  else st

/-- `this.blocks = []` followed by `blocksNeeded` calls of `addBlock()`. -/
def iterAddBlock : ℕ → List Block → List Block
  | 0, l => l
  | n + 1, l => iterAddBlock n (TimeMatrix.addBlock l)

def buildBlocks (n : ℕ) : List Block := iterAddBlock n []

/-- `TimeMatrix.importFromCSV`.  Returns the success flag together with the
resulting live state. -/
def importFromCSV (st : EngineState) (csvData : Str) : Bool × EngineState :=
  if csvData.isEmpty then (false, st)
  else
    let lines := splitOnChar '\n' (trimJS csvData)
    if lines.length < 2 then (false, st)
    else
      let headerCells := splitOnChar ',' (lines.getD 0 [])
      let meta := splitOnChar '-' (headerCells.getD 0 [])
      match parseIntJS (meta.getD 0 []), parseIntJS (meta.getD 1 []) with
      | some bpm, some totalStepsGlobal =>
        let st1 := { st with bpm := bpm }
        let blocksNeeded :=
          (totalStepsGlobal.toNat + TimeMatrix.totalSteps - 1) / TimeMatrix.totalSteps
        let st2 := { st1 with blocks := buildBlocks blocksNeeded }
        let st3 := (lines.drop 1).foldl (processLine totalStepsGlobal.toNat) st2
        (true, st3)
      | _, _ => (false, st)

/-! ### Session accessors used by the claim statements -/

/-- The note stored at block `b`, track `id`, step `s` of a session. -/
def noteAt (st : EngineState) (b : ℕ) (id : Str) (s : ℕ) : Option Note :=
  match st.blocks.get? b with
  | none => none
  | some blk => trackNoteAt blk id s

/-- The drum-hit index list at block `b`, step `s` of a session. -/
def drumsAt (st : EngineState) (b s : ℕ) : List ℕ :=
  match st.blocks.get? b with
  | none => []
  | some blk => blk.drums.getD s []

def chVariant (st : EngineState) (i : ℕ) : Option ℤ := (st.drum.channels.getD i default).variant

def chVolume (st : EngineState) (i : ℕ) : Option ℤ := (st.drum.channels.getD i default).volume

def chColor (st : EngineState) (i : ℕ) : Option ℤ := (st.drum.channels.getD i default).colorId

/-- The session state after a CSV round trip. -/
def reimport (st : EngineState) : EngineState := (importFromCSV st (exportToCSV st)).2

/-! ### Look-ahead scheduler (`AudioEngine`, ui_controller.js)

Time is `ℚ` (the exact value of the audio clock).  `visualQueue` records the
`{step, block, time}` markers pushed by `scheduleNote`; the source calls
`getStepData(step, block)` with exactly the same `step`/`block` arguments, so
the queue is also the log of `getStepData` invocations. -/

structure SchedEvent where
  step : ℕ
  block : ℕ
  time : ℚ
deriving DecidableEq, Repr, Inhabited

structure SchedState where
  nextNoteTime : ℚ
  currentPlayStep : ℕ
  currentPlayBlock : ℕ
  visualQueue : List SchedEvent
deriving DecidableEq, Repr, Inhabited

namespace AudioEngine

/-- `this.lookahead = 0.1`. -/
def lookahead : ℚ := 1 / 10

/-- `60.0 / bpm / 4` — seconds per sixteenth-note step. -/
def secPerStep (bpm : ℚ) : ℚ := 60 / bpm / 4

/-- `scheduleNote(step, block, time)`: push the visual marker (and dispatch
the step's voices, which has no effect on scheduler state). -/
def scheduleNote (st : SchedState) : SchedState :=
  { st with visualQueue :=
      st.visualQueue ++ [⟨st.currentPlayStep, st.currentPlayBlock, st.nextNoteTime⟩] }

/-- `advanceNote()`: add one step duration, advance the step counter, and wrap
step and block at the boundaries (block count read fresh from the matrix). -/
def advanceNote (bpm : ℚ) (blocks : List Block) (st : SchedState) : SchedState :=
  let next := st.nextNoteTime + secPerStep bpm
  let s := st.currentPlayStep + 1
  if TimeMatrix.totalSteps ≤ s then
    { nextNoteTime := next, currentPlayStep := 0,
      currentPlayBlock :=
        if blocks.length ≤ st.currentPlayBlock + 1 then 0 else st.currentPlayBlock + 1,
      visualQueue := st.visualQueue }
  else
    { st with nextNoteTime := next, currentPlayStep := s }

theorem scheduleNote_nextNoteTime (st : SchedState) :
    (scheduleNote st).nextNoteTime = st.nextNoteTime := rfl

theorem advanceNote_nextNoteTime (bpm : ℚ) (blocks : List Block) (st : SchedState) :
    (advanceNote bpm blocks st).nextNoteTime = st.nextNoteTime + secPerStep bpm := by
  unfold advanceNote
  dsimp only
  split <;> rfl

/-- One `scheduler()` call at audio-clock time `now`: the while loop that tops
up the queue.  The loop terminates only because each iteration advances
`nextNoteTime` by a positive step; for `bpm ≤ 0` the source would never
terminate, so that case is excluded by the loop guard of the model. -/
def scheduler (bpm : ℚ) (blocks : List Block) (now : ℚ) (st : SchedState) : SchedState :=
  if h : st.nextNoteTime < now + lookahead ∧ 0 < bpm then
    scheduler bpm blocks now (advanceNote bpm blocks (scheduleNote st))
  else st
termination_by (⌈(now + lookahead - st.nextNoteTime) / secPerStep bpm⌉).toNat
decreasing_by
  obtain ⟨h1, h2⟩ := h
  rw [advanceNote_nextNoteTime, scheduleNote_nextNoteTime]
  have hd : 0 < secPerStep bpm := by
    unfold secPerStep
    positivity
  have hx : 0 < (now + lookahead - st.nextNoteTime) / secPerStep bpm :=
    div_pos (by linarith) hd
  have hrw : (now + lookahead - (st.nextNoteTime + secPerStep bpm)) / secPerStep bpm
      = (now + lookahead - st.nextNoteTime) / secPerStep bpm - 1 := by
    field_simp
    ring
  rw [hrw, Int.ceil_sub_one]
  have h1' : 1 ≤ ⌈(now + lookahead - st.nextNoteTime) / secPerStep bpm⌉ :=
    Int.ceil_pos.mpr hx
  omega

/-- Drive the scheduler with an arbitrary sequence of wall-clock tick times
(late, early or duplicated ticks are all just elements of the list). -/
def runTicks (bpm : ℚ) (blocks : List Block) (st : SchedState) (ticks : List ℚ) : SchedState :=
  ticks.foldl (fun s now => scheduler bpm blocks now s) st

/-- `startPlayback()`: step 0, block = currently edited block, first event
100 ms from now, empty visual queue. -/
def startState (editingBlock : ℕ) (now : ℚ) : SchedState :=
  ⟨now + 1 / 10, 0, editingBlock, []⟩

end AudioEngine

/-! ### Bitwise helpers (kernel-reducible `|` and `&` on bytes) -/

def natOrAux : ℕ → ℕ → ℕ → ℕ
  | 0, a, b => a + b
  | fuel + 1, a, b =>
    if a = 0 then b
    else if b = 0 then a
    else (if a % 2 = 1 ∨ b % 2 = 1 then 1 else 0) + 2 * natOrAux fuel (a / 2) (b / 2)

/-- Bitwise or (JS `a | b` on nonnegative values). -/
def natOr (a b : ℕ) : ℕ := natOrAux (a + b) a b

def natAndAux : ℕ → ℕ → ℕ → ℕ
  | 0, _, _ => 0
  | fuel + 1, a, b =>
    if a = 0 ∨ b = 0 then 0
    else (if a % 2 = 1 ∧ b % 2 = 1 then 1 else 0) + 2 * natAndAux fuel (a / 2) (b / 2)

/-- Bitwise and (JS `a & b` on nonnegative values). -/
def natAnd (a b : ℕ) : ℕ := natAndAux (a + b) a b

/-! ### MIDI codec (`MidiIO`, part_000) -/

namespace MidiIO

def ticksPerBeat : ℕ := 480

/-- Continuation-marked high groups of a variable-length quantity (the `while
((val >>= 7))` loop, little-endian before the final reverse). -/
def vlqMarked : ℕ → ℕ → List ℕ
  | 0, _ => []
  | fuel + 1, v => if v = 0 then [] else (v % 128 + 128) :: vlqMarked fuel (v / 128)

/-- `toVLQ(val)`: big-endian base-128 with continuation bits. -/
def toVLQ (val : ℕ) : List ℕ :=
  ((val % 128) :: vlqMarked val (val / 128)).reverse

/-- One pooled event before delta encoding.  `note` is `Option ℤ` because
`getMidiNote` yields `NaN` on malformed notes. -/
structure MidiEv where
  t : ℕ
  type : ℕ
  note : Option ℤ
  vel : ℕ
deriving DecidableEq, Repr, Inhabited

/-- `Uint8Array` coercion of the note value (NaN becomes 0, wrap mod 256). -/
def byteOfNote (n : Option ℤ) : ℕ :=
  match n with
  | none => 0
  | some z => (z % 256).toNat

def midiNoteMapList : List (Str × ℤ) :=
  [(['C'], 0), (['C', '#'], 1), (['D'], 2), (['D', '#'], 3), (['E'], 4), (['F'], 5),
   (['F', '#'], 6), (['G'], 7), (['G', '#'], 8), (['A'], 9), (['A', '#'], 10), (['B'], 11)]

/-- `getMidiNote(note, octave) = (octave + 1) * 12 + map[note]`, `NaN` when
the name is unknown or the octave is `NaN`. -/
def getMidiNote (note : Str) (octave : Option ℤ) : Option ℤ :=
  match octave, jsGetProp note midiNoteMapList with
  | some o, some v => some ((o + 1) * 12 + v)
  | _, _ => none

/-- Drum channel index to General-MIDI-ish note number. -/
def drumMidiNote (chId : ℕ) : ℕ :=
  if 3 < chId then 48 + chId
  else if chId = 3 then 46
  else if chId = 2 then 42
  else if chId = 1 then 38
  else 36

/-- Stable insertion of an event behind all events with `t ≤ e.t`; folding it
over the pool models the stable JS `events.sort((a, b) => a.t - b.t)`. -/
def insertByT (e : MidiEv) : List MidiEv → List MidiEv
  | [] => [e]
  | x :: xs => if x.t ≤ e.t then x :: insertByT e xs else e :: x :: xs

def sortByT (events : List MidiEv) : List MidiEv :=
  events.foldl (fun acc e => insertByT e acc) []

/-- `compileTrack(events)`: time-sort, delta-encode, end-of-track marker. -/
def compileTrack (events : List MidiEv) : List ℕ :=
  let step := fun (acc : List ℕ × ℕ) (e : MidiEv) =>
    (acc.1 ++ toVLQ (e.t - acc.2) ++ [e.type, byteOfNote e.note, e.vel], e.t)
  ((sortByT events).foldl step ([], 0)).1 ++ [0, 255, 47, 0]

/-- The pooled drum events (channel 10, Note-On velocity 100, Note-Off 60
ticks later). -/
def drumEvents (blocks : List Block) : List MidiEv :=
  blocks.enum.flatMap fun bi =>
    let blockOffset := bi.1 * 16 * (ticksPerBeat / 4)
    bi.2.drums.enum.flatMap fun si =>
      if si.2 ≠ [] then
        si.2.flatMap fun chId =>
          [⟨blockOffset + si.1 * (ticksPerBeat / 4), 153, some (drumMidiNote chId), 100⟩,
           ⟨blockOffset + si.1 * (ticksPerBeat / 4) + 60, 137, some (drumMidiNote chId), 0⟩]
      else []

/-- The events of one bass track on MIDI channel `midiCh`. -/
def trackEvents (blocks : List Block) (key : Str) (midiCh : ℕ) : List MidiEv :=
  blocks.enum.flatMap fun bi =>
    match jsGetProp key bi.2.tracks with
    | none => []
    | some trackData =>
      let blockOffset := bi.1 * 16 * (ticksPerBeat / 4)
      trackData.enum.flatMap fun si =>
        match si.2 with
        | none => []
        | some nt =>
          let time := blockOffset + si.1 * (ticksPerBeat / 4)
          let midiNote := getMidiNote nt.note nt.octave
          [⟨time, natOr 144 midiCh, midiNote, if nt.accent then 127 else 90⟩,
           ⟨time + (ticksPerBeat / 4 - 10), natOr 128 midiCh, midiNote, 0⟩]

/-- All distinct track keys found across the blocks, in first-seen order
(JS `Set` iteration order). -/
def collectTrackKeys (blocks : List Block) : List Str :=
  blocks.foldl (fun acc b => b.tracks.foldl
    (fun a p => if p.1 ∈ a then a else a ++ [p.1]) acc) []

/-- The compiled bass tracks; the channel counter skips the value after 9
(the source increments past the drum channel only after handing out 9). -/
def bassTracks (blocks : List Block) : List (List ℕ) :=
  ((collectTrackKeys blocks).foldl
    (fun (acc : List (List ℕ) × ℕ) key =>
      let ch := acc.2
      let counter := if ch = 9 then ch + 2 else ch + 1
      (acc.1 ++ [compileTrack (trackEvents blocks key ch)], counter))
    ([], 0)).1

/-- `Math.round(60000000 / bpm)` as big-endian 3 bytes. -/
def bpmToTempoBytes (bpm : ℕ) : List ℕ :=
  let micro := (2 * 60000000 + bpm) / (2 * bpm)
  [micro / 65536 % 256, micro / 256 % 256, micro % 256]

/-- Track 0: Set Tempo then End-of-Track. -/
def track0 (bpm : ℕ) : List ℕ :=
  [0, 255, 81, 3] ++ bpmToTempoBytes bpm ++ [0, 255, 47, 0]

/-- `buildMidiFile(tracks)`: MThd header (format 1, division 480) and one
MTrk chunk per track. -/
def buildMidiFile (tracks : List (List ℕ)) : List ℕ :=
  [77, 84, 104, 100, 0, 0, 0, 6, 0, 1, tracks.length / 256 % 256, tracks.length % 256,
   ticksPerBeat / 256 % 256, ticksPerBeat % 256] ++
  tracks.flatMap fun t =>
    [77, 84, 114, 107, t.length / 16777216 % 256, t.length / 65536 % 256,
     t.length / 256 % 256, t.length % 256] ++ t

/-- `exportMidi(blocks, bpm)` — `none` models the `null` returned for an
empty block list.  `bpm` is the nonnegative tempo read from `AppState`. -/
def exportMidi (blocks : List Block) (bpm : ℕ) : Option (List ℕ) :=
  if blocks.isEmpty then none
  else
    let dEvents := drumEvents blocks
    let tracks1 := if dEvents ≠ [] then [track0 bpm, compileTrack dEvents] else [track0 bpm]
    some (buildMidiFile (tracks1 ++ bassTracks blocks))

/-- The result of `parseMidi`: step-keyed drum-hit lists and step-keyed
last-write-wins bass notes `(noteNumber, velocity)`. -/
structure MidiImported where
  drums : List (ℕ × List ℕ)
  bass : List (ℕ × (ℕ × ℕ))
deriving DecidableEq, Repr, Inhabited

/-- `data[p]`; JS reads past the end give `undefined`, which every use site
treats like 0 (failing comparisons, zero masks). -/
def byteAt (data : List ℕ) (p : ℕ) : ℕ := data.getD p 0

/-- The guarded delta-time VLQ reader (`do { if (p >= end) break; ... }`).
Returns the value and the new cursor; the fuel bounds the byte loop. -/
def readVLQAux (data : List ℕ) (endP : ℕ) : ℕ → ℕ → ℕ → ℕ × ℕ
  | 0, p, dt => (dt, p)
  | fuel + 1, p, dt =>
    if endP ≤ p then (dt, p)
    else
      let b := byteAt data p
      let dt' := dt * 128 + b % 128
      if 128 ≤ b then readVLQAux data endP fuel (p + 1) dt' else (dt', p + 1)

/-- The unguarded meta-length VLQ reader (reads past the end as 0). -/
def readVLQRaw (data : List ℕ) : ℕ → ℕ → ℕ → ℕ × ℕ
  | 0, p, dt => (dt, p)
  | fuel + 1, p, dt =>
    let b := byteAt data p
    let dt' := dt * 128 + b % 128
    if 128 ≤ b then readVLQRaw data fuel (p + 1) dt' else (dt', p + 1)

/-- `Math.round(absTime / (ticksPerBeat / 4))`. -/
def stepOfTicks (absTime : ℕ) : ℕ := (absTime + 60) / 120

/-- Record one Note-On with positive velocity. -/
def recordNoteOn (ch note vel absTime : ℕ) (acc : MidiImported) : MidiImported :=
  let step := stepOfTicks absTime
  if ch = 9 then
    let internalId :=
      if note = 38 ∨ note = 40 then 1
      else if note = 42 ∨ note = 44 ∨ note = 46 then 2
      else if 47 ≤ note then 3
      else 0
    let cur := (jsGetProp step acc.drums).getD []
    if internalId ∈ cur then acc
    else { acc with drums := jsSetProp step (cur ++ [internalId]) acc.drums }
  else
    { acc with bass := jsSetProp step (note, vel) acc.bass }

/-- The event loop of one track chunk.  A status byte matching no branch
makes the source spin forever; the fuel makes the model total there (all
terminating executions of the source are covered by `fuel = endP + 1`). -/
def parseEvents (data : List ℕ) (endP : ℕ) :
    ℕ → ℕ → ℕ → ℕ → MidiImported → MidiImported
  | 0, _, _, _, acc => acc
  | fuel + 1, p, absTime, lastStatus, acc =>
    if endP ≤ p then acc
    else
      let vr := readVLQAux data endP (endP - p) p 0
      let absTime' := absTime + vr.1
      if endP ≤ vr.2 then acc
      else
        let status0 := byteAt data vr.2
        let status := if status0 < 128 then lastStatus else status0
        let p2 := if status0 < 128 then vr.2 - 1 else vr.2 + 1
        let lastStatus' := if status0 < 128 then lastStatus else status0
        if natAnd status 240 = 144 then
          let note := byteAt data p2
          let vel := byteAt data (p2 + 1)
          let acc' := if 0 < vel then recordNoteOn (natAnd status 15) note vel absTime' acc else acc
          parseEvents data endP fuel (p2 + 2) absTime' lastStatus' acc'
        else if natAnd status 240 = 128 ∨ natAnd status 240 = 176 ∨ natAnd status 240 = 224 then
          parseEvents data endP fuel (p2 + 2) absTime' lastStatus' acc
        else if natAnd status 240 = 192 then
          parseEvents data endP fuel (p2 + 1) absTime' lastStatus' acc
        else if status = 255 then
          let lr := readVLQRaw data (endP + data.length + 1) (p2 + 1) 0
          parseEvents data endP fuel (lr.2 + lr.1) absTime' lastStatus' acc
        else
          parseEvents data endP fuel p2 absTime' lastStatus' acc

/-- The track-chunk loop of `parseMidi`. -/
def parseTracks (data : List ℕ) : ℕ → ℕ → MidiImported → MidiImported
  | 0, _, acc => acc
  | fuel + 1, p, acc =>
    if data.length ≤ p then acc
    else if byteAt data p = 77 ∧ byteAt data (p + 1) = 84 ∧ byteAt data (p + 2) = 114 ∧
        byteAt data (p + 3) = 107 then
      let len := byteAt data (p + 4) * 16777216 + byteAt data (p + 5) * 65536 +
        byteAt data (p + 6) * 256 + byteAt data (p + 7)
      let endP := p + 8 + len
      parseTracks data fuel endP (parseEvents data endP (endP + 1) (p + 8) 0 0 acc)
    else acc

/-- `parseMidi(arrayBuffer)`: `none` models the `null` returned on a bad
`MThd` magic. -/
def parseMidi (data : List ℕ) : Option MidiImported :=
  if byteAt data 0 = 77 ∧ byteAt data 1 = 84 ∧ byteAt data 2 = 104 ∧ byteAt data 3 = 100 then
    some (parseTracks data (data.length + 1) 14 ⟨[], []⟩)
  else none

end MidiIO

/-! ### UI-side MIDI import reconstruction (ui_controller.js, bass branch) -/

def NOTE_NAMES : List Str :=
  [['C'], ['C', '#'], ['D'], ['D', '#'], ['E'], ['F'], ['F', '#'],
   ['G'], ['G', '#'], ['A'], ['A', '#'], ['B']]

def uiNoteName (n : ℕ) : Str := NOTE_NAMES.getD (n % 12) []

/-- `Math.floor(note / 12) - 1`. -/
def uiOctave (n : ℕ) : ℤ := (n / 12 : ℤ) - 1

/-- The `Note` the UI writes into the matrix for an imported bass event. -/
def uiBassNoteOf (noteNum vel : ℕ) : Note :=
  ⟨uiNoteName noteNum, some (uiOctave noteNum), false, decide (100 < vel)⟩

/-! ### Block operation sequences (for the block invariant claim) -/

inductive MatrixOp where
  | addB : MatrixOp
  | removeB : ℕ → MatrixOp
  | regT : Str → MatrixOp
  | remT : Str → MatrixOp
deriving DecidableEq, Repr

def applyOp (blocks : List Block) : MatrixOp → List Block
  | .addB => TimeMatrix.addBlock blocks
  | .removeB i => TimeMatrix.removeBlock i blocks
  | .regT id => TimeMatrix.registerTrack id blocks
  | .remT id => TimeMatrix.removeTrack id blocks

/-- Apply a call sequence starting from the freshly constructed matrix. -/
def applyOps (ops : List MatrixOp) : List Block :=
  ops.foldl applyOp TimeMatrix.initialBlocks

/-! ## Supporting lemmas -/

/-! ### Splitting and joining -/

theorem splitOnChar_ne_nil (sep : Char) (l : Str) : splitOnChar sep l ≠ [] := by
  induction l with
  | nil => simp [splitOnChar]
  | cons c rest ih =>
    rw [splitOnChar]
    split
    · simp
    · match h : splitOnChar sep rest with
      | [] => exact absurd h ih
      | x :: xs => simp

theorem splitOnChar_of_not_mem {sep : Char} {l : Str} (h : sep ∉ l) :
    splitOnChar sep l = [l] := by
  induction l with
  | nil => rfl
  | cons c rest ih =>
    have hc : ¬c = sep := fun e => h (e ▸ List.mem_cons_self c rest)
    have ht : sep ∉ rest := fun hm => h (List.mem_cons_of_mem c hm)
    rw [splitOnChar, if_neg hc, ih ht]

theorem splitOnChar_append_cons (sep : Char) (a rest : Str) (h : sep ∉ a) :
    splitOnChar sep (a ++ sep :: rest) = a :: splitOnChar sep rest := by
  induction a with
  | nil =>
    simp only [List.nil_append]
    rw [splitOnChar]
    simp
  | cons c t ih =>
    have hc : ¬c = sep := fun hc => h (hc ▸ List.mem_cons_self c t)
    have ht : sep ∉ t := fun hm => h (List.mem_cons_of_mem c hm)
    simp only [List.cons_append]
    rw [splitOnChar]
    rw [if_neg hc, ih ht]

theorem splitOnChar_joinCells (sep : Char) (pre : Str) (cells : List Str)
    (hp : sep ∉ pre) (hc : ∀ c ∈ cells, sep ∉ c) :
    splitOnChar sep (pre ++ cells.flatMap fun c => sep :: c) = pre :: cells := by
  induction cells generalizing pre with
  | nil => simpa using splitOnChar_of_not_mem hp
  | cons c cs ih =>
    have : pre ++ (c :: cs).flatMap (fun c => sep :: c)
        = pre ++ sep :: (c ++ cs.flatMap fun c => sep :: c) := by simp
    rw [this, splitOnChar_append_cons sep pre _ hp,
      ih c (hc c (List.mem_cons_self c cs)) fun x hx => hc x (List.mem_cons_of_mem c hx)]

/-! ### Digit strings -/

def digitChars : List Char := ['0', '1', '2', '3', '4', '5', '6', '7', '8', '9']

theorem digitToChar_mem (d : ℕ) (h : d < 10) : digitToChar d ∈ digitChars := by
  interval_cases d <;> decide

theorem digitChar_spec {c : Char} (hc : c ∈ digitChars) :
    ¬c = ',' ∧ ¬c = '\n' ∧ ¬c = '-' ∧ ¬c = ':' ∧ ¬c = '|' ∧ ¬c = '[' ∧ ¬c = ']' ∧
      c.isWhitespace = false ∧ ¬c = 'x' ∧ ¬c = 'X' ∧ c.isDigit = true := by
  fin_cases hc <;> decide

theorem natToCharsAux_eq {fuel n : ℕ} (h : n ≤ fuel) :
    natToCharsAux fuel n = (Nat.digits 10 n).map digitToChar := by
  induction fuel generalizing n with
  | zero =>
    interval_cases n
    simp [natToCharsAux]
  | succ f ih =>
    rcases Nat.eq_zero_or_pos n with h0 | hpos
    · subst h0
      simp [natToCharsAux]
    · rw [natToCharsAux, if_neg (Nat.pos_iff_ne_zero.mp hpos),
        Nat.digits_def' (by norm_num : 1 < 10) hpos, List.map_cons,
        ih (by omega)]

theorem natToChars_ne_nil (n : ℕ) : natToChars n ≠ [] := by
  unfold natToChars
  split
  · simp
  · rw [natToCharsAux_eq le_rfl]
    simp [Nat.digits_ne_nil_iff_ne_zero, *]

theorem mem_natToChars {n : ℕ} : ∀ c ∈ natToChars n, c ∈ digitChars := by
  intro c hc
  unfold natToChars at hc
  split at hc
  · simp at hc
    subst hc
    decide
  · rw [natToCharsAux_eq le_rfl] at hc
    rw [List.mem_reverse, List.mem_map] at hc
    obtain ⟨d, hd, rfl⟩ := hc
    exact digitToChar_mem d (Nat.digits_lt_base (by norm_num) hd)

theorem charToDigit_digitToChar {d : ℕ} (h : d < 10) : charToDigit (digitToChar d) = d := by
  interval_cases d <;> decide

theorem parseDigits_append_singleton (l : Str) (c : Char) :
    parseDigits (l ++ [c]) = 10 * parseDigits l + charToDigit c := by
  simp [parseDigits, List.foldl_append]

theorem parseDigits_rev_digits {ds : List ℕ} (h : ∀ d ∈ ds, d < 10) :
    parseDigits ((ds.map digitToChar).reverse) = Nat.ofDigits 10 ds := by
  induction ds with
  | nil => rfl
  | cons d t ih =>
    rw [List.map_cons, List.reverse_cons, parseDigits_append_singleton,
      ih fun x hx => h x (List.mem_cons_of_mem d hx), Nat.ofDigits_cons,
      charToDigit_digitToChar (h d (List.mem_cons_self d t))]
    ring

theorem parseDigits_natToChars (n : ℕ) : parseDigits (natToChars n) = n := by
  unfold natToChars
  split
  · simp [*]
    rfl
  · rw [natToCharsAux_eq le_rfl,
      parseDigits_rev_digits fun d hd => Nat.digits_lt_base (by norm_num) hd,
      Nat.ofDigits_digits]

theorem takeWhile_eq_self_of_all {l : Str} (h : ∀ c ∈ l, c.isDigit = true) :
    l.takeWhile Char.isDigit = l := by
  induction l with
  | nil => rfl
  | cons c t ih =>
    simp only [List.takeWhile_cons, h c (List.mem_cons_self c t), if_true]
    rw [ih fun x hx => h x (List.mem_cons_of_mem c hx)]

theorem parseDec_digits {l : Str} (hne : l ≠ []) (h : ∀ c ∈ l, c.isDigit = true) :
    parseDec l = some (parseDigits l) := by
  unfold parseDec
  rw [takeWhile_eq_self_of_all h, if_neg (by simpa using hne)]

theorem parseIntCore_natToChars (n : ℕ) : parseIntCore (natToChars n) = some n := by
  have hmem := @mem_natToChars n
  have hdec : parseDec (natToChars n) = some (parseDigits (natToChars n)) :=
    parseDec_digits (natToChars_ne_nil n) fun c hc => (digitChar_spec (hmem c hc)).2.2.2.2.2.2.2.2.2.2
  unfold parseIntCore
  split
  · rename_i c rest heq
    have hcm : c ∈ digitChars := hmem c (by rw [heq]; simp)
    rw [if_neg (by
      have := digitChar_spec hcm
      rintro (rfl | rfl)
      · exact this.2.2.2.2.2.2.2.2.1 rfl
      · exact this.2.2.2.2.2.2.2.2.2.1 rfl)]
    rw [heq] at hdec ⊢
    rw [hdec]
    rw [← heq, parseDigits_natToChars]
  · rw [hdec, parseDigits_natToChars]

theorem dropWhile_ws_natToChars (n : ℕ) :
    (natToChars n).dropWhile Char.isWhitespace = natToChars n := by
  match h : natToChars n with
  | [] => rfl
  | c :: t =>
    have hcm : c ∈ digitChars := mem_natToChars c (by rw [h]; simp)
    rw [List.dropWhile_cons, (digitChar_spec hcm).2.2.2.2.2.2.2.1]
    simp

theorem parseIntJS_natToChars (n : ℕ) : parseIntJS (natToChars n) = some (n : ℤ) := by
  have hmem := @mem_natToChars n
  simp only [parseIntJS, dropWhile_ws_natToChars]
  split
  · rename_i rest heq
    have : ('-' : Char) ∈ digitChars := hmem _ (by rw [heq]; simp)
    exact absurd this (by decide)
  · rename_i rest heq
    have : ('+' : Char) ∈ digitChars := hmem _ (by rw [heq]; simp)
    exact absurd this (by decide)
  · rw [parseIntCore_natToChars]
    rfl

theorem parseIntJS_intToChars (z : ℤ) : parseIntJS (intToChars z) = some z := by
  unfold intToChars
  split
  · rename_i hneg
    have hds : ('-' :: natToChars z.natAbs).dropWhile Char.isWhitespace
        = '-' :: natToChars z.natAbs := by
      rw [List.dropWhile_cons]
      simp
    simp only [parseIntJS, hds]
    rw [parseIntCore_natToChars]
    have habs : ((z.natAbs : ℤ)) = -z := by omega
    simp [habs]
  · rw [parseIntJS_natToChars]
    simp
    omega

/-! ### Trimming -/

theorem dropWhile_ws_eq_self {l : Str}
    (h : ∀ c, l.head? = some c → c.isWhitespace = false) :
    l.dropWhile Char.isWhitespace = l := by
  match l with
  | [] => rfl
  | c :: t =>
    rw [List.dropWhile_cons, h c rfl]
    simp

theorem trimJS_eq_self {l : Str}
    (h1 : ∀ c, l.head? = some c → c.isWhitespace = false)
    (h2 : ∀ c, l.getLast? = some c → c.isWhitespace = false) :
    trimJS l = l := by
  unfold trimJS
  rw [dropWhile_ws_eq_self h1,
    dropWhile_ws_eq_self (by
      intro c hc
      rw [List.head?_reverse] at hc
      exact h2 c hc),
    List.reverse_reverse]

/-! ### Association lists and in-place list updates -/

theorem jsGetProp_isSome_iff {κ α : Type} [DecidableEq κ] (id : κ) (l : List (κ × α)) :
    (jsGetProp id l).isSome = true ↔ id ∈ l.map Prod.fst := by
  induction l with
  | nil => simp [jsGetProp]
  | cons p t ih =>
    obtain ⟨k, v⟩ := p
    by_cases hk : k = id
    · subst hk
      simp [jsGetProp]
    · rw [jsGetProp, if_neg hk]
      simp [ih, hk, Ne.symm hk]

theorem jsGetProp_eq_none_iff {κ α : Type} [DecidableEq κ] (id : κ) (l : List (κ × α)) :
    jsGetProp id l = none ↔ id ∉ l.map Prod.fst := by
  rw [← jsGetProp_isSome_iff]
  cases jsGetProp id l <;> simp

theorem jsGetProp_append {κ α : Type} [DecidableEq κ] (id : κ) (l1 l2 : List (κ × α)) :
    jsGetProp id (l1 ++ l2) =
      match jsGetProp id l1 with
      | some v => some v
      | none => jsGetProp id l2 := by
  induction l1 with
  | nil => simp [jsGetProp]
  | cons p t ih =>
    obtain ⟨k, v⟩ := p
    by_cases hk : k = id
    · subst hk
      simp [jsGetProp]
    · simp only [List.cons_append, jsGetProp, if_neg hk]
      exact ih

theorem jsGetProp_assocModify_same {κ α : Type} [DecidableEq κ] (id : κ) (f : α → α)
    (l : List (κ × α)) :
    jsGetProp id (assocModify id f l) = (jsGetProp id l).map f := by
  induction l with
  | nil => simp [jsGetProp, assocModify]
  | cons p t ih =>
    obtain ⟨k, v⟩ := p
    by_cases hk : k = id
    · subst hk
      simp [jsGetProp, assocModify]
    · rw [assocModify, if_neg hk, jsGetProp, if_neg hk, jsGetProp, if_neg hk]
      exact ih

theorem jsGetProp_assocModify_ne {κ α : Type} [DecidableEq κ] {id id' : κ} (f : α → α)
    (l : List (κ × α)) (h : id' ≠ id) :
    jsGetProp id' (assocModify id f l) = jsGetProp id' l := by
  induction l with
  | nil => simp [assocModify]
  | cons p t ih =>
    obtain ⟨k, v⟩ := p
    by_cases hk : k = id
    · subst hk
      rw [assocModify, if_pos rfl, jsGetProp, if_neg (Ne.symm h), jsGetProp,
        if_neg (Ne.symm h)]
    · rw [assocModify, if_neg hk]
      by_cases hk' : k = id'
      · subst hk'
        rw [jsGetProp, if_pos rfl, jsGetProp, if_pos rfl]
      · rw [jsGetProp, if_neg hk', jsGetProp, if_neg hk']
        exact ih

theorem assocModify_map_fst {κ α : Type} [DecidableEq κ] (id : κ) (f : α → α)
    (l : List (κ × α)) :
    (assocModify id f l).map Prod.fst = l.map Prod.fst := by
  induction l with
  | nil => rfl
  | cons p t ih =>
    obtain ⟨k, v⟩ := p
    by_cases hk : k = id
    · subst hk
      simp [assocModify]
    · simp [assocModify, if_neg hk, ih]

theorem length_listModify {α : Type} (l : List α) (i : ℕ) (f : α → α) :
    (listModify l i f).length = l.length := by
  induction l generalizing i with
  | nil => rfl
  | cons a t ih =>
    cases i with
    | zero => rfl
    | succ j => simp [listModify, ih]

theorem get?_listModify_same {α : Type} (l : List α) (i : ℕ) (f : α → α) :
    (listModify l i f).get? i = (l.get? i).map f := by
  induction l generalizing i with
  | nil => simp [listModify]
  | cons a t ih =>
    cases i with
    | zero => simp [listModify]
    | succ j => simpa [listModify] using ih j

theorem get?_listModify_ne {α : Type} (l : List α) {i j : ℕ} (f : α → α) (h : j ≠ i) :
    (listModify l i f).get? j = l.get? j := by
  induction l generalizing i j with
  | nil => simp [listModify]
  | cons a t ih =>
    cases i with
    | zero =>
      cases j with
      | zero => exact absurd rfl h
      | succ j' => simp [listModify]
    | succ i' =>
      cases j with
      | zero => simp [listModify]
      | succ j' => simpa [listModify] using ih fun e => h (by omega)

theorem get?_eraseIdx {α : Type} (l : List α) (i j : ℕ) :
    (l.eraseIdx i).get? j = if j < i then l.get? j else l.get? (j + 1) := by
  induction l generalizing i j with
  | nil => simp [List.eraseIdx]
  | cons a t ih =>
    cases i with
    | zero => simp [List.eraseIdx]
    | succ i' =>
      cases j with
      | zero => simp [List.eraseIdx]
      | succ j' =>
        simp only [List.eraseIdx, List.get?_cons_succ]
        rw [ih i' j']
        by_cases hj : j' < i'
        · rw [if_pos hj, if_pos (by omega)]
        · rw [if_neg hj, if_neg (by omega)]

/-! ## Sample data used by witnesses -/

def sampleBlock : Block :=
  { tracks := [(TimeMatrix.defaultTrackId, TimeMatrix.freshTrack)],
    drums := List.replicate 16 [] }

def sampleState : EngineState :=
  { bpm := 174, blocks := [sampleBlock],
    bassSynths := [{ id := TimeMatrix.defaultTrackId, params := defaultParams }],
    drum := DrumSynth.initState }

/-! ## Claim C10 -/

/-- Claim C10: `moveBlock` range-checks only the destination index
`idx + dir`, not the source.  For any block array of length `n ≥ 1`,
`moveBlock(n, -1)` succeeds and produces the array with the entry at `n - 1`
replaced by `undefined` and the former block of position `n - 1` appended at
position `n`, so the array grows to length `n + 1`. -/
theorem c10_moveBlock_unchecked_source (bs : List Block) (h : 1 ≤ bs.length) :
    TimeMatrix.moveBlock (bs.map some) bs.length (-1) =
      (true, (bs.map some).set (bs.length - 1) none ++ [bs.get? (bs.length - 1)]) ∧
    ((bs.map some).set (bs.length - 1) none ++ [bs.get? (bs.length - 1)]).length
      = bs.length + 1 := by
  constructor
  · have hlen : (bs.map some).length = bs.length := List.length_map bs some
    have hcond : ¬(((bs.length : ℤ) + -1) < 0 ∨ (((bs.map some).length : ℤ) ≤ (bs.length : ℤ) + -1)) := by
      rw [hlen]
      omega
    have htn : ((bs.length : ℤ) + -1).toNat = bs.length - 1 := by omega
    have hget : jsArrGet (bs.map some) (bs.length - 1) = bs.get? (bs.length - 1) := by
      unfold jsArrGet
      rw [List.getD_eq_getElem?_getD, List.getElem?_map]
      cases hg : bs[bs.length - 1]? with
      | none =>
        rw [List.getElem?_eq_none_iff] at hg
        omega
      | some b =>
        rw [List.get?_eq_getElem?, hg]
        rfl
    have hgetn : jsArrGet (bs.map some) bs.length = none := by
      unfold jsArrGet
      rw [List.getD_eq_getElem?_getD, List.getElem?_eq_none_iff.mpr (by simp)]
      rfl
    have hset1 : jsArrSet (bs.map some) (bs.length - 1) none
        = (bs.map some).set (bs.length - 1) none := by
      unfold jsArrSet
      rw [if_pos (by rw [hlen]; omega)]
    have hlen1 : ((bs.map some).set (bs.length - 1) none).length = bs.length := by
      simp
    have hset2 : jsArrSet ((bs.map some).set (bs.length - 1) none) bs.length
          (bs.get? (bs.length - 1))
        = (bs.map some).set (bs.length - 1) none ++ [bs.get? (bs.length - 1)] := by
      unfold jsArrSet
      rw [if_neg (by rw [hlen1]; omega), hlen1]
      simp
    simp only [TimeMatrix.moveBlock, if_neg hcond, htn, hgetn, hget, hset1, hset2]
  · simp

def c10w : List Block := [sampleBlock]

/-- Witness for C10 at the one-block array. -/
theorem c10_moveBlock_unchecked_source_witness :
    1 ≤ c10w.length ∧
      (TimeMatrix.moveBlock (c10w.map some) c10w.length (-1) =
        (true, (c10w.map some).set (c10w.length - 1) none ++ [c10w.get? (c10w.length - 1)]) ∧
      ((c10w.map some).set (c10w.length - 1) none ++ [c10w.get? (c10w.length - 1)]).length
        = c10w.length + 1) :=
  ⟨by decide, c10_moveBlock_unchecked_source c10w (by decide)⟩

/-! ## Claim C6 -/

/-- Claim C6: `removeBlock` on the last remaining block keeps the block count
at 1 and clears the block in place (track keys kept, all note slots null, all
drum sets empty); with more than one block and a valid index it removes the
block and shifts the later blocks down. -/
theorem c6_removeBlock_last_block_protection (blocks : List Block) (idx : ℕ) :
    (blocks.length = 1 →
      (TimeMatrix.removeBlock idx blocks).length = 1 ∧
      ((TimeMatrix.removeBlock idx blocks).getD 0 default).tracks.map Prod.fst
        = (blocks.getD 0 default).tracks.map Prod.fst ∧
      (∀ p ∈ ((TimeMatrix.removeBlock idx blocks).getD 0 default).tracks, ∀ x ∈ p.2, x = none) ∧
      (∀ d ∈ ((TimeMatrix.removeBlock idx blocks).getD 0 default).drums, d = [])) ∧
    (2 ≤ blocks.length → idx < blocks.length →
      (TimeMatrix.removeBlock idx blocks).length = blocks.length - 1 ∧
      ∀ j, (j < idx → (TimeMatrix.removeBlock idx blocks).get? j = blocks.get? j) ∧
        (idx ≤ j → (TimeMatrix.removeBlock idx blocks).get? j = blocks.get? (j + 1))) := by
  constructor
  · intro h1
    obtain ⟨b, rfl⟩ := List.length_eq_one.mp h1
    unfold TimeMatrix.removeBlock
    rw [if_pos (by simp)]
    unfold TimeMatrix.clearBlock listModify
    refine ⟨rfl, by simp, ?_, by simp⟩
    intro p hp x hx
    simp only [List.getD, List.get?_cons_zero] at hp
    simp at hp
    obtain ⟨k, tr, hmem, rfl⟩ := hp
    simp at hx
    exact hx.2
  · intro h2 hidx
    unfold TimeMatrix.removeBlock
    rw [if_neg (by omega)]
    refine ⟨by have := List.length_eraseIdx_add_one hidx; omega, ?_⟩
    intro j
    constructor
    · intro hj
      rw [get?_eraseIdx, if_pos hj]
    · intro hj
      rw [get?_eraseIdx, if_neg (by omega)]

def c6wA : List Block := [sampleBlock]

def c6wB : List Block := [sampleBlock, { tracks := [], drums := [] }]

/-- Witness for C6 covering both the single-block and the multi-block case. -/
theorem c6_removeBlock_last_block_protection_witness :
    (c6wA.length = 1 ∧
      (TimeMatrix.removeBlock 0 c6wA).length = 1 ∧
      ((TimeMatrix.removeBlock 0 c6wA).getD 0 default).tracks.map Prod.fst
        = (c6wA.getD 0 default).tracks.map Prod.fst ∧
      (∀ p ∈ ((TimeMatrix.removeBlock 0 c6wA).getD 0 default).tracks, ∀ x ∈ p.2, x = none) ∧
      (∀ d ∈ ((TimeMatrix.removeBlock 0 c6wA).getD 0 default).drums, d = [])) ∧
    (2 ≤ c6wB.length ∧ 0 < c6wB.length ∧
      (TimeMatrix.removeBlock 0 c6wB).length = c6wB.length - 1 ∧
      ∀ j, (j < 0 → (TimeMatrix.removeBlock 0 c6wB).get? j = c6wB.get? j) ∧
        (0 ≤ j → (TimeMatrix.removeBlock 0 c6wB).get? j = c6wB.get? (j + 1))) :=
  ⟨⟨by decide, (c6_removeBlock_last_block_protection c6wA 0).1 (by decide)⟩,
   ⟨by decide, by decide, (c6_removeBlock_last_block_protection c6wB 0).2 (by decide) (by decide)⟩⟩

/-! ## Claim C2 -/

/-- Claim C2: a failed CSV import never leaves the session partially mutated —
whenever `importFromCSV` returns `false`, the resulting live state is exactly
the state before the call.  (All throwing checks of the source precede its
first mutation; see the import section above.) -/
theorem importFromCSV_cases (st : EngineState) (input : Str) :
    (importFromCSV st input).1 = true ∨ importFromCSV st input = (false, st) := by
  simp only [importFromCSV]
  split
  · right
    rfl
  · split
    · right
      rfl
    · split
      · left
        rfl
      · right
        rfl

/-- Claim C2: a failed CSV import never leaves the session partially mutated —
whenever `importFromCSV` returns `false`, the resulting live state is exactly
the state before the call.  (All throwing checks of the source precede its
first mutation; see the import section above.) -/
theorem c2_import_failure_leaves_state (st : EngineState) (input : Str)
    (h : (importFromCSV st input).1 = false) :
    (importFromCSV st input).2 = st := by
  rcases importFromCSV_cases st input with ht | he
  · rw [ht] at h
    cases h
  · rw [he]

/-- Witness for C2: importing the empty string fails and changes nothing. -/
theorem c2_import_failure_leaves_state_witness :
    (importFromCSV sampleState []).1 = false ∧
      (importFromCSV sampleState []).2 = sampleState :=
  ⟨rfl, c2_import_failure_leaves_state sampleState [] rfl⟩

/-! ## Claim C5 -/

/-- The block-list invariant: at least one block, all blocks share one track
key list, and every track array has exactly `totalSteps` entries. -/
def BlocksInv (blocks : List Block) : Prop :=
  blocks ≠ [] ∧ ∃ K : List Str, ∀ b ∈ blocks,
    b.tracks.map Prod.fst = K ∧ ∀ p ∈ b.tracks, p.2.length = TimeMatrix.totalSteps

theorem length_eraseIdx_ge {α : Type} (l : List α) (i : ℕ) :
    l.length - 1 ≤ (l.eraseIdx i).length := by
  induction l generalizing i with
  | nil => simp [List.eraseIdx]
  | cons a t ih =>
    cases i with
    | zero => simp [List.eraseIdx]
    | succ i' =>
      have := ih i'
      simp only [List.eraseIdx, List.length_cons]
      omega

theorem map_fst_filter_ne (id : Str) (l : List (Str × List (Option Note))) :
    (l.filter fun p => ¬p.1 = id).map Prod.fst = (l.map Prod.fst).filter fun k => ¬k = id := by
  induction l with
  | nil => rfl
  | cons p t ih =>
    obtain ⟨k, v⟩ := p
    simp only [decide_not] at ih
    simp only [List.filter_cons, List.map_cons, decide_not]
    by_cases hk : k = id
    · subst hk
      simp [ih]
    · simp [hk, ih]

theorem inv_addBlock {blocks : List Block} (h : BlocksInv blocks) :
    BlocksInv (TimeMatrix.addBlock blocks) := by
  obtain ⟨hne, K, hK⟩ := h
  obtain ⟨b0, rest, rfl⟩ := List.exists_cons_of_ne_nil hne
  refine ⟨by simp [TimeMatrix.addBlock], K, ?_⟩
  intro b hb
  simp only [TimeMatrix.addBlock, List.mem_append, List.mem_singleton] at hb
  rcases hb with hb | rfl
  · exact hK b hb
  · constructor
    · have h0 := (hK b0 (List.mem_cons_self b0 rest)).1
      simp only [List.map_map]
      simpa using h0
    · intro p hp
      simp only [List.mem_map] at hp
      obtain ⟨q, hq, rfl⟩ := hp
      simp [TimeMatrix.freshTrack]

theorem inv_removeBlock {blocks : List Block} (i : ℕ) (h : BlocksInv blocks) :
    BlocksInv (TimeMatrix.removeBlock i blocks) := by
  obtain ⟨hne, K, hK⟩ := h
  unfold TimeMatrix.removeBlock
  split
  · rename_i hle
    obtain ⟨b, rfl⟩ := List.length_eq_one.mp
      (le_antisymm hle (by cases blocks with | nil => exact absurd rfl hne | cons a t => simp))
    refine ⟨by simp [TimeMatrix.clearBlock, listModify], K, ?_⟩
    intro b' hb'
    simp only [TimeMatrix.clearBlock, listModify, List.mem_singleton] at hb'
    subst hb'
    constructor
    · have h0 := (hK b (List.mem_cons_self b [])).1
      simp only [List.map_map]
      simpa using h0
    · intro p hp
      simp only [List.mem_map] at hp
      obtain ⟨q, hq, rfl⟩ := hp
      simpa using (hK b (List.mem_cons_self b [])).2 q hq
  · rename_i hgt
    refine ⟨?_, K, ?_⟩
    · have h2 : 2 ≤ blocks.length := by omega
      have := length_eraseIdx_ge blocks i
      intro hnil
      rw [hnil] at this
      simp at this
      omega
    · intro b hb
      exact hK b (List.eraseIdx_subset blocks i hb)

theorem inv_registerTrack {blocks : List Block} (id : Str) (h : BlocksInv blocks) :
    BlocksInv (TimeMatrix.registerTrack id blocks) := by
  obtain ⟨hne, K, hK⟩ := h
  by_cases hid : id ∈ K
  · refine ⟨by simpa [TimeMatrix.registerTrack] using hne, K, ?_⟩
    intro b hb
    simp only [TimeMatrix.registerTrack, List.mem_map] at hb
    obtain ⟨b0, hb0, rfl⟩ := hb
    have hsome : (jsGetProp id b0.tracks).isSome = true := by
      rw [jsGetProp_isSome_iff, (hK b0 hb0).1]
      exact hid
    rw [if_pos hsome]
    exact hK b0 hb0
  · refine ⟨by simpa [TimeMatrix.registerTrack] using hne, K ++ [id], ?_⟩
    intro b hb
    simp only [TimeMatrix.registerTrack, List.mem_map] at hb
    obtain ⟨b0, hb0, rfl⟩ := hb
    have hnone : ¬(jsGetProp id b0.tracks).isSome = true := by
      rw [jsGetProp_isSome_iff, (hK b0 hb0).1]
      exact hid
    rw [if_neg hnone]
    constructor
    · simp [(hK b0 hb0).1]
    · intro p hp
      simp only [List.mem_append, List.mem_singleton] at hp
      rcases hp with hp | rfl
      · exact (hK b0 hb0).2 p hp
      · simp [TimeMatrix.freshTrack]

theorem inv_removeTrack {blocks : List Block} (id : Str) (h : BlocksInv blocks) :
    BlocksInv (TimeMatrix.removeTrack id blocks) := by
  obtain ⟨hne, K, hK⟩ := h
  refine ⟨by simpa [TimeMatrix.removeTrack] using hne, K.filter fun k => ¬k = id, ?_⟩
  intro b hb
  simp only [TimeMatrix.removeTrack, List.mem_map] at hb
  obtain ⟨b0, hb0, rfl⟩ := hb
  constructor
  · simp only [map_fst_filter_ne, (hK b0 hb0).1]
  · intro p hp
    exact (hK b0 hb0).2 p (List.mem_of_mem_filter hp)

theorem inv_applyOp {blocks : List Block} (op : MatrixOp) (h : BlocksInv blocks) :
    BlocksInv (applyOp blocks op) := by
  cases op with
  | addB => exact inv_addBlock h
  | removeB i => exact inv_removeBlock i h
  | regT id => exact inv_registerTrack id h
  | remT id => exact inv_removeTrack id h

theorem inv_initialBlocks : BlocksInv TimeMatrix.initialBlocks := by
  refine ⟨by decide, [TimeMatrix.defaultTrackId], ?_⟩
  intro b hb
  simp only [TimeMatrix.initialBlocks, TimeMatrix.addBlock, List.nil_append,
    List.mem_singleton] at hb
  subst hb
  exact ⟨rfl, by intro p hp; simp at hp; subst hp; simp [TimeMatrix.freshTrack]⟩

theorem inv_foldl (ops : List MatrixOp) (blocks : List Block) (h : BlocksInv blocks) :
    BlocksInv (ops.foldl applyOp blocks) := by
  induction ops generalizing blocks with
  | nil => exact h
  | cons op t ih => exact ih _ (inv_applyOp op h)

theorem inv_applyOps (ops : List MatrixOp) : BlocksInv (applyOps ops) :=
  inv_foldl ops _ inv_initialBlocks

/-- Claim C5: starting from the initial session, any sequence of `addBlock`,
`removeBlock`, `registerTrack` and `removeTrack` calls leaves every block with
an identical track key list, each track array of length exactly 16. -/
theorem c5_block_invariant (ops : List MatrixOp) (i j : ℕ)
    (hi : i < (applyOps ops).length) (hj : j < (applyOps ops).length) :
    ((applyOps ops).getD i default).tracks.map Prod.fst
      = ((applyOps ops).getD j default).tracks.map Prod.fst ∧
    ∀ p ∈ ((applyOps ops).getD i default).tracks, p.2.length = TimeMatrix.totalSteps := by
  obtain ⟨hne, K, hK⟩ := inv_applyOps ops
  have hmi : (applyOps ops).getD i default ∈ applyOps ops := by
    rw [List.getD_eq_getElem _ default hi]
    exact List.getElem_mem _
  have hmj : (applyOps ops).getD j default ∈ applyOps ops := by
    rw [List.getD_eq_getElem _ default hj]
    exact List.getElem_mem _
  exact ⟨(hK _ hmi).1.trans (hK _ hmj).1.symm, (hK _ hmi).2⟩

def c5ops : List MatrixOp := [MatrixOp.addB, MatrixOp.regT ['x']]

/-- Witness for C5 at a concrete two-operation call sequence. -/
theorem c5_block_invariant_witness :
    0 < (applyOps c5ops).length ∧ 1 < (applyOps c5ops).length ∧
      (((applyOps c5ops).getD 0 default).tracks.map Prod.fst
        = ((applyOps c5ops).getD 1 default).tracks.map Prod.fst ∧
      ∀ p ∈ ((applyOps c5ops).getD 0 default).tracks, p.2.length = TimeMatrix.totalSteps) :=
  ⟨by decide, by decide, c5_block_invariant c5ops 0 1 (by decide) (by decide)⟩

/-! ## Claim C4 -/

def c4blocks : List Block := [sampleBlock]

/-- The scheduler state right after block 1 was removed while it was playing
mid-bar: the live matrix has one block left, the play position still points at
the removed block 1, step 5. -/
def c4start : SchedState := ⟨0, 5, 1, []⟩

/-- Counterexample to claim C4 as stated: with one block left and the play
position still on the removed block 1, the next tick schedules step 5 of
block 1 — `scheduleNote` (and hence `getStepData`) IS invoked with the
out-of-range block index 1; nothing clamps `currentPlayBlock` at removal
time.  `getStepData` merely returns the empty record for it. -/
theorem c4_counterexample :
    (AudioEngine.scheduler 120 c4blocks 0 c4start).visualQueue
      = [⟨5, 1, 0⟩] ∧
    c4blocks.length = 1 ∧
    TimeMatrix.getStepData c4blocks 5 1 = none := by
  refine ⟨?_, rfl, rfl⟩
  rw [AudioEngine.scheduler]
  rw [dif_pos (by constructor <;> norm_num [c4start, AudioEngine.lookahead])]
  rw [AudioEngine.scheduler]
  rw [dif_neg (by
    intro hc
    have := hc.1
    norm_num [c4start, AudioEngine.advanceNote, AudioEngine.scheduleNote,
      AudioEngine.secPerStep, AudioEngine.lookahead, TimeMatrix.totalSteps] at this)]
  norm_num [c4start, AudioEngine.advanceNote, AudioEngine.scheduleNote,
    TimeMatrix.totalSteps]

/-- Claim C4 (amended): `currentBlock` is not clamped when blocks are removed
mid-bar; until the bar boundary the scheduler may pass the stale out-of-range
block index to `getStepData`, which returns the empty record (so those steps
dispatch nothing and never throw), and at the bar boundary `advanceNote`
wraps the block index back into range. -/
theorem c4_stale_block_is_benign (blocks : List Block) (step blockIdx : ℕ) (bpm : ℚ)
    (st : SchedState) :
    (blocks.length ≤ blockIdx → TimeMatrix.getStepData blocks step blockIdx = none) ∧
    (1 ≤ blocks.length → (AudioEngine.advanceNote bpm blocks st).currentPlayStep = 0 →
      (AudioEngine.advanceNote bpm blocks st).currentPlayBlock < blocks.length) := by
  constructor
  · intro h
    unfold TimeMatrix.getStepData
    rw [List.get?_eq_none.mpr h]
  · intro hlen hstep
    unfold AudioEngine.advanceNote at hstep ⊢
    dsimp only at hstep ⊢
    by_cases hs : TimeMatrix.totalSteps ≤ st.currentPlayStep + 1
    · rw [if_pos hs]
      dsimp only
      split
      · omega
      · rename_i hb
        omega
    · rw [if_neg hs] at hstep
      simp at hstep

/-- Witness for the amended C4 at concrete inputs (an out-of-range read and a
bar-boundary wrap). -/
theorem c4_stale_block_is_benign_witness :
    (c4blocks.length ≤ 7 ∧ TimeMatrix.getStepData c4blocks 3 7 = none) ∧
    (1 ≤ c4blocks.length ∧
      (AudioEngine.advanceNote 1 c4blocks ⟨0, 15, 0, []⟩).currentPlayStep = 0 ∧
      (AudioEngine.advanceNote 1 c4blocks ⟨0, 15, 0, []⟩).currentPlayBlock < c4blocks.length) :=
  ⟨⟨by decide, (c4_stale_block_is_benign c4blocks 3 7 1 ⟨0, 15, 0, []⟩).1 (by decide)⟩,
   ⟨by decide, by decide,
    (c4_stale_block_is_benign c4blocks 3 7 1 ⟨0, 15, 0, []⟩).2 (by decide) (by decide)⟩⟩

/-! ## Claim C3 -/

/-- Consecutive events of the queue are exactly `d` apart. -/
def Spaced (d : ℚ) : List SchedEvent → Prop
  | [] => True
  | [_] => True
  | e1 :: e2 :: rest => e2.time = e1.time + d ∧ Spaced d (e2 :: rest)

/-- The scheduler invariant: the queue is uniformly spaced and the next event
time sits one step after the queue's last event. -/
def QueueInv (d : ℚ) (st : SchedState) : Prop :=
  Spaced d st.visualQueue ∧
  ∀ e, st.visualQueue.getLast? = some e → st.nextNoteTime = e.time + d

theorem spaced_append (d : ℚ) (l : List SchedEvent) (x : SchedEvent) (h : Spaced d l)
    (hl : ∀ e, l.getLast? = some e → x.time = e.time + d) : Spaced d (l ++ [x]) := by
  induction l with
  | nil => exact trivial
  | cons e t ih =>
    cases t with
    | nil => exact ⟨hl e rfl, trivial⟩
    | cons e2 t2 =>
      obtain ⟨h1, h2⟩ := h
      refine ⟨h1, ih h2 ?_⟩
      intro e' he'
      apply hl
      rw [List.getLast?_cons_cons]
      exact he'

theorem spaced_get? (d : ℚ) (l : List SchedEvent) (h : Spaced d l) (i : ℕ)
    (e1 e2 : SchedEvent) (h1 : l.get? i = some e1) (h2 : l.get? (i + 1) = some e2) :
    e2.time = e1.time + d := by
  induction l generalizing i with
  | nil => simp at h1
  | cons a t ih =>
    cases t with
    | nil =>
      cases i with
      | zero => simp at h2
      | succ j => simp at h1
    | cons b t2 =>
      obtain ⟨hab, hrest⟩ := h
      cases i with
      | zero =>
        simp only [List.get?_cons_zero] at h1
        simp only [List.get?_cons_succ, List.get?_cons_zero] at h2
        cases h1
        cases h2
        exact hab
      | succ j => exact ih hrest j h1 h2

theorem queueInv_step (bpm : ℚ) (blocks : List Block) (st : SchedState)
    (h : QueueInv (AudioEngine.secPerStep bpm) st) :
    QueueInv (AudioEngine.secPerStep bpm)
      (AudioEngine.advanceNote bpm blocks (AudioEngine.scheduleNote st)) := by
  obtain ⟨hs, hl⟩ := h
  have hq : (AudioEngine.advanceNote bpm blocks (AudioEngine.scheduleNote st)).visualQueue
      = st.visualQueue ++ [⟨st.currentPlayStep, st.currentPlayBlock, st.nextNoteTime⟩] := by
    unfold AudioEngine.advanceNote AudioEngine.scheduleNote
    dsimp only
    split <;> rfl
  constructor
  · rw [hq]
    apply spaced_append _ _ _ hs
    intro e he
    exact (hl e he).symm ▸ rfl
  · intro e he
    rw [hq, List.getLast?_append_cons, List.getLast?_singleton] at he
    cases he
    rw [AudioEngine.advanceNote_nextNoteTime, AudioEngine.scheduleNote_nextNoteTime]

theorem queueInv_scheduler (bpm : ℚ) (blocks : List Block) (now : ℚ) (st : SchedState)
    (h : QueueInv (AudioEngine.secPerStep bpm) st) :
    QueueInv (AudioEngine.secPerStep bpm) (AudioEngine.scheduler bpm blocks now st) := by
  induction st using AudioEngine.scheduler.induct bpm blocks now with
  | case1 st hcond ih =>
    rw [AudioEngine.scheduler, dif_pos hcond]
    exact ih (queueInv_step bpm blocks st h)
  | case2 st hcond =>
    rw [AudioEngine.scheduler, dif_neg hcond]
    exact h

theorem queueInv_runTicks (bpm : ℚ) (blocks : List Block) (st : SchedState)
    (ticks : List ℚ) (h : QueueInv (AudioEngine.secPerStep bpm) st) :
    QueueInv (AudioEngine.secPerStep bpm) (AudioEngine.runTicks bpm blocks st ticks) := by
  induction ticks generalizing st with
  | nil => exact h
  | cons t ts ih => exact ih _ (queueInv_scheduler bpm blocks t st h)

/-- Claim C3: at a fixed BPM, however the wall-clock ticks arrive (late,
early or duplicated — any list of tick times), any two consecutive scheduled
step events are exactly `60 / BPM / 4` seconds apart. -/
theorem c3_spacing_independent_of_ticks (bpm : ℚ) (hb : 0 < bpm) (blocks : List Block)
    (ticks : List ℚ) (st0 : SchedState) (h0 : st0.visualQueue = []) :
    ∀ i e1 e2,
      (AudioEngine.runTicks bpm blocks st0 ticks).visualQueue.get? i = some e1 →
      (AudioEngine.runTicks bpm blocks st0 ticks).visualQueue.get? (i + 1) = some e2 →
      e2.time - e1.time = 60 / bpm / 4 := by
  have hinv : QueueInv (AudioEngine.secPerStep bpm) st0 := by
    constructor
    · rw [h0]
      exact trivial
    · intro e he
      rw [h0] at he
      simp at he
  have hfin := queueInv_runTicks bpm blocks st0 ticks hinv
  intro i e1 e2 h1 h2
  have := spaced_get? _ _ hfin.1 i e1 e2 h1 h2
  rw [this]
  unfold AudioEngine.secPerStep
  ring

/-- Witness for C3 at a concrete BPM, matrix and tick train (including a
duplicated and an out-of-order tick time). -/
theorem c3_spacing_independent_of_ticks_witness :
    (0 : ℚ) < 174 ∧ (⟨0, 0, 0, []⟩ : SchedState).visualQueue = [] ∧
    ∀ i e1 e2,
      (AudioEngine.runTicks 174 c4blocks ⟨0, 0, 0, []⟩ [0, 1/100, 1/100, 3, 2]).visualQueue.get? i
        = some e1 →
      (AudioEngine.runTicks 174 c4blocks ⟨0, 0, 0, []⟩ [0, 1/100, 1/100, 3, 2]).visualQueue.get?
        (i + 1) = some e2 →
      e2.time - e1.time = 60 / 174 / 4 :=
  ⟨by norm_num, rfl,
   c3_spacing_independent_of_ticks 174 (by norm_num) c4blocks [0, 1/100, 1/100, 3, 2]
     ⟨0, 0, 0, []⟩ rfl⟩

/-! ## Claim C7 -/

def c7input : Str :=
  (("1-16-1\nbass-1:0-0-0-0-0-0-0-0-0-0,0-3-0-0,0,0,0,0,0,0,0,0,0,0,0,0,0,0,0" :
    String)).toList

/-- Counterexample to claim C7 as stated: importing a bass cell `0-3-0-0`
(pitch-class index 0, the reserved "none" entry) does NOT skip the cell —
`noteMapRev[0]` is the truthy string `'-'`, so a note with the reserved pitch
entry is recorded at the slot. -/
theorem c7_counterexample :
    (importFromCSV sampleState c7input).1 = true ∧
    noteAt (importFromCSV sampleState c7input).2 0 TimeMatrix.defaultTrackId 0
      = some ⟨['-'], some 3, false, false⟩ := by
  decide

/-- Claim C7 (amended): during CSV import a bass cell is silently skipped
(the slot keeps its value) when its dash-separated sub-field count is not 4,
or when its pitch index does not parse, or parses negative or ≥ 13 (past the
`noteMapRev` table); but a 4-field cell with pitch index 0 is NOT skipped:
it is recorded as a note whose pitch is the reserved `'-'` entry.  The import
as a whole succeeds whenever the header parses, independent of cell contents. -/
theorem c7_malformed_cells_skipped (id : Str) (g : ℕ) (cells : List Str)
    (blocks : List Block) :
    ((splitOnChar '-' (cells.getD (g + 1) [])).length ≠ 4 →
      processNoteCell id g cells blocks = blocks) ∧
    (∀ z : ℤ, parseIntJS ((splitOnChar '-' (cells.getD (g + 1) [])).getD 0 []) = some z →
      z < 0 ∨ 13 ≤ z → processNoteCell id g cells blocks = blocks) ∧
    (parseIntJS ((splitOnChar '-' (cells.getD (g + 1) [])).getD 0 []) = none →
      processNoteCell id g cells blocks = blocks) ∧
    ((splitOnChar '-' (cells.getD (g + 1) [])).length = 4 →
      parseIntJS ((splitOnChar '-' (cells.getD (g + 1) [])).getD 0 []) = some 0 →
      ¬(cells.getD (g + 1) []).isEmpty = true → cells.getD (g + 1) [] ≠ ['0'] →
      (blocks.get? (g / TimeMatrix.totalSteps)).isSome = true →
      processNoteCell id g cells blocks
        = writeNote blocks (g / TimeMatrix.totalSteps) id (g % TimeMatrix.totalSteps)
            ⟨['-'], parseIntJS ((splitOnChar '-' (cells.getD (g + 1) [])).getD 1 []),
              decide ((splitOnChar '-' (cells.getD (g + 1) [])).getD 2 [] = ['1']),
              decide ((splitOnChar '-' (cells.getD (g + 1) [])).getD 3 [] = ['1'])⟩) ∧
    (∀ (st : EngineState) (input : Str) (bpm total : ℤ),
      ¬input.isEmpty = true →
      ¬(splitOnChar '\n' (trimJS input)).length < 2 →
      parseIntJS ((splitOnChar '-' ((splitOnChar ','
        ((splitOnChar '\n' (trimJS input)).getD 0 [])).getD 0 [])).getD 0 []) = some bpm →
      parseIntJS ((splitOnChar '-' ((splitOnChar ','
        ((splitOnChar '\n' (trimJS input)).getD 0 [])).getD 0 [])).getD 1 []) = some total →
      (importFromCSV st input).1 = true) := by
  have hdnone : ∀ z : ℤ, z < 0 ∨ 13 ≤ z → decodeNoteChar (some z) = none := by
    intro z hrange
    simp only [decodeNoteChar]
    rcases hrange with hneg | hbig
    · rw [if_pos hneg]
    · rw [if_neg (by omega)]
      apply List.get?_eq_none.mpr
      have : TimeMatrix.noteMapRevList.length = 13 := by decide
      omega
  refine ⟨?_, ?_, ?_, ?_, ?_⟩
  · intro hlen
    simp only [processNoteCell]
    by_cases hskip : (cells.getD (g + 1) []).isEmpty = true ∨ cells.getD (g + 1) [] = ['0']
    · rw [if_pos hskip]
    · rw [if_neg hskip, if_neg hlen]
  · intro z hz hrange
    simp only [processNoteCell]
    by_cases hskip : (cells.getD (g + 1) []).isEmpty = true ∨ cells.getD (g + 1) [] = ['0']
    · rw [if_pos hskip]
    · rw [if_neg hskip]
      by_cases h4 : (splitOnChar '-' (cells.getD (g + 1) [])).length = 4
      · rw [if_pos h4, hz, hdnone z hrange]
        cases blocks.get? (g / TimeMatrix.totalSteps) <;> rfl
      · rw [if_neg h4]
  · intro hz
    simp only [processNoteCell]
    by_cases hskip : (cells.getD (g + 1) []).isEmpty = true ∨ cells.getD (g + 1) [] = ['0']
    · rw [if_pos hskip]
    · rw [if_neg hskip]
      by_cases h4 : (splitOnChar '-' (cells.getD (g + 1) [])).length = 4
      · rw [if_pos h4, hz]
        have : decodeNoteChar none = none := rfl
        rw [this]
        cases blocks.get? (g / TimeMatrix.totalSteps) <;> rfl
      · rw [if_neg h4]
  · intro h4 h0 hne h0cell hsome
    simp only [processNoteCell]
    rw [if_neg (by
      push_neg
      exact ⟨by simpa using hne, h0cell⟩)]
    rw [if_pos h4, h0]
    have hd : decodeNoteChar (some 0) = some ['-'] := by decide
    rw [hd]
    obtain ⟨b, hb⟩ := Option.isSome_iff_exists.mp hsome
    rw [hb]
  · intro st input bpm total h1 h2 h3 h4
    simp only [importFromCSV]
    rw [if_neg h1, if_neg h2, h3, h4]

def c7cells1 : List Str := [[], ['1', '-', '2']]

def c7cells2 : List Str := [[], ['9', '9', '-', '3', '-', '0', '-', '0']]

def c7cells3 : List Str := [[], ['x', '-', '3', '-', '0', '-', '0']]

def c7cells4 : List Str := [[], ['0', '-', '3', '-', '0', '-', '0']]

/-- Witness for the amended C7, exercising every branch at concrete cells. -/
theorem c7_malformed_cells_skipped_witness :
    ((splitOnChar '-' (c7cells1.getD 1 [])).length ≠ 4 ∧
      processNoteCell ['a'] 0 c7cells1 c4blocks = c4blocks) ∧
    (parseIntJS ((splitOnChar '-' (c7cells2.getD 1 [])).getD 0 []) = some 99 ∧
      ((99 : ℤ) < 0 ∨ (13 : ℤ) ≤ 99) ∧
      processNoteCell ['a'] 0 c7cells2 c4blocks = c4blocks) ∧
    (parseIntJS ((splitOnChar '-' (c7cells3.getD 1 [])).getD 0 []) = none ∧
      processNoteCell ['a'] 0 c7cells3 c4blocks = c4blocks) ∧
    (processNoteCell TimeMatrix.defaultTrackId 0 c7cells4 c4blocks
      = writeNote c4blocks 0 TimeMatrix.defaultTrackId 0 ⟨['-'], some 3, false, false⟩) ∧
    (importFromCSV sampleState c7input).1 = true := by
  refine ⟨⟨by decide, (c7_malformed_cells_skipped ['a'] 0 c7cells1 c4blocks).1 (by decide)⟩,
    ⟨by decide, by decide,
      (c7_malformed_cells_skipped ['a'] 0 c7cells2 c4blocks).2.1 99 (by decide) (by decide)⟩,
    ⟨by decide, (c7_malformed_cells_skipped ['a'] 0 c7cells3 c4blocks).2.2.1 (by decide)⟩,
    ?_, ?_⟩
  · have h := (c7_malformed_cells_skipped TimeMatrix.defaultTrackId 0 c7cells4
      c4blocks).2.2.2.1 (by decide) (by decide) (by decide) (by decide) (by decide)
    rw [h]
    decide
  · exact (c7_malformed_cells_skipped ['a'] 0 c7cells1 c4blocks).2.2.2.2 sampleState c7input
      1 16 (by decide) (by decide) (by decide) (by decide)

/-! ### Character sets of rendered numbers -/

/-- The characters a rendered (possibly NaN) number can contain. -/
def numChar (c : Char) : Prop := c ∈ digitChars ∨ c = '-' ∨ c = 'N' ∨ c = 'a'

theorem mem_intToChars {z : ℤ} {c : Char} (h : c ∈ intToChars z) : numChar c := by
  unfold intToChars at h
  split at h
  · rcases List.mem_cons.mp h with rfl | h2
    · exact Or.inr (Or.inl rfl)
    · exact Or.inl (mem_natToChars c h2)
  · exact Or.inl (mem_natToChars c h)

theorem mem_renderNum {o : Option ℤ} {c : Char} (h : c ∈ renderNum o) : numChar c := by
  cases o with
  | some z => exact mem_intToChars h
  | none =>
    simp only [renderNum, List.mem_cons] at h
    rcases h with rfl | rfl | rfl | h
    · exact Or.inr (Or.inr (Or.inl rfl))
    · exact Or.inr (Or.inr (Or.inr rfl))
    · exact Or.inr (Or.inr (Or.inl rfl))
    · simp at h

theorem numChar_spec {c : Char} (h : numChar c) :
    ¬c = ',' ∧ ¬c = '\n' ∧ ¬c = ':' ∧ ¬c = '|' ∧ c.isWhitespace = false := by
  rcases h with hd | rfl | rfl | rfl
  · have hs := digitChar_spec hd
    exact ⟨hs.1, hs.2.1, hs.2.2.2.1, hs.2.2.2.2.1, hs.2.2.2.2.2.2.2.1⟩
  · exact ⟨by decide, by decide, by decide, by decide, by decide⟩
  · exact ⟨by decide, by decide, by decide, by decide, by decide⟩
  · exact ⟨by decide, by decide, by decide, by decide, by decide⟩

theorem mem_drumChannelBody {ch : DrumChannel} {c : Char} (h : c ∈ drumChannelBody ch) :
    c ∈ ch.type ∨ c = '-' ∨ numChar c := by
  unfold drumChannelBody at h
  rcases List.mem_append.mp h with h3 | hZ
  · rcases List.mem_append.mp h3 with h4 | hY
    · rcases List.mem_append.mp h4 with hT | hX
      · exact Or.inl hT
      · rcases List.mem_cons.mp hX with rfl | hX2
        · exact Or.inr (Or.inl rfl)
        · exact Or.inr (Or.inr (mem_renderNum hX2))
    · rcases List.mem_cons.mp hY with rfl | hY2
      · exact Or.inr (Or.inl rfl)
      · exact Or.inr (Or.inr (mem_renderNum hY2))
  · rcases List.mem_cons.mp hZ with rfl | hZ2
    · exact Or.inr (Or.inl rfl)
    · cases hcol : ch.colorId with
      | some c2 =>
        rw [hcol] at hZ2
        exact Or.inr (Or.inr (mem_intToChars hZ2))
      | none =>
        rw [hcol] at hZ2
        exact Or.inr (Or.inr (Or.inl (mem_natToChars c hZ2)))

theorem mem_drumChannelCfg {ch : DrumChannel} {c : Char} (h : c ∈ drumChannelCfg ch) :
    c = '|' ∨ c ∈ ch.type ∨ c = '-' ∨ numChar c := by
  rcases List.mem_cons.mp h with rfl | h2
  · exact Or.inl rfl
  · exact Or.inr (mem_drumChannelBody h2)

theorem mem_drumMainHeader {st : EngineState} {c : Char} (h : c ∈ drumMainHeader st) :
    c ∈ drumsTok ∨ c = ':' ∨ numChar c := by
  unfold drumMainHeader at h
  rcases List.mem_append.mp h with h1 | h2
  · exact Or.inl h1
  rcases List.mem_cons.mp h2 with rfl | h3
  · exact Or.inr (Or.inl rfl)
  rcases List.mem_append.mp h3 with h4 | h5
  · exact Or.inr (Or.inr (mem_renderNum h4))
  rcases List.mem_cons.mp h5 with rfl | h6
  · exact Or.inr (Or.inl rfl)
  · exact Or.inr (Or.inr (Or.inl (mem_natToChars c h6)))

theorem mem_drumConfigCell {st : EngineState} {c : Char} (h : c ∈ drumConfigCell st) :
    c ∈ drumsTok ∨ c = ':' ∨ c = '|' ∨ c = '-' ∨ numChar c ∨
      ∃ ch ∈ st.drum.channels, c ∈ ch.type := by
  unfold drumConfigCell at h
  rcases List.mem_append.mp h with h1 | h8
  · rcases mem_drumMainHeader h1 with h | h | h
    · exact Or.inl h
    · exact Or.inr (Or.inl h)
    · exact Or.inr (Or.inr (Or.inr (Or.inr (Or.inl h))))
  · obtain ⟨ch, hch, hc⟩ := List.mem_flatMap.mp h8
    rcases mem_drumChannelCfg hc with rfl | hty | rfl | hn
    · exact Or.inr (Or.inr (Or.inl rfl))
    · exact Or.inr (Or.inr (Or.inr (Or.inr (Or.inr ⟨ch, hch, hty⟩))))
    · exact Or.inr (Or.inr (Or.inr (Or.inl rfl)))
    · exact Or.inr (Or.inr (Or.inr (Or.inr (Or.inl hn))))

/-- The drum cell depends only on the channel id layout. -/
theorem drumCell_eq_map_ids (channels : List DrumChannel) (d : List ℕ) :
    drumCell channels d
      = (channels.map DrumChannel.id).map fun i => if i ∈ d then '1' else '0' := by
  unfold drumCell
  rw [List.map_map]
  rfl

/-- The exported drum row splits at commas into the config cell followed by
the per-step binary cells. -/
theorem drumRow_split (st : EngineState)
    (hty : ∀ ch ∈ st.drum.channels, (',' : Char) ∉ ch.type) :
    splitOnChar ',' (drumRow st) = drumConfigCell st :: drumCells st := by
  unfold drumRow
  apply splitOnChar_joinCells
  · intro hc
    rcases mem_drumConfigCell hc with h | h | h | h | h | h
    · exact absurd h (by decide)
    · exact absurd h (by decide)
    · exact absurd h (by decide)
    · exact absurd h (by decide)
    · exact (numChar_spec h).1 rfl
    · obtain ⟨ch, hch, hmem⟩ := h
      exact hty ch hch hmem
  · intro cell hcellmem hc
    unfold drumCells at hcellmem
    simp only [List.mem_flatMap, List.mem_map] at hcellmem
    obtain ⟨b, hb, s, hs, rfl⟩ := hcellmem
    rw [drumCell_eq_map_ids] at hc
    simp only [List.mem_map] at hc
    obtain ⟨i, hi, hieq⟩ := hc
    by_cases hid : i ∈ b.drums.getD s []
    · rw [if_pos hid] at hieq
      exact absurd hieq (by decide)
    · rw [if_neg hid] at hieq
      exact absurd hieq (by decide)

/-- Bit `k` of a drum cell tests membership of raw channel index `k`, given
channel ids equal to their positions. -/
theorem drumCell_bit (channels : List DrumChannel) (d : List ℕ) (k : ℕ)
    (hk : k < channels.length)
    (hid : ∀ i ch, channels.get? i = some ch → ch.id = i) :
    (drumCell channels d).getD k ' ' = if k ∈ d then '1' else '0' := by
  have hk2 : k < (drumCell channels d).length := by
    simpa [drumCell] using hk
  rw [List.getD_eq_getElem _ _ hk2]
  unfold drumCell
  rw [List.getElem_map]
  have : channels[k].id = k :=
    hid k channels[k] (by rw [List.get?_eq_getElem?, List.getElem?_eq_getElem hk])
  rw [this]

/-! ## Claim C9 -/

/-- Claim C9: every drum cell in the exported CSV is a binary string of
length exactly the channel count (9); its character at position `k` is `'1'`
iff raw channel index `k` is in that step's drum-hit list; the cell depends
only on the channel id layout (never on variants or colorIds); and the drum
row splits into the config cell followed by exactly these cells. -/
theorem c9_drum_cells_binary (st : EngineState)
    (hlen : st.drum.channels.length = 9)
    (hids : ∀ i, i < 9 → (st.drum.channels.getD i default).id = i)
    (hty : ∀ ch ∈ st.drum.channels, (',' : Char) ∉ ch.type) :
    (∀ d : List ℕ,
      (drumCell st.drum.channels d).length = 9 ∧
      (∀ k, k < 9 → ((drumCell st.drum.channels d).getD k ' ' = '1' ↔ k ∈ d)) ∧
      (∀ channels' : List DrumChannel,
        channels'.map DrumChannel.id = st.drum.channels.map DrumChannel.id →
        drumCell channels' d = drumCell st.drum.channels d)) ∧
    splitOnChar ',' (drumRow st) = drumConfigCell st :: drumCells st ∧
    ∀ cell ∈ drumCells st, cell.length = 9 := by
  refine ⟨?_, ?_, ?_⟩
  · intro d
    refine ⟨by simp [drumCell, hlen], ?_, ?_⟩
    · intro k hk
      rw [drumCell_bit st.drum.channels d k (by omega) (by
        intro i ch hch
        have hilt : i < st.drum.channels.length := by
          by_contra hge
          rw [List.get?_eq_none.mpr (by omega)] at hch
          cases hch
        have := hids i (by omega)
        rw [List.getD_eq_getElem _ _ hilt] at this
        rw [List.get?_eq_getElem?, List.getElem?_eq_getElem hilt] at hch
        cases hch
        exact this)]
      by_cases hkd : k ∈ d
      · simp [hkd]
      · simp [hkd]
    · intro channels' hch
      rw [drumCell_eq_map_ids, drumCell_eq_map_ids, hch]
  · exact drumRow_split st hty
  · intro cell hcellmem
    unfold drumCells at hcellmem
    simp only [List.mem_flatMap, List.mem_map] at hcellmem
    obtain ⟨b, hb, s, hs, rfl⟩ := hcellmem
    simp [drumCell, hlen]

/-- Witness for C9 at the default drum configuration. -/
theorem c9_drum_cells_binary_witness :
    sampleState.drum.channels.length = 9 ∧
    (∀ i, i < 9 → (sampleState.drum.channels.getD i default).id = i) ∧
    (∀ ch ∈ sampleState.drum.channels, (',' : Char) ∉ ch.type) ∧
    ((∀ d : List ℕ,
      (drumCell sampleState.drum.channels d).length = 9 ∧
      (∀ k, k < 9 → ((drumCell sampleState.drum.channels d).getD k ' ' = '1' ↔ k ∈ d)) ∧
      (∀ channels' : List DrumChannel,
        channels'.map DrumChannel.id = sampleState.drum.channels.map DrumChannel.id →
        drumCell channels' d = drumCell sampleState.drum.channels d)) ∧
    splitOnChar ',' (drumRow sampleState) = drumConfigCell sampleState :: drumCells sampleState ∧
    ∀ cell ∈ drumCells sampleState, cell.length = 9) :=
  ⟨by decide, by decide, by decide,
   c9_drum_cells_binary sampleState (by decide) (by decide) (by decide)⟩

/-! ## Claim C8 -/

def c8track (s : ℕ) : List (Option Note) :=
  (List.replicate 16 (none : Option Note)).set s
    (some { note := ['C'], octave := some 3, slide := false, accent := false })

/-- A one-block pattern with a single C-3 note on the default bass track at
step `s`, no accent, no slide, no drums. -/
def c8blocks (s : ℕ) : List Block :=
  [{ tracks := [(TimeMatrix.defaultTrackId, c8track s)],
     drums := List.replicate 16 ([] : List ℕ) }]

/-- Claim C8: pitch class C, octave 3 maps to MIDI note number
`(3 + 1) * 12 + 0 = 48`; exporting a pattern holding that note at any step
`s` produces a file whose parse recovers exactly the Note-On note number 48
(velocity 90) at the same step `s`, and the UI reconstruction of note number
48 gives back pitch class C, octave 3. -/
theorem c8_midi_note_roundtrip :
    MidiIO.getMidiNote ['C'] (some 3) = some ((3 + 1) * 12 + 0) ∧
    (∀ s : Fin 16,
      MidiIO.parseMidi (( MidiIO.exportMidi (c8blocks s.val) 174).getD [])
        = some { drums := [], bass := [(s.val, (48, 90))] }) ∧
    uiBassNoteOf 48 90 = { note := ['C'], octave := some 3, slide := false, accent := false } := by
  refine ⟨by decide, by decide, by decide⟩

/-! ## Claim C1: supporting lemmas -/

theorem getSynth_isSome_iff (id : Str) (l : List BassSynth) :
    (getSynth id l).isSome = true ↔ id ∈ l.map BassSynth.id := by
  induction l with
  | nil => simp [getSynth]
  | cons σ t ih =>
    by_cases hk : σ.id = id
    · simp [getSynth, List.find?, hk]
    · simp only [getSynth, List.find?_cons, List.map_cons, List.mem_cons]
      rw [decide_eq_false hk]
      simp only [getSynth] at ih
      rw [ih]
      simp [Ne.symm hk]

theorem modifyFirstSynth_map_id (id : Str) (f : BassSynth → BassSynth)
    (hf : ∀ σ, (f σ).id = σ.id) (l : List BassSynth) :
    (modifyFirstSynth id f l).map BassSynth.id = l.map BassSynth.id := by
  induction l with
  | nil => rfl
  | cons σ t ih =>
    unfold modifyFirstSynth
    split
    · simp [hf]
    · simp [ih]

theorem startsWith_append_cons_false (pat id : Str) (c : Char) (rest : Str)
    (h1 : startsWithJS pat id = false) (h2 : c ∉ pat) :
    startsWithJS pat (id ++ c :: rest) = false := by
  induction pat generalizing id with
  | nil => simp [startsWithJS] at h1
  | cons p ps ih =>
    cases id with
    | nil =>
      simp only [List.nil_append, startsWithJS]
      have hpc : ¬p = c := fun e => h2 (e ▸ List.mem_cons_self p ps)
      simp [hpc]
    | cons a as =>
      simp only [List.cons_append, startsWithJS, List.append_eq] at h1 ⊢
      rcases Bool.and_eq_false_iff.mp h1 with h | h
      · rw [h]
        simp
      · rw [ih as h fun hm => h2 (List.mem_cons_of_mem p hm)]
        simp

theorem startsWith_append_self (pat rest : Str) : startsWithJS pat (pat ++ rest) = true := by
  induction pat with
  | nil => simp [startsWithJS]
  | cons p ps ih => simp [startsWithJS, ih]

theorem removeFirstChar_of_not_mem {c : Char} {l : Str} (h : c ∉ l) :
    removeFirstChar c l = l := by
  induction l with
  | nil => rfl
  | cons a t ih =>
    have ha : ¬a = c := fun e => h (e ▸ List.mem_cons_self a t)
    rw [removeFirstChar, if_neg ha, ih fun hm => h (List.mem_cons_of_mem a hm)]

theorem listModify_eq_self {α : Type} (l : List α) (i : ℕ) (f : α → α)
    (h : ∀ a, l.get? i = some a → f a = a) : listModify l i f = l := by
  induction l generalizing i with
  | nil => rfl
  | cons a t ih =>
    cases i with
    | zero => simp [listModify, h a rfl]
    | succ j =>
      simp only [listModify, List.cons.injEq, true_and]
      exact ih j fun x hx => h x hx

theorem get?_flatMap_uniform {α β : Type} (L : List α) (f : α → List β) (m : ℕ)
    (hm : 0 < m) (h : ∀ a ∈ L, (f a).length = m) (q r : ℕ) (hr : r < m) :
    (L.flatMap f).get? (m * q + r) = (L.get? q).bind fun a => (f a).get? r := by
  induction L generalizing q with
  | nil => simp
  | cons a t ih =>
    have hfa : (f a).length = m := h a (List.mem_cons_self a t)
    cases q with
    | zero =>
      simp only [List.flatMap_cons, Nat.mul_zero, Nat.zero_add, List.get?_cons_zero,
        Option.some_bind]
      rw [List.get?_append (by omega)]
    | succ q' =>
      have hmle : m ≤ m * (q' + 1) := by
        calc m = m * 1 := (Nat.mul_one m).symm
          _ ≤ m * (q' + 1) := Nat.mul_le_mul_left m (by omega)
      simp only [List.flatMap_cons, List.get?_cons_succ]
      rw [List.get?_append_right (by rw [hfa]; omega)]
      rw [← ih (fun x hx => h x (List.mem_cons_of_mem a hx)) q']
      congr 1
      rw [hfa]
      have hdist : m * (q' + 1) = m * q' + m := by ring
      omega

theorem intToChars_coe_nat (k : ℕ) : intToChars (k : ℤ) = natToChars k := by
  unfold intToChars
  rw [if_neg (by omega)]
  simp

theorem intToChars_nonneg {z : ℤ} (h : 0 ≤ z) : intToChars z = natToChars z.toNat := by
  unfold intToChars
  rw [if_neg (by omega)]

theorem parseIntJS_coe (k : ℕ) : parseIntJS (natToChars k) = some (k : ℤ) :=
  parseIntJS_natToChars k

theorem clamp100_fix {v : ℕ} (h : v ≤ 100) :
    DrumSynth.clamp100 (some (v : ℤ)) = some (v : ℤ) := by
  simp only [DrumSynth.clamp100, Option.map, Option.some.injEq]
  omega

theorem noteMapRev_roundtrip :
    ∀ nm ∈ TimeMatrix.noteMapRevList,
      TimeMatrix.noteMapRevList.get? (TimeMatrix.noteMapVal nm) = some nm := by
  decide

/-! ### Character sets of bass rows and the header -/

theorem mem_bassParamsStr {p : BassParams} {c : Char} (h : c ∈ bassParamsStr p) :
    numChar c := by
  simp only [bassParamsStr, List.append_assoc, List.cons_append, List.mem_append,
    List.mem_cons] at h
  rcases h with hx | rfl | hx | rfl | hx | rfl | hx | rfl | hx | rfl | hx | rfl | hx |
      rfl | hx | rfl | hx | rfl | hx
  · exact mem_renderNum hx
  · exact Or.inr (Or.inl rfl)
  · exact mem_renderNum hx
  · exact Or.inr (Or.inl rfl)
  · exact mem_renderNum hx
  · exact Or.inr (Or.inl rfl)
  · exact mem_renderNum hx
  · exact Or.inr (Or.inl rfl)
  · exact mem_renderNum hx
  · exact Or.inr (Or.inl rfl)
  · exact mem_renderNum hx
  · exact Or.inr (Or.inl rfl)
  · exact mem_renderNum hx
  · exact Or.inr (Or.inl rfl)
  · exact mem_renderNum hx
  · exact Or.inr (Or.inl rfl)
  · exact mem_renderNum hx
  · exact Or.inr (Or.inl rfl)
  · split at hx <;> simp at hx <;> subst hx <;> exact Or.inl (by decide)

theorem mem_exportBassCell {n : Option Note} {c : Char} (h : c ∈ exportBassCell n) :
    numChar c := by
  cases n with
  | none =>
    simp only [exportBassCell, List.mem_singleton] at h
    subst h
    exact Or.inl (by decide)
  | some nt =>
    simp only [exportBassCell, List.append_assoc, List.cons_append, List.mem_append,
      List.mem_cons] at h
    rcases h with hx | rfl | hx | rfl | hx | rfl | hx
    · exact Or.inl (mem_natToChars c hx)
    · exact Or.inr (Or.inl rfl)
    · exact mem_renderNum hx
    · exact Or.inr (Or.inl rfl)
    · split at hx <;> simp at hx <;> subst hx <;> exact Or.inl (by decide)
    · exact Or.inr (Or.inl rfl)
    · split at hx <;> simp at hx <;> subst hx <;> exact Or.inl (by decide)

theorem mem_headerCell {st : EngineState} {c : Char} (h : c ∈ headerCell st) :
    numChar c := by
  simp only [headerCell, List.append_assoc, List.cons_append, List.mem_append,
    List.mem_cons] at h
  rcases h with hx | rfl | hx | rfl | hx
  · exact mem_intToChars hx
  · exact Or.inr (Or.inl rfl)
  · exact Or.inl (mem_natToChars c hx)
  · exact Or.inr (Or.inl rfl)
  · exact Or.inl (mem_natToChars c hx)

theorem mem_headerRow {st : EngineState} {c : Char} (h : c ∈ headerRow st) :
    numChar c ∨ c = ',' := by
  unfold headerRow at h
  rcases List.mem_append.mp h with hx | hx
  · exact Or.inl (mem_headerCell hx)
  · obtain ⟨cell, hcell, hc⟩ := List.mem_flatMap.mp hx
    obtain ⟨i, _, rfl⟩ := List.mem_map.mp hcell
    rcases List.mem_cons.mp hc with rfl | hc2
    · exact Or.inr rfl
    · exact Or.inl (Or.inl (mem_natToChars c hc2))

theorem mem_bassConfigCell {σ : BassSynth} {c : Char} (h : c ∈ bassConfigCell σ) :
    c ∈ σ.id ∨ c = ':' ∨ numChar c := by
  unfold bassConfigCell at h
  rcases List.mem_append.mp h with hx | hx
  · exact Or.inl hx
  rcases List.mem_cons.mp hx with rfl | hx
  · exact Or.inr (Or.inl rfl)
  · exact Or.inr (Or.inr (mem_bassParamsStr hx))

theorem mem_bassRow {blocks : List Block} {σ : BassSynth} {c : Char}
    (h : c ∈ bassRow blocks σ) :
    c ∈ σ.id ∨ c = ':' ∨ c = ',' ∨ numChar c := by
  unfold bassRow at h
  rcases List.mem_append.mp h with hx | hx
  · rcases mem_bassConfigCell hx with h1 | h1 | h1
    · exact Or.inl h1
    · exact Or.inr (Or.inl h1)
    · exact Or.inr (Or.inr (Or.inr h1))
  · obtain ⟨cell, hcell, hc⟩ := List.mem_flatMap.mp hx
    rcases List.mem_cons.mp hc with rfl | hc2
    · exact Or.inr (Or.inr (Or.inl rfl))
    · unfold bassCells at hcell
      simp only [List.mem_flatMap, List.mem_map] at hcell
      obtain ⟨b, _, s, _, rfl⟩ := hcell
      exact Or.inr (Or.inr (Or.inr (mem_exportBassCell hc2)))

theorem mem_drumRow {st : EngineState} {c : Char} (h : c ∈ drumRow st) :
    c ∈ drumsTok ∨ c = ':' ∨ c = '|' ∨ c = '-' ∨ c = ',' ∨ numChar c ∨
      ∃ ch ∈ st.drum.channels, c ∈ ch.type := by
  unfold drumRow at h
  rcases List.mem_append.mp h with hx | hx
  · rcases mem_drumConfigCell hx with h1 | h1 | h1 | h1 | h1 | h1
    · exact Or.inl h1
    · exact Or.inr (Or.inl h1)
    · exact Or.inr (Or.inr (Or.inl h1))
    · exact Or.inr (Or.inr (Or.inr (Or.inl h1)))
    · exact Or.inr (Or.inr (Or.inr (Or.inr (Or.inr (Or.inl h1)))))
    · exact Or.inr (Or.inr (Or.inr (Or.inr (Or.inr (Or.inr h1)))))
  · obtain ⟨cell, hcell, hc⟩ := List.mem_flatMap.mp hx
    rcases List.mem_cons.mp hc with rfl | hc2
    · exact Or.inr (Or.inr (Or.inr (Or.inr (Or.inl rfl))))
    · unfold drumCells at hcell
      simp only [List.mem_flatMap, List.mem_map] at hcell
      obtain ⟨b, _, s, _, rfl⟩ := hcell
      rw [drumCell_eq_map_ids] at hc2
      obtain ⟨i, _, hieq⟩ := List.mem_map.mp hc2
      refine Or.inr (Or.inr (Or.inr (Or.inr (Or.inr (Or.inl (Or.inl ?_))))))
      by_cases hid : i ∈ b.drums.getD s []
      · rw [if_pos hid] at hieq
        rw [← hieq]
        decide
      · rw [if_neg hid] at hieq
        rw [← hieq]
        decide

/-! ### The line structure of the exported text -/

/-- The block shape produced by each `addBlock()` during an import. -/
def freshBlock : Block :=
  { tracks := [(TimeMatrix.defaultTrackId, TimeMatrix.freshTrack)],
    drums := List.replicate TimeMatrix.totalSteps [] }

theorem addBlock_fresh (t : List Block) :
    TimeMatrix.addBlock (freshBlock :: t) = freshBlock :: t ++ [freshBlock] := rfl

theorem iterAddBlock_fresh (n k : ℕ) :
    iterAddBlock n (List.replicate (k + 1) freshBlock) =
      List.replicate (k + 1 + n) freshBlock := by
  induction n generalizing k with
  | zero => rfl
  | succ m ih =>
    rw [iterAddBlock, List.replicate_succ, addBlock_fresh]
    have hrep : freshBlock :: List.replicate k freshBlock ++ [freshBlock] =
        List.replicate (k + 1 + 1) freshBlock := by
      rw [← List.replicate_succ, ← List.replicate_succ']
    rw [hrep, ih (k + 1)]
    congr 1
    omega

theorem buildBlocks_eq_replicate (n : ℕ) :
    buildBlocks n = List.replicate n freshBlock := by
  cases n with
  | zero => rfl
  | succ m =>
    unfold buildBlocks
    rw [iterAddBlock]
    have h0 : TimeMatrix.addBlock [] = List.replicate 1 freshBlock := rfl
    rw [h0, iterAddBlock_fresh m 0]
    congr 1
    omega

theorem sepJoin_shift {α : Type} (sep : α) (rows : List (List α)) (z : List α) :
    sep :: (rows.flatMap (fun r => r ++ [sep]) ++ z) =
      rows.flatMap (fun r => sep :: r) ++ sep :: z := by
  induction rows with
  | nil => simp
  | cons r rs ih =>
    simp only [List.flatMap_cons, List.append_assoc, List.singleton_append,
      List.cons_append, List.nil_append]
    rw [ih]

theorem exportToCSV_lines (st : EngineState)
    (hid : ∀ σ ∈ st.bassSynths, ('\n' : Char) ∉ σ.id)
    (hty : ∀ ch ∈ st.drum.channels, ('\n' : Char) ∉ ch.type) :
    splitOnChar '\n' (exportToCSV st) =
      headerRow st ::
        ((st.bassSynths.map fun σ => bassRow st.blocks σ) ++ [drumRow st]) := by
  have hform : exportToCSV st =
      headerRow st ++
        (((st.bassSynths.map fun σ => bassRow st.blocks σ) ++ [drumRow st]).flatMap
          fun r => '\n' :: r) := by
    unfold exportToCSV
    rw [List.flatMap_append]
    have hmap : (st.bassSynths.flatMap fun σ => bassRow st.blocks σ ++ ['\n']) =
        (st.bassSynths.map fun σ => bassRow st.blocks σ).flatMap fun r => r ++ ['\n'] := by
      rw [List.flatMap_map]
    rw [hmap]
    congr 1
    rw [sepJoin_shift]
    simp
  rw [hform]
  apply splitOnChar_joinCells
  · intro hc
    rcases mem_headerRow hc with h1 | h1
    · exact (numChar_spec h1).2.1 rfl
    · exact absurd h1 (by decide)
  · intro row hrow hc
    rcases List.mem_append.mp hrow with hr | hr
    · obtain ⟨σ, hσ, rfl⟩ := List.mem_map.mp hr
      rcases mem_bassRow hc with h1 | h1 | h1 | h1
      · exact hid σ hσ h1
      · exact absurd h1 (by decide)
      · exact absurd h1 (by decide)
      · exact (numChar_spec h1).2.1 rfl
    · rw [List.mem_singleton.mp hr] at hc
      rcases mem_drumRow hc with h1 | h1 | h1 | h1 | h1 | h1 | h1
      · exact absurd h1 (by decide)
      · exact absurd h1 (by decide)
      · exact absurd h1 (by decide)
      · exact absurd h1 (by decide)
      · exact absurd h1 (by decide)
      · exact (numChar_spec h1).2.1 rfl
      · obtain ⟨ch, hch, hmem⟩ := h1
        exact hty ch hch hmem

theorem trim_exportToCSV (st : EngineState) (hbpm : 0 ≤ st.bpm)
    (hty : ∀ ch ∈ st.drum.channels, ∀ c ∈ ch.type, c.isWhitespace = false) :
    trimJS (exportToCSV st) = exportToCSV st := by
  apply trimJS_eq_self
  · intro c hc
    have hne := natToChars_ne_nil st.bpm.toNat
    have hhead : (exportToCSV st).head? = (natToChars st.bpm.toNat).head? := by
      unfold exportToCSV headerRow headerCell
      rw [intToChars_nonneg hbpm]
      simp only [List.append_assoc, List.cons_append, List.head?_append]
      cases hnt : natToChars st.bpm.toNat with
      | nil => exact absurd hnt hne
      | cons a t => rfl
    rw [hhead] at hc
    have hmem : c ∈ natToChars st.bpm.toNat := by
      cases hnt : natToChars st.bpm.toNat with
      | nil => exact absurd hnt hne
      | cons a t =>
        rw [hnt] at hc
        simp at hc
        subst hc
        simp [hnt]
    exact (digitChar_spec (mem_natToChars c hmem)).2.2.2.2.2.2.2.1
  · intro c hc
    have hdrne : drumRow st ≠ [] := by
      simp [drumRow, drumConfigCell, drumMainHeader, drumsTok]
    have hlast : (exportToCSV st).getLast? = (drumRow st).getLast? := by
      have hsplit : exportToCSV st =
          (headerRow st ++ '\n' ::
            (st.bassSynths.flatMap fun σ => bassRow st.blocks σ ++ ['\n'])) ++ drumRow st := by
        unfold exportToCSV
        simp [List.append_assoc]
      rw [hsplit, List.getLast?_append]
      cases hd : (drumRow st).getLast? with
      | none => exact absurd (List.getLast?_eq_none_iff.mp hd) hdrne
      | some a => rfl
    rw [hlast] at hc
    have hmem : c ∈ drumRow st := List.mem_of_mem_getLast? hc
    rcases mem_drumRow hmem with h1 | h1 | h1 | h1 | h1 | h1 | h1
    · have h1' : c ∈ (['d', 'r', 'u', 'm', 's'] : List Char) := h1
      fin_cases h1' <;> decide
    · subst h1; decide
    · subst h1; decide
    · subst h1; decide
    · subst h1; decide
    · exact (numChar_spec h1).2.2.2.2
    · obtain ⟨ch, hch, hmemty⟩ := h1
      exact hty ch hch c hmemty

/-! ### Parsing the exported header -/

theorem headerRow_cells (st : EngineState) :
    splitOnChar ',' (headerRow st) =
      headerCell st :: (List.range (st.blocks.length * TimeMatrix.totalSteps)).map
        fun i => natToChars (i + 1) := by
  unfold headerRow
  apply splitOnChar_joinCells
  · intro hc
    exact (numChar_spec (mem_headerCell hc)).1 rfl
  · intro cell hcell hc
    obtain ⟨i, _, rfl⟩ := List.mem_map.mp hcell
    exact (digitChar_spec (mem_natToChars _ hc)).1 rfl

theorem headerCell_meta (st : EngineState) (h : 0 ≤ st.bpm) :
    splitOnChar '-' (headerCell st) =
      [natToChars st.bpm.toNat,
       natToChars (st.blocks.length * TimeMatrix.totalSteps),
       natToChars st.bassSynths.length] := by
  have hform : headerCell st =
      natToChars st.bpm.toNat ++
        ([natToChars (st.blocks.length * TimeMatrix.totalSteps),
          natToChars st.bassSynths.length].flatMap fun c => '-' :: c) := by
    unfold headerCell
    rw [intToChars_nonneg h]
    simp [List.append_assoc]
  rw [hform]
  have := splitOnChar_joinCells '-' (natToChars st.bpm.toNat)
    [natToChars (st.blocks.length * TimeMatrix.totalSteps),
     natToChars st.bassSynths.length]
    (fun hc => absurd (mem_natToChars _ hc) (by decide))
    (by
      intro cell hcell hc
      rcases List.mem_cons.mp hcell with rfl | hcell2
      · exact absurd (mem_natToChars _ hc) (by decide)
      · rcases List.mem_cons.mp hcell2 with rfl | hcell3
        · exact absurd (mem_natToChars _ hc) (by decide)
        · simp at hcell3)
  rw [this]

/-! ### Per-cell round trip of the bass grid -/

/-- The note at block `b`, track `id`, step `s` of a block list. -/
def blNote (blocks : List Block) (b : ℕ) (id : Str) (s : ℕ) : Option Note :=
  match blocks.get? b with
  | none => none
  | some blk => trackNoteAt blk id s

/-- The drum-hit list at block `b`, step `s` of a block list. -/
def blDrums (blocks : List Block) (b s : ℕ) : List ℕ :=
  match blocks.get? b with
  | none => []
  | some blk => blk.drums.getD s []

theorem noteAt_eq_blNote (st : EngineState) (b : ℕ) (id : Str) (s : ℕ) :
    noteAt st b id s = blNote st.blocks b id s := rfl

theorem drumsAt_eq_blDrums (st : EngineState) (b s : ℕ) :
    drumsAt st b s = blDrums st.blocks b s := rfl

theorem bassCells_getD (blocks : List Block) (id : Str) (g : ℕ)
    (hg : g < blocks.length * TimeMatrix.totalSteps) :
    (bassCells blocks id).getD g [] =
      exportBassCell (blNote blocks (g / TimeMatrix.totalSteps) id
        (g % TimeMatrix.totalSteps)) := by
  have hmod : g % TimeMatrix.totalSteps < TimeMatrix.totalSteps := by
    simp [TimeMatrix.totalSteps]
    omega
  have hdiv : g / TimeMatrix.totalSteps < blocks.length := by
    simp only [TimeMatrix.totalSteps] at hg ⊢
    omega
  have hsplit : TimeMatrix.totalSteps * (g / TimeMatrix.totalSteps) +
      g % TimeMatrix.totalSteps = g := Nat.div_add_mod g TimeMatrix.totalSteps
  unfold bassCells
  conv_lhs => rw [List.getD_eq_get?, ← hsplit]
  rw [get?_flatMap_uniform _ _ TimeMatrix.totalSteps (by simp [TimeMatrix.totalSteps])
    (fun a _ => by simp) _ _ hmod]
  cases hb : blocks.get? (g / TimeMatrix.totalSteps) with
  | none => exact absurd hb (by simp [List.get?_eq_getElem?, List.getElem?_eq_none_iff]; omega)
  | some blk =>
    simp only [Option.some_bind, List.get?_map, List.get?_range hmod, Option.map_some]
    rw [blNote, hb]
    rfl

theorem drumCells_getD (st : EngineState) (g : ℕ)
    (hg : g < st.blocks.length * TimeMatrix.totalSteps) :
    (drumCells st).getD g [] =
      drumCell st.drum.channels (blDrums st.blocks (g / TimeMatrix.totalSteps)
        (g % TimeMatrix.totalSteps)) := by
  have hmod : g % TimeMatrix.totalSteps < TimeMatrix.totalSteps := by
    simp [TimeMatrix.totalSteps]
    omega
  have hdiv : g / TimeMatrix.totalSteps < st.blocks.length := by
    simp only [TimeMatrix.totalSteps] at hg ⊢
    omega
  have hsplit : TimeMatrix.totalSteps * (g / TimeMatrix.totalSteps) +
      g % TimeMatrix.totalSteps = g := Nat.div_add_mod g TimeMatrix.totalSteps
  unfold drumCells
  conv_lhs => rw [List.getD_eq_get?, ← hsplit]
  rw [get?_flatMap_uniform _ _ TimeMatrix.totalSteps (by simp [TimeMatrix.totalSteps])
    (fun a _ => by simp) _ _ hmod]
  cases hb : st.blocks.get? (g / TimeMatrix.totalSteps) with
  | none => exact absurd hb (by simp [List.get?_eq_getElem?, List.getElem?_eq_none_iff]; omega)
  | some blk =>
    simp only [Option.some_bind, List.get?_map, List.get?_range hmod, Option.map_some]
    rw [blDrums, hb]
    rfl

theorem parseIntJS_renderNum (o : Option ℤ) : parseIntJS (renderNum o) = o := by
  cases o with
  | none => decide
  | some z => exact parseIntJS_intToChars z

theorem dash_not_mem_renderNum {o : Option ℤ} (h : 0 ≤ o.getD 0) :
    ('-' : Char) ∉ renderNum o := by
  cases o with
  | none => decide
  | some z =>
    intro hc
    rw [renderNum, intToChars_nonneg (by simpa using h)] at hc
    exact absurd (mem_natToChars _ hc) (by decide)

theorem dash_not_mem_bit (b : Bool) : ('-' : Char) ∉ (if b then ['1'] else ['0']) := by
  cases b <;> decide

theorem splitBassCell (nt : Note) (hoct : 0 ≤ nt.octave.getD 0) :
    splitOnChar '-' (exportBassCell (some nt)) =
      [natToChars (TimeMatrix.noteMapVal nt.note), renderNum nt.octave,
       if nt.slide then ['1'] else ['0'], if nt.accent then ['1'] else ['0']] := by
  have hform : exportBassCell (some nt) =
      natToChars (TimeMatrix.noteMapVal nt.note) ++
        ([renderNum nt.octave, if nt.slide then ['1'] else ['0'],
          if nt.accent then ['1'] else ['0']].flatMap fun c => '-' :: c) := by
    simp [exportBassCell, List.append_assoc]
  rw [hform]
  apply splitOnChar_joinCells
  · intro hc
    exact absurd (mem_natToChars _ hc) (by decide)
  · intro cell hcell hc
    rcases List.mem_cons.mp hcell with rfl | hcell2
    · exact dash_not_mem_renderNum hoct hc
    rcases List.mem_cons.mp hcell2 with rfl | hcell3
    · exact dash_not_mem_bit nt.slide hc
    rcases List.mem_cons.mp hcell3 with rfl | hcell4
    · exact dash_not_mem_bit nt.accent hc
    · simp at hcell4

theorem decodeNoteChar_roundtrip {nm : Str} (h : nm ∈ TimeMatrix.noteMapRevList) :
    decodeNoteChar (parseIntJS (natToChars (TimeMatrix.noteMapVal nm))) = some nm := by
  rw [parseIntJS_natToChars]
  have hred : decodeNoteChar (some ((TimeMatrix.noteMapVal nm : ℤ))) =
      if ((TimeMatrix.noteMapVal nm : ℤ)) < 0 then none
      else TimeMatrix.noteMapRevList.get? ((TimeMatrix.noteMapVal nm : ℤ)).toNat := rfl
  rw [hred, if_neg (by omega)]
  have ht : ((TimeMatrix.noteMapVal nm : ℤ)).toNat = TimeMatrix.noteMapVal nm := by omega
  rw [ht]
  exact noteMapRev_roundtrip nm h

theorem bit_roundtrip (b : Bool) : decide ((if b then ['1'] else ['0']) = ['1']) = b := by
  cases b <;> decide

theorem processNoteCell_none (id : Str) (g : ℕ) (cells : List Str) (blocks : List Block)
    (hcell : cells.getD (g + 1) [] = exportBassCell none) :
    processNoteCell id g cells blocks = blocks := by
  simp only [processNoteCell]
  rw [hcell]
  exact if_pos (Or.inr rfl)

theorem processNoteCell_some (id : Str) (g : ℕ) (cells : List Str) (blocks : List Block)
    (nt : Note) (hcell : cells.getD (g + 1) [] = exportBassCell (some nt))
    (hnm : nt.note ∈ TimeMatrix.noteMapRevList) (hoct : 0 ≤ nt.octave.getD 0) :
    processNoteCell id g cells blocks =
      match blocks.get? (g / TimeMatrix.totalSteps) with
      | some _ => writeNote blocks (g / TimeMatrix.totalSteps) id
          (g % TimeMatrix.totalSteps) nt
      | none => blocks := by
  have hdash : ('-' : Char) ∈ exportBassCell (some nt) := by
    unfold exportBassCell
    simp
  simp only [processNoteCell]
  rw [hcell]
  rw [if_neg (by
    rintro (he | he)
    · rw [List.isEmpty_iff.mp he] at hdash
      simp at hdash
    · rw [he] at hdash
      simp at hdash)]
  rw [splitBassCell nt hoct]
  have hlen : ([natToChars (TimeMatrix.noteMapVal nt.note), renderNum nt.octave,
      if nt.slide then ['1'] else ['0'],
      if nt.accent then ['1'] else ['0']] : List Str).length = 4 := rfl
  rw [if_pos hlen]
  simp only [List.getD_cons_zero, List.getD_cons_succ]
  rw [decodeNoteChar_roundtrip hnm]
  cases hb : blocks.get? (g / TimeMatrix.totalSteps) with
  | none => rfl
  | some blk =>
    rw [parseIntJS_renderNum, bit_roundtrip, bit_roundtrip]

/-! ### The grid-write primitives of the importer -/

/-- Every registered track array of every block has the per-block step count. -/
def TrLen16 (blocks : List Block) : Prop :=
  ∀ b blk, blocks.get? b = some blk → ∀ id tr, jsGetProp id blk.tracks = some tr →
    tr.length = TimeMatrix.totalSteps

theorem writeNote_length (blocks : List Block) (b : ℕ) (id : Str) (s : ℕ) (nt : Note) :
    (writeNote blocks b id s nt).length = blocks.length :=
  length_listModify blocks b _

theorem writeNote_get?_ne (blocks : List Block) {b b' : ℕ} (id : Str) (s : ℕ) (nt : Note)
    (h : b' ≠ b) : (writeNote blocks b id s nt).get? b' = blocks.get? b' :=
  get?_listModify_ne blocks _ h

theorem writeNote_get?_same (blocks : List Block) (b : ℕ) (id : Str) (s : ℕ) (nt : Note) :
    (writeNote blocks b id s nt).get? b = (blocks.get? b).map fun blk =>
      { blk with tracks := assocModify id (fun tr => tr.set s (some nt)) blk.tracks } :=
  get?_listModify_same blocks b _

theorem blNote_writeNote_same (blocks : List Block) (b : ℕ) (id : Str) (s : ℕ) (nt : Note)
    (blk : Block) (hb : blocks.get? b = some blk)
    (tr : List (Option Note)) (htr : jsGetProp id blk.tracks = some tr)
    (hs : s < tr.length) :
    blNote (writeNote blocks b id s nt) b id s = some nt := by
  unfold blNote
  rw [writeNote_get?_same, hb]
  simp only [Option.map_some']
  unfold trackNoteAt
  rw [jsGetProp_assocModify_same, htr]
  simp only [Option.map_some']
  rw [List.getD_eq_get?, List.get?_set_eq_of_lt _ hs]
  rfl

theorem blNote_writeNote_ne_slot (blocks : List Block) (b : ℕ) (id : Str) (s : ℕ)
    (nt : Note) (b' s' : ℕ) (h : ¬(b' = b ∧ s' = s)) :
    blNote (writeNote blocks b id s nt) b' id s' = blNote blocks b' id s' := by
  by_cases hb : b' = b
  · subst hb
    have hs : s' ≠ s := fun hss => h ⟨rfl, hss⟩
    unfold blNote
    rw [writeNote_get?_same]
    cases hbk : blocks.get? b' with
    | none => rfl
    | some blk =>
      simp only [Option.map_some']
      unfold trackNoteAt
      rw [jsGetProp_assocModify_same]
      cases htr : jsGetProp id blk.tracks with
      | none => rfl
      | some tr =>
        simp only [Option.map_some']
        rw [List.getD_eq_get?, List.getD_eq_get?, List.get?_set_ne _ _ (Ne.symm hs)]
  · unfold blNote
    rw [writeNote_get?_ne blocks id s nt hb]

theorem blNote_writeNote_ne_id (blocks : List Block) (b : ℕ) (id : Str) (s : ℕ)
    (nt : Note) (id' : Str) (b' s' : ℕ) (h : id' ≠ id) :
    blNote (writeNote blocks b id s nt) b' id' s' = blNote blocks b' id' s' := by
  by_cases hb : b' = b
  · subst hb
    unfold blNote
    rw [writeNote_get?_same]
    cases hbk : blocks.get? b' with
    | none => rfl
    | some blk =>
      simp only [Option.map_some']
      unfold trackNoteAt
      rw [jsGetProp_assocModify_ne _ _ h]
  · unfold blNote
    rw [writeNote_get?_ne blocks id s nt hb]

theorem writeNote_drums (blocks : List Block) (b : ℕ) (id : Str) (s : ℕ) (nt : Note)
    (b' : ℕ) :
    ((writeNote blocks b id s nt).get? b').map Block.drums
      = (blocks.get? b').map Block.drums := by
  by_cases hb : b' = b
  · subst hb
    rw [writeNote_get?_same, Option.map_map]
    rfl
  · rw [writeNote_get?_ne blocks id s nt hb]

theorem writeNote_key (blocks : List Block) (b : ℕ) (id : Str) (s : ℕ) (nt : Note)
    (id2 : Str) (b' : ℕ) :
    ((writeNote blocks b id s nt).get? b').map
        (fun blk => (jsGetProp id2 blk.tracks).isSome)
      = (blocks.get? b').map fun blk => (jsGetProp id2 blk.tracks).isSome := by
  by_cases hb : b' = b
  · subst hb
    rw [writeNote_get?_same, Option.map_map]
    cases hbk : blocks.get? b' with
    | none => rfl
    | some blk =>
      simp only [Option.map_some', Function.comp]
      congr 1
      by_cases hid : id2 = id
      · subst hid
        rw [jsGetProp_assocModify_same]
        cases jsGetProp id2 blk.tracks <;> rfl
      · rw [jsGetProp_assocModify_ne _ _ hid]
  · rw [writeNote_get?_ne blocks id s nt hb]

theorem TrLen16_writeNote {blocks : List Block} (b : ℕ) (id : Str) (s : ℕ) (nt : Note)
    (h : TrLen16 blocks) : TrLen16 (writeNote blocks b id s nt) := by
  intro b' blk' hb' id2 tr htr
  by_cases hb : b' = b
  · subst hb
    rw [writeNote_get?_same] at hb'
    cases hbk : blocks.get? b' with
    | none => rw [hbk] at hb'; simp at hb'
    | some blk =>
      rw [hbk] at hb'
      simp only [Option.map_some', Option.some.injEq] at hb'
      subst hb'
      by_cases hid : id2 = id
      · subst hid
        rw [jsGetProp_assocModify_same] at htr
        cases htr0 : jsGetProp id2 blk.tracks with
        | none => rw [htr0] at htr; simp at htr
        | some tr0 =>
          rw [htr0] at htr
          simp only [Option.map_some', Option.some.injEq] at htr
          subst htr
          rw [List.length_set]
          exact h b' blk hbk id2 tr0 htr0
      · rw [jsGetProp_assocModify_ne _ _ hid] at htr
        exact h b' blk hbk id2 tr htr
  · rw [writeNote_get?_ne blocks id s nt hb] at hb'
    exact h b' blk' hb' id2 tr htr

/-! ### `registerTrack` and the rebuilt blocks -/

theorem registerTrack_length (id : Str) (blocks : List Block) :
    (TimeMatrix.registerTrack id blocks).length = blocks.length := by
  unfold TimeMatrix.registerTrack
  rw [List.length_map]

theorem registerTrack_get? (id : Str) (blocks : List Block) (b : ℕ) :
    (TimeMatrix.registerTrack id blocks).get? b = (blocks.get? b).map fun blk =>
      if (jsGetProp id blk.tracks).isSome then blk
      else { blk with tracks := blk.tracks ++ [(id, TimeMatrix.freshTrack)] } := by
  unfold TimeMatrix.registerTrack
  rw [List.get?_map]

theorem registerTrack_drums (id : Str) (blocks : List Block) (b : ℕ) :
    ((TimeMatrix.registerTrack id blocks).get? b).map Block.drums
      = (blocks.get? b).map Block.drums := by
  rw [registerTrack_get?, Option.map_map]
  cases blocks.get? b with
  | none => rfl
  | some blk =>
    simp only [Option.map_some', Function.comp]
    congr 1
    split <;> rfl

theorem freshTrack_getD (s : ℕ) : TimeMatrix.freshTrack.getD s none = none := by
  unfold TimeMatrix.freshTrack
  by_cases hs : s < TimeMatrix.totalSteps
  · rw [List.getD_eq_getElem _ _ (by simpa using hs)]
    simp
  · rw [List.getD_eq_default]
    simpa using hs

theorem blNote_registerTrack (id : Str) (blocks : List Block) (id' : Str) (b s : ℕ) :
    blNote (TimeMatrix.registerTrack id blocks) b id' s = blNote blocks b id' s := by
  unfold blNote
  rw [registerTrack_get?]
  cases hbk : blocks.get? b with
  | none => rfl
  | some blk =>
    simp only [Option.map_some']
    by_cases hpres : (jsGetProp id blk.tracks).isSome = true
    · rw [if_pos hpres]
    · rw [if_neg hpres]
      unfold trackNoteAt
      rw [jsGetProp_append]
      cases hg : jsGetProp id' blk.tracks with
      | some tr => rfl
      | none =>
        by_cases hid : id = id'
        · subst hid
          rw [jsGetProp, if_pos rfl]
          exact freshTrack_getD s
        · rw [jsGetProp, if_neg hid]
          rfl

theorem registerTrack_key (id : Str) (blocks : List Block) (b : ℕ) (blk : Block)
    (h : (TimeMatrix.registerTrack id blocks).get? b = some blk) :
    (jsGetProp id blk.tracks).isSome = true := by
  rw [registerTrack_get?] at h
  cases hbk : blocks.get? b with
  | none => rw [hbk] at h; simp at h
  | some blk0 =>
    rw [hbk] at h
    simp only [Option.map_some', Option.some.injEq] at h
    subst h
    by_cases hpres : (jsGetProp id blk0.tracks).isSome = true
    · rw [if_pos hpres]
      exact hpres
    · rw [if_neg hpres]
      simp only
      rw [jsGetProp_append]
      rw [Option.not_isSome_iff_eq_none] at hpres
      rw [hpres]
      rw [jsGetProp, if_pos rfl]
      rfl

theorem TrLen16_registerTrack (id : Str) {blocks : List Block} (h : TrLen16 blocks) :
    TrLen16 (TimeMatrix.registerTrack id blocks) := by
  intro b blk hb id2 tr htr
  rw [registerTrack_get?] at hb
  cases hbk : blocks.get? b with
  | none => rw [hbk] at hb; simp at hb
  | some blk0 =>
    rw [hbk] at hb
    simp only [Option.map_some', Option.some.injEq] at hb
    subst hb
    by_cases hpres : (jsGetProp id blk0.tracks).isSome = true
    · rw [if_pos hpres] at htr
      exact h b blk0 hbk id2 tr htr
    · rw [if_neg hpres] at htr
      simp only at htr
      rw [jsGetProp_append] at htr
      cases hg : jsGetProp id2 blk0.tracks with
      | some tr0 =>
        rw [hg] at htr
        simp only [Option.some.injEq] at htr
        subst htr
        exact h b blk0 hbk id2 tr0 hg
      | none =>
        rw [hg] at htr
        by_cases hid : id = id2
        · rw [jsGetProp, if_pos hid] at htr
          simp only [Option.some.injEq] at htr
          subst htr
          rfl
        · rw [jsGetProp, if_neg hid] at htr
          simp [jsGetProp] at htr

/-! ### The bass cell loop -/

/-- The cell loop of one imported bass line (`for g in 0..total-1`). -/
def noteFold (id : Str) (cells : List Str) (K : ℕ) (blocks : List Block) : List Block :=
  (List.range K).foldl (fun bl g => processNoteCell id g cells bl) blocks

theorem noteFold_succ (id : Str) (cells : List Str) (K : ℕ) (blocks : List Block) :
    noteFold id cells (K + 1) blocks =
      processNoteCell id K cells (noteFold id cells K blocks) := by
  unfold noteFold
  rw [List.range_succ, List.foldl_append]
  rfl

theorem stepSplit {b s K : ℕ} (hs : s < TimeMatrix.totalSteps)
    (h : TimeMatrix.totalSteps * b + s = K) :
    b = K / TimeMatrix.totalSteps ∧ s = K % TimeMatrix.totalSteps := by
  subst h
  refine ⟨?_, ?_⟩
  · rw [Nat.mul_add_div (by decide : 0 < TimeMatrix.totalSteps) b s, Nat.div_eq_of_lt hs]
    omega
  · rw [Nat.mul_add_mod, Nat.mod_eq_of_lt hs]


theorem noteFold_spec (id : Str) (cells : List Str) (orig : List Block) (K : ℕ)
    (hK : K ≤ orig.length * TimeMatrix.totalSteps)
    (hcells : ∀ g, g < K →
      cells.getD (g + 1) [] =
        exportBassCell (blNote orig (g / TimeMatrix.totalSteps) id
          (g % TimeMatrix.totalSteps)))
    (hnotes : ∀ b s nt, blNote orig b id s = some nt →
      nt.note ∈ TimeMatrix.noteMapRevList ∧ 0 ≤ nt.octave.getD 0)
    (blocks : List Block) (hlen : blocks.length = orig.length)
    (htr : TrLen16 blocks)
    (hkey : ∀ b blk, blocks.get? b = some blk → (jsGetProp id blk.tracks).isSome = true) :
    (noteFold id cells K blocks).length = orig.length ∧
    TrLen16 (noteFold id cells K blocks) ∧
    (∀ b, ((noteFold id cells K blocks).get? b).map Block.drums
        = (blocks.get? b).map Block.drums) ∧
    (∀ b blk, (noteFold id cells K blocks).get? b = some blk →
        (jsGetProp id blk.tracks).isSome = true) ∧
    (∀ id2, id2 ≠ id → ∀ b s,
        blNote (noteFold id cells K blocks) b id2 s = blNote blocks b id2 s) ∧
    (∀ b s, s < TimeMatrix.totalSteps →
        blNote (noteFold id cells K blocks) b id s =
          if TimeMatrix.totalSteps * b + s < K ∧ (blNote orig b id s).isSome = true
          then blNote orig b id s else blNote blocks b id s) := by
  induction K with
  | zero =>
    refine ⟨hlen, htr, fun b => rfl, hkey, fun id2 _ b s => rfl, fun b s hs => ?_⟩
    rw [if_neg (by simp)]
    rfl
  | succ K ih =>
    obtain ⟨ha, hb2, hc, hd, he, hf⟩ := ih (by omega) fun g hg => hcells g (by omega)
    rw [noteFold_succ]
    cases horig : blNote orig (K / TimeMatrix.totalSteps) id (K % TimeMatrix.totalSteps) with
    | none =>
      have hstep : processNoteCell id K cells (noteFold id cells K blocks)
          = noteFold id cells K blocks :=
        processNoteCell_none _ _ _ _ (by rw [hcells K (by omega), horig])
      rw [hstep]
      refine ⟨ha, hb2, hc, hd, he, fun b s hs => ?_⟩
      rw [hf b s hs]
      by_cases hcond : TimeMatrix.totalSteps * b + s < K ∧
          (blNote orig b id s).isSome = true
      · rw [if_pos hcond, if_pos ⟨Nat.lt_succ_of_lt hcond.1, hcond.2⟩]
      · rw [if_neg hcond, if_neg (by
          rintro ⟨hlt, hsome⟩
          rcases Nat.lt_succ_iff_lt_or_eq.mp hlt with h1 | h1
          · exact hcond ⟨h1, hsome⟩
          · obtain ⟨rfl, rfl⟩ := stepSplit hs h1
            rw [horig] at hsome
            simp at hsome)]
    | some nt =>
      obtain ⟨hnm, hoct⟩ := hnotes _ _ _ horig
      have hstep := processNoteCell_some id K cells (noteFold id cells K blocks) nt
        (by rw [hcells K (by omega), horig]) hnm hoct
      have hdivlt : K / TimeMatrix.totalSteps < orig.length :=
        Nat.div_lt_of_lt_mul (by rw [Nat.mul_comm]; omega)
      obtain ⟨blk, hblk⟩ : ∃ blk,
          (noteFold id cells K blocks).get? (K / TimeMatrix.totalSteps) = some blk := by
        cases hres0 : (noteFold id cells K blocks).get? (K / TimeMatrix.totalSteps) with
        | some blk => exact ⟨blk, rfl⟩
        | none =>
          exact absurd hres0
            (by simp [List.get?_eq_getElem?, List.getElem?_eq_none_iff]; omega)
      have hres : processNoteCell id K cells (noteFold id cells K blocks) =
          writeNote (noteFold id cells K blocks) (K / TimeMatrix.totalSteps) id
            (K % TimeMatrix.totalSteps) nt := by
        rw [hstep, hblk]
      rw [hres]
      refine ⟨?_, TrLen16_writeNote _ _ _ _ hb2, ?_, ?_, ?_, ?_⟩
      · rw [writeNote_length]
        exact ha
      · intro b
        rw [writeNote_drums]
        exact hc b
      · intro b blk' hblk'
        have hkeq := writeNote_key (noteFold id cells K blocks)
          (K / TimeMatrix.totalSteps) id (K % TimeMatrix.totalSteps) nt id b
        rw [hblk'] at hkeq
        cases hres0 : (noteFold id cells K blocks).get? b with
        | none =>
          rw [hres0] at hkeq
          simp at hkeq
        | some blk0 =>
          rw [hres0] at hkeq
          simp only [Option.map_some', Option.some.injEq] at hkeq
          rw [hkeq]
          exact hd b blk0 hres0
      · intro id2 hne b s
        rw [blNote_writeNote_ne_id _ _ _ _ _ _ _ _ hne, he id2 hne b s]
      · intro b s hs
        by_cases hbs : b = K / TimeMatrix.totalSteps ∧ s = K % TimeMatrix.totalSteps
        · obtain ⟨rfl, rfl⟩ := hbs
          obtain ⟨tr, htr', hl⟩ : ∃ tr, jsGetProp id blk.tracks = some tr ∧
              tr.length = TimeMatrix.totalSteps := by
            have hk := hd _ blk hblk
            cases hgt : jsGetProp id blk.tracks with
            | none =>
              rw [hgt] at hk
              simp at hk
            | some tr => exact ⟨tr, rfl, hb2 _ blk hblk id tr hgt⟩
          rw [blNote_writeNote_same _ _ _ _ _ blk hblk tr htr'
            (by rw [hl]; exact Nat.mod_lt _ (by decide))]
          rw [if_pos ⟨by rw [Nat.div_add_mod]; exact Nat.lt_succ_self K,
            by rw [horig]; rfl⟩, horig]
        · rw [blNote_writeNote_ne_slot _ _ _ _ _ _ _ hbs, hf b s hs]
          by_cases hcond : TimeMatrix.totalSteps * b + s < K ∧
              (blNote orig b id s).isSome = true
          · rw [if_pos hcond, if_pos ⟨Nat.lt_succ_of_lt hcond.1, hcond.2⟩]
          · rw [if_neg hcond, if_neg (by
              rintro ⟨hlt, hsome⟩
              rcases Nat.lt_succ_iff_lt_or_eq.mp hlt with h1 | h1
              · exact hcond ⟨h1, hsome⟩
              · exact hbs (stepSplit hs h1))]

/-! ### Processing one bass line -/

theorem bassRow_cells (blocks : List Block) (σ : BassSynth)
    (hid : ∀ c ∈ σ.id, ¬c = ',') :
    splitOnChar ',' (bassRow blocks σ) = bassConfigCell σ :: bassCells blocks σ.id := by
  unfold bassRow
  apply splitOnChar_joinCells
  · intro hc
    rcases mem_bassConfigCell hc with h1 | h1 | h1
    · exact hid _ h1 rfl
    · exact absurd h1 (by decide)
    · exact (numChar_spec h1).1 rfl
  · intro cell hcell hc
    unfold bassCells at hcell
    simp only [List.mem_flatMap, List.mem_map] at hcell
    obtain ⟨b, _, s, _, rfl⟩ := hcell
    exact (numChar_spec (mem_exportBassCell hc)).1 rfl

theorem bassConfigCell_parts (σ : BassSynth) (hid : ∀ c ∈ σ.id, ¬c = ':') :
    splitOnChar ':' (bassConfigCell σ) = [σ.id, bassParamsStr σ.params] := by
  have hform : bassConfigCell σ =
      σ.id ++ ([bassParamsStr σ.params].flatMap fun c => ':' :: c) := by
    unfold bassConfigCell
    simp
  rw [hform]
  apply splitOnChar_joinCells
  · intro hc
    exact hid _ hc rfl
  · intro cell hcell hc
    rcases List.mem_cons.mp hcell with rfl | h2
    · exact (numChar_spec (mem_bassParamsStr hc)).2.2.1 rfl
    · simp at h2

theorem startsWith_bassConfig (σ : BassSynth)
    (hsw : startsWithJS drumsTok σ.id = false) :
    startsWithJS drumsTok (bassConfigCell σ) = false := by
  unfold bassConfigCell
  exact startsWith_append_cons_false _ _ _ _ hsw (by decide)

theorem colon_mem_bassConfig (σ : BassSynth) : (':' : Char) ∈ bassConfigCell σ := by
  unfold bassConfigCell
  simp

theorem blNote_oob {blocks : List Block} {b : ℕ} (h : blocks.length ≤ b)
    (id : Str) (s : ℕ) : blNote blocks b id s = none := by
  unfold blNote
  rw [List.get?_eq_getElem?, List.getElem?_eq_none h]

/-- The invariant maintained while the imported bass lines are replayed:
`orig` is the pre-export session, `done` the ids of the already processed
lines, `cur` the live state. -/
def ImportInv (orig : EngineState) (done : List Str) (cur : EngineState) : Prop :=
  cur.bpm = orig.bpm ∧
  cur.bassSynths.map BassSynth.id = orig.bassSynths.map BassSynth.id ∧
  cur.drum = orig.drum ∧
  cur.blocks.length = orig.blocks.length ∧
  (∀ b blk, cur.blocks.get? b = some blk →
    blk.drums = List.replicate TimeMatrix.totalSteps []) ∧
  TrLen16 cur.blocks ∧
  (∀ id2, id2 ∈ done → ∀ b s, s < TimeMatrix.totalSteps →
    blNote cur.blocks b id2 s = blNote orig.blocks b id2 s) ∧
  (∀ id2, id2 ∉ done → ∀ b s, blNote cur.blocks b id2 s = none)

theorem processBassLine_reduce (total : ℕ) (σ : BassSynth) (cellsTail : List Str)
    (cur : EngineState)
    (hid : ∀ c ∈ σ.id, ¬c = ':')
    (hmem : σ.id ∈ cur.bassSynths.map BassSynth.id) :
    ∃ synths', synths'.map BassSynth.id = cur.bassSynths.map BassSynth.id ∧
      processBassLine total (bassConfigCell σ :: cellsTail) cur =
        { cur with
            bassSynths := synths',
            blocks := noteFold σ.id (bassConfigCell σ :: cellsTail) total
              (TimeMatrix.registerTrack σ.id cur.blocks) } := by
  simp only [processBassLine]
  simp only [List.getD_cons_zero]
  rw [bassConfigCell_parts σ hid]
  simp only [List.getD_cons_zero, List.getD_cons_succ]
  rw [if_pos ((getSynth_isSome_iff σ.id cur.bassSynths).mpr hmem)]
  by_cases hp : 10 ≤ ((splitOnChar '-' (bassParamsStr σ.params)).map numberJS).length
  · rw [if_pos hp]
    exact ⟨modifyFirstSynth σ.id (setParams ((splitOnChar '-'
        (bassParamsStr σ.params)).map numberJS)) cur.bassSynths,
      modifyFirstSynth_map_id σ.id
        (setParams ((splitOnChar '-' (bassParamsStr σ.params)).map numberJS))
        (fun σ0 => rfl) cur.bassSynths, rfl⟩
  · rw [if_neg hp]
    exact ⟨cur.bassSynths, rfl, rfl⟩

theorem processBassLine_step (orig : EngineState) (done : List Str) (cur : EngineState)
    (σ : BassSynth) (hσ : σ ∈ orig.bassSynths)
    (hinv : ImportInv orig done cur)
    (hid : ∀ c ∈ σ.id, ¬c = '\n' ∧ ¬c = ',' ∧ ¬c = ':')
    (hsw : startsWithJS drumsTok σ.id = false)
    (hnotes : ∀ b s nt, blNote orig.blocks b σ.id s = some nt →
      nt.note ∈ TimeMatrix.noteMapRevList ∧ 0 ≤ nt.octave.getD 0) :
    ImportInv orig (σ.id :: done)
      (processLine (orig.blocks.length * TimeMatrix.totalSteps) cur
        (bassRow orig.blocks σ)) := by
  obtain ⟨h1, h2, h3, h4, h5, h6, h7, h8⟩ := hinv
  have hcellsplit := bassRow_cells orig.blocks σ fun c hc => (hid c hc).2.1
  have hpl : processLine (orig.blocks.length * TimeMatrix.totalSteps) cur
      (bassRow orig.blocks σ) =
      processBassLine (orig.blocks.length * TimeMatrix.totalSteps)
        (bassConfigCell σ :: bassCells orig.blocks σ.id) cur := by
    simp only [processLine]
    rw [hcellsplit]
    simp only [List.getD_cons_zero]
    rw [startsWith_bassConfig σ hsw]
    rw [if_neg (by simp)]
    rw [if_pos (colon_mem_bassConfig σ)]
  rw [hpl]
  obtain ⟨synths', hsyn, hred⟩ := processBassLine_reduce
    (orig.blocks.length * TimeMatrix.totalSteps) σ (bassCells orig.blocks σ.id) cur
    (fun c hc => (hid c hc).2.2) (by rw [h2]; exact List.mem_map.mpr ⟨σ, hσ, rfl⟩)
  rw [hred]
  have hrtlen : (TimeMatrix.registerTrack σ.id cur.blocks).length = orig.blocks.length := by
    rw [registerTrack_length, h4]
  obtain ⟨fa, fb, fc, fd, fe, ff⟩ := noteFold_spec σ.id
    (bassConfigCell σ :: bassCells orig.blocks σ.id) orig.blocks
    (orig.blocks.length * TimeMatrix.totalSteps) le_rfl
    (by
      intro g hg
      rw [List.getD_cons_succ]
      exact bassCells_getD orig.blocks σ.id g hg)
    hnotes
    (TimeMatrix.registerTrack σ.id cur.blocks) hrtlen
    (TrLen16_registerTrack σ.id h6)
    (registerTrack_key σ.id cur.blocks)
  refine ⟨h1, hsyn.trans h2, h3, fa, ?_, fb, ?_, ?_⟩
  · intro b blk hblk
    have hd := fc b
    rw [hblk, registerTrack_drums] at hd
    cases hcb : cur.blocks.get? b with
    | none =>
      rw [hcb] at hd
      simp at hd
    | some blk0 =>
      rw [hcb] at hd
      simp only [Option.map_some', Option.some.injEq] at hd
      rw [hd]
      exact h5 b blk0 hcb
  · intro id2 hid2 b s hs
    by_cases hsame : id2 = σ.id
    · subst hsame
      rw [ff b s hs, blNote_registerTrack]
      have hcur : blNote cur.blocks b σ.id s = blNote orig.blocks b σ.id s ∨
          blNote cur.blocks b σ.id s = none := by
        by_cases hdn : σ.id ∈ done
        · exact Or.inl (h7 σ.id hdn b s hs)
        · exact Or.inr (h8 σ.id hdn b s)
      by_cases hcond : TimeMatrix.totalSteps * b + s <
          orig.blocks.length * TimeMatrix.totalSteps ∧
          (blNote orig.blocks b σ.id s).isSome = true
      · rw [if_pos hcond]
      · rw [if_neg hcond]
        by_cases hblt : b < orig.blocks.length
        · have hlt : TimeMatrix.totalSteps * b + s <
              orig.blocks.length * TimeMatrix.totalSteps := by
            calc TimeMatrix.totalSteps * b + s
                < TimeMatrix.totalSteps * (b + 1) := by
                  have : TimeMatrix.totalSteps * (b + 1)
                      = TimeMatrix.totalSteps * b + TimeMatrix.totalSteps := by ring
                  omega
              _ ≤ TimeMatrix.totalSteps * orig.blocks.length :=
                  Nat.mul_le_mul_left _ hblt
              _ = orig.blocks.length * TimeMatrix.totalSteps := Nat.mul_comm _ _
          have hnone : blNote orig.blocks b σ.id s = none := by
            cases hx : blNote orig.blocks b σ.id s with
            | none => rfl
            | some nt => exact absurd ⟨hlt, by rw [hx]; rfl⟩ hcond
          rcases hcur with hc1 | hc1
          · rw [hc1]
          · rw [hc1, hnone]
        · have hnone1 : blNote orig.blocks b σ.id s = none :=
            blNote_oob (by omega) σ.id s
          have hnone2 : blNote cur.blocks b σ.id s = none :=
            blNote_oob (by omega) σ.id s
          rw [hnone2, hnone1]
    · rw [fe id2 hsame, blNote_registerTrack]
      exact h7 id2 (by
        rcases List.mem_cons.mp hid2 with h | h
        · exact absurd h hsame
        · exact h) b s hs
  · intro id2 hid2 b s
    have hne : id2 ≠ σ.id := fun he => hid2 (he ▸ List.mem_cons_self _ _)
    rw [fe id2 hne, blNote_registerTrack]
    exact h8 id2 (fun hd2 => hid2 (List.mem_cons_of_mem _ hd2)) b s

theorem ImportInv_congr_done (orig : EngineState) (d1 d2 : List Str) (cur : EngineState)
    (h : ∀ x, x ∈ d1 ↔ x ∈ d2) (hinv : ImportInv orig d1 cur) : ImportInv orig d2 cur := by
  obtain ⟨h1, h2, h3, h4, h5, h6, h7, h8⟩ := hinv
  exact ⟨h1, h2, h3, h4, h5, h6,
    fun id2 hm => h7 id2 ((h id2).mpr hm),
    fun id2 hm => h8 id2 fun hx => hm ((h id2).mp hx)⟩

theorem foldBassLines (orig : EngineState) (todo : List BassSynth) :
    ∀ (done : List Str) (cur : EngineState),
    (∀ σ ∈ todo, σ ∈ orig.bassSynths) →
    (∀ σ ∈ todo, (∀ c ∈ σ.id, ¬c = '\n' ∧ ¬c = ',' ∧ ¬c = ':') ∧
      startsWithJS drumsTok σ.id = false) →
    (∀ σ ∈ todo, ∀ b s nt, blNote orig.blocks b σ.id s = some nt →
      nt.note ∈ TimeMatrix.noteMapRevList ∧ 0 ≤ nt.octave.getD 0) →
    ImportInv orig done cur →
    ImportInv orig (todo.map BassSynth.id ++ done)
      ((todo.map fun σ => bassRow orig.blocks σ).foldl
        (processLine (orig.blocks.length * TimeMatrix.totalSteps)) cur) := by
  induction todo with
  | nil =>
    intro done cur _ _ _ hinv
    simpa using hinv
  | cons σ rest ih =>
    intro done cur hσs hids hnotes hinv
    simp only [List.map_cons, List.foldl_cons]
    have hstep := processBassLine_step orig done cur σ (hσs σ (List.mem_cons_self σ rest))
      hinv (hids σ (List.mem_cons_self σ rest)).1 (hids σ (List.mem_cons_self σ rest)).2
      (hnotes σ (List.mem_cons_self σ rest))
    have hrec := ih (σ.id :: done) _
      (fun τ hτ => hσs τ (List.mem_cons_of_mem σ hτ))
      (fun τ hτ => hids τ (List.mem_cons_of_mem σ hτ))
      (fun τ hτ => hnotes τ (List.mem_cons_of_mem σ hτ)) hstep
    refine ImportInv_congr_done orig _ _ _ ?_ hrec
    intro x
    simp only [List.map_cons, List.mem_append, List.mem_cons]
    tauto

theorem ImportInv_initial (orig : EngineState) :
    ImportInv orig []
      { bpm := orig.bpm, blocks := List.replicate orig.blocks.length freshBlock,
        bassSynths := orig.bassSynths, drum := orig.drum } := by
  have hfresh : ∀ b blk,
      (List.replicate orig.blocks.length freshBlock).get? b = some blk →
      blk = freshBlock := by
    intro b blk hblk
    exact List.eq_of_mem_replicate (List.get?_mem hblk)
  refine ⟨rfl, rfl, rfl, by simp, ?_, ?_, ?_, ?_⟩
  · intro b blk hblk
    rw [hfresh b blk hblk]
    rfl
  · intro b blk hblk id tr htr
    rw [hfresh b blk hblk] at htr
    have htr2 : jsGetProp id [(TimeMatrix.defaultTrackId, TimeMatrix.freshTrack)]
        = some tr := htr
    rw [jsGetProp] at htr2
    by_cases hd : TimeMatrix.defaultTrackId = id
    · rw [if_pos hd] at htr2
      simp only [Option.some.injEq] at htr2
      rw [← htr2]
      rfl
    · rw [if_neg hd] at htr2
      simp [jsGetProp] at htr2
  · intro id2 h
    simp at h
  · intro id2 _ b s
    unfold blNote
    cases hblk : (List.replicate orig.blocks.length freshBlock).get? b with
    | none => rfl
    | some blk =>
      rw [hfresh b blk hblk]
      unfold trackNoteAt freshBlock
      simp only
      rw [jsGetProp]
      by_cases hd : TimeMatrix.defaultTrackId = id2
      · rw [if_pos hd]
        exact freshTrack_getD s
      · rw [if_neg hd]
        rw [jsGetProp]

/-! ### Processing the drum line: config restore -/

theorem startsWith_drumConfigCell (st : EngineState) :
    startsWithJS drumsTok (drumConfigCell st) = true := by
  have hform : drumConfigCell st = drumsTok ++
      ((':' :: (renderNum st.drum.masterVolume ++
        ':' :: natToChars st.drum.channels.length)) ++
        st.drum.channels.flatMap drumChannelCfg) := by
    unfold drumConfigCell drumMainHeader
    simp [List.append_assoc]
  rw [hform]
  exact startsWith_append_self _ _

theorem numChar_ne_bracket {c : Char} (h : numChar c) : ¬c = '[' ∧ ¬c = ']' := by
  rcases h with hd | rfl | rfl | rfl
  · have hs := digitChar_spec hd
    exact ⟨hs.2.2.2.2.2.1, hs.2.2.2.2.2.2.1⟩
  · exact ⟨by decide, by decide⟩
  · exact ⟨by decide, by decide⟩
  · exact ⟨by decide, by decide⟩

theorem drumConfigCell_parts (st : EngineState)
    (hty : ∀ ch ∈ st.drum.channels, ∀ c ∈ ch.type, ¬c = '|') :
    splitOnChar '|' (drumConfigCell st) =
      drumMainHeader st :: st.drum.channels.map drumChannelBody := by
  have hform : drumConfigCell st = drumMainHeader st ++
      ((st.drum.channels.map drumChannelBody).flatMap fun c => '|' :: c) := by
    unfold drumConfigCell
    rw [List.flatMap_map]
    rfl
  rw [hform]
  apply splitOnChar_joinCells
  · intro hc
    rcases mem_drumMainHeader hc with h | h | h
    · have h' : ('|' : Char) ∈ (['d', 'r', 'u', 'm', 's'] : List Char) := h
      simp at h'
    · exact absurd h (by decide)
    · exact (numChar_spec h).2.2.2.1 rfl
  · intro cell hcell hc
    obtain ⟨ch, hch, rfl⟩ := List.mem_map.mp hcell
    rcases mem_drumChannelBody hc with h | h | h
    · exact hty ch hch _ h rfl
    · exact absurd h (by decide)
    · exact (numChar_spec h).2.2.2.1 rfl

theorem drumMainHeader_parts (st : EngineState) :
    splitOnChar ':' (drumMainHeader st) =
      [drumsTok, renderNum st.drum.masterVolume, natToChars st.drum.channels.length] := by
  have hform : drumMainHeader st = drumsTok ++
      ([renderNum st.drum.masterVolume,
        natToChars st.drum.channels.length].flatMap fun c => ':' :: c) := by
    unfold drumMainHeader
    simp [List.append_assoc]
  rw [hform]
  apply splitOnChar_joinCells
  · intro hc
    have h' : (':' : Char) ∈ (['d', 'r', 'u', 'm', 's'] : List Char) := hc
    simp at h'
  · intro cell hcell hc
    rcases List.mem_cons.mp hcell with rfl | h2
    · exact (numChar_spec (mem_renderNum hc)).2.2.1 rfl
    rcases List.mem_cons.mp h2 with rfl | h3
    · exact (numChar_spec (Or.inl (mem_natToChars _ hc))).2.2.1 rfl
    · simp at h3

theorem drumChannelBody_parts (ch : DrumChannel)
    (hty : ∀ c ∈ ch.type, ¬c = '-')
    (hvar : 0 ≤ ch.variant.getD 0) (hvol : 0 ≤ ch.volume.getD 0)
    (hcol : 0 ≤ ch.colorId.getD 0) :
    splitOnChar '-' (drumChannelBody ch) =
      [ch.type, renderNum ch.variant, renderNum ch.volume,
       match ch.colorId with
       | some c => intToChars c
       | none => natToChars ch.id] := by
  have hform : drumChannelBody ch = ch.type ++
      ([renderNum ch.variant, renderNum ch.volume,
        match ch.colorId with
        | some c => intToChars c
        | none => natToChars ch.id].flatMap fun c => '-' :: c) := by
    unfold drumChannelBody
    simp [List.append_assoc]
  rw [hform]
  apply splitOnChar_joinCells
  · intro hc
    exact hty _ hc rfl
  · intro cell hcell hc
    rcases List.mem_cons.mp hcell with rfl | h2
    · exact dash_not_mem_renderNum hvar hc
    rcases List.mem_cons.mp h2 with rfl | h3
    · exact dash_not_mem_renderNum hvol hc
    rcases List.mem_cons.mp h3 with rfl | h4
    · cases hcid : ch.colorId with
      | some cc =>
        rw [hcid] at hc
        have hc2 : ('-' : Char) ∈ intToChars cc := hc
        rw [intToChars_nonneg (by rw [hcid] at hcol; simpa using hcol)] at hc2
        exact absurd (mem_natToChars _ hc2) (by decide)
      | none =>
        rw [hcid] at hc
        have hc2 : ('-' : Char) ∈ natToChars ch.id := hc
        exact absurd (mem_natToChars _ hc2) (by decide)
    · simp at h4

theorem bracket_not_mem_body {ch : DrumChannel}
    (hty : ∀ c ∈ ch.type, ¬c = '[' ∧ ¬c = ']') :
    ('[' : Char) ∉ drumChannelBody ch ∧ (']' : Char) ∉ drumChannelBody ch := by
  constructor <;> intro hc <;> rcases mem_drumChannelBody hc with h | h | h
  · exact (hty _ h).1 rfl
  · exact absurd h (by decide)
  · exact (numChar_ne_bracket h).1 rfl
  · exact (hty _ h).2 rfl
  · exact absurd h (by decide)
  · exact (numChar_ne_bracket h).2 rfl

theorem clamp100_id {o : Option ℤ} (h0 : 0 ≤ o.getD 0) (h100 : o.getD 0 ≤ 100) :
    DrumSynth.clamp100 o = o := by
  cases o with
  | none => rfl
  | some z =>
    simp only [DrumSynth.clamp100, Option.map_some', Option.some.injEq]
    simp only [Option.getD_some] at h0 h100
    omega

theorem processDrumChannel_id (parts : List Str) (c0 : ℕ) (d : DrumSynthState)
    (ch : DrumChannel) (hch : d.channels.get? c0 = some ch)
    (hpart : parts.getD (c0 + 1) [] = drumChannelBody ch)
    (hty : ∀ c ∈ ch.type, ¬c = '-' ∧ ¬c = '[' ∧ ¬c = ']')
    (hvar : 0 ≤ ch.variant.getD 0)
    (hvol : 0 ≤ ch.volume.getD 0 ∧ ch.volume.getD 0 ≤ 100)
    (hcol : ch.colorId.isSome = true ∧ 0 ≤ ch.colorId.getD 0) :
    processDrumChannel parts (c0 + 1) d = d := by
  have hlt : c0 < d.channels.length := by
    by_contra hge
    rw [List.get?_eq_getElem?, List.getElem?_eq_none (by omega)] at hch
    cases hch
  have hbr := bracket_not_mem_body fun c hcc => ⟨(hty c hcc).2.1, (hty c hcc).2.2⟩
  obtain ⟨cc, hcc⟩ := Option.isSome_iff_exists.mp hcol.1
  have hmatch : (match ch.colorId with
      | some c => intToChars c
      | none => natToChars ch.id) = intToChars cc := by
    rw [hcc]
  have hfix : ∀ a, d.channels.get? c0 = some a → a = ch := by
    intro a ha
    rw [hch] at ha
    exact (Option.some.injEq _ _).mp ha.symm
  have h1 : DrumSynth.setChannelVariant c0 (parseIntJS (renderNum ch.variant)) d = d := by
    unfold DrumSynth.setChannelVariant
    rw [parseIntJS_renderNum, listModify_eq_self _ _ _ fun a ha => by
      rw [hfix a ha]]
  have h2 : DrumSynth.setChannelVolume c0 (parseIntJS (renderNum ch.volume)) d = d := by
    unfold DrumSynth.setChannelVolume
    rw [parseIntJS_renderNum, listModify_eq_self _ _ _ fun a ha => by
      rw [hfix a ha, clamp100_id hvol.1 hvol.2]]
  have h3 : DrumSynth.setChannelColor c0 (some cc) d = d := by
    unfold DrumSynth.setChannelColor
    rw [listModify_eq_self _ _ _ fun a ha => by
      rw [hfix a ha, ← hcc]]
  simp only [processDrumChannel, Nat.add_sub_cancel]
  rw [if_pos hlt, hpart,
    removeFirstChar_of_not_mem hbr.1, removeFirstChar_of_not_mem hbr.2,
    drumChannelBody_parts ch (fun c hcc => (hty c hcc).1) hvar hvol.1 hcol.2]
  simp only [List.getD_cons_zero, List.getD_cons_succ]
  rw [hmatch, parseIntJS_intToChars]
  rw [if_pos (Option.isSome_some : (some cc).isSome = true)]
  rw [h1, h2, h3]

theorem drumChannelFold_id (parts : List Str) (d : DrumSynthState)
    (hstep : ∀ c0, c0 < d.channels.length → processDrumChannel parts (c0 + 1) d = d) :
    ∀ l : List ℕ, (∀ c0 ∈ l, c0 < d.channels.length) →
      l.foldl (fun dd c0 => processDrumChannel parts (c0 + 1) dd) d = d := by
  intro l
  induction l with
  | nil => intro _; rfl
  | cons c0 rest ih =>
    intro hl
    simp only [List.foldl_cons]
    rw [hstep c0 (hl c0 (List.mem_cons_self _ _))]
    exact ih fun x hx => hl x (List.mem_cons_of_mem _ hx)

/-! ### Processing the drum line: the binary grid -/

theorem writeDrums_length (blocks : List Block) (b s : ℕ) (hits : List ℕ) :
    (writeDrums blocks b s hits).length = blocks.length :=
  length_listModify blocks b _

theorem writeDrums_get?_ne (blocks : List Block) {b b' : ℕ} (s : ℕ) (hits : List ℕ)
    (h : b' ≠ b) : (writeDrums blocks b s hits).get? b' = blocks.get? b' :=
  get?_listModify_ne blocks _ h

theorem writeDrums_get?_same (blocks : List Block) (b s : ℕ) (hits : List ℕ) :
    (writeDrums blocks b s hits).get? b = (blocks.get? b).map fun blk =>
      { blk with drums := blk.drums.set s hits } :=
  get?_listModify_same blocks b _

theorem blNote_writeDrums (blocks : List Block) (b s : ℕ) (hits : List ℕ)
    (id : Str) (b' s' : ℕ) :
    blNote (writeDrums blocks b s hits) b' id s' = blNote blocks b' id s' := by
  by_cases hb : b' = b
  · subst hb
    unfold blNote
    rw [writeDrums_get?_same]
    cases blocks.get? b' with
    | none => rfl
    | some blk => rfl
  · unfold blNote
    rw [writeDrums_get?_ne blocks s hits hb]

theorem blDrums_writeDrums_same (blocks : List Block) (b s : ℕ) (hits : List ℕ)
    (blk : Block) (hb : blocks.get? b = some blk) (hs : s < blk.drums.length) :
    blDrums (writeDrums blocks b s hits) b s = hits := by
  unfold blDrums
  rw [writeDrums_get?_same, hb]
  simp only [Option.map_some']
  rw [List.getD_eq_get?, List.get?_set_eq_of_lt _ hs]
  rfl

theorem blDrums_writeDrums_ne (blocks : List Block) (b s : ℕ) (hits : List ℕ)
    (b' s' : ℕ) (h : ¬(b' = b ∧ s' = s)) :
    blDrums (writeDrums blocks b s hits) b' s' = blDrums blocks b' s' := by
  by_cases hb : b' = b
  · subst hb
    have hs : s' ≠ s := fun hss => h ⟨rfl, hss⟩
    unfold blDrums
    rw [writeDrums_get?_same]
    cases blocks.get? b' with
    | none => rfl
    | some blk =>
      simp only [Option.map_some']
      rw [List.getD_eq_get?, List.getD_eq_get?, List.get?_set_ne _ _ (Ne.symm hs)]
  · unfold blDrums
    rw [writeDrums_get?_ne blocks s hits hb]

theorem writeDrums_drlen {blocks : List Block} (b s : ℕ) (hits : List ℕ)
    (h : ∀ b0 blk, blocks.get? b0 = some blk →
      blk.drums.length = TimeMatrix.totalSteps) :
    ∀ b0 blk, (writeDrums blocks b s hits).get? b0 = some blk →
      blk.drums.length = TimeMatrix.totalSteps := by
  intro b0 blk hblk
  by_cases hb : b0 = b
  · subst hb
    rw [writeDrums_get?_same] at hblk
    cases hbk : blocks.get? b0 with
    | none => rw [hbk] at hblk; simp at hblk
    | some blk0 =>
      rw [hbk] at hblk
      simp only [Option.map_some', Option.some.injEq] at hblk
      rw [← hblk]
      simp only [List.length_set]
      exact h b0 blk0 hbk
  · rw [writeDrums_get?_ne blocks s hits hb] at hblk
    exact h b0 blk hblk

/-- The grid loop of the imported drum line. -/
def drumFold (cells : List Str) (K : ℕ) (blocks : List Block) : List Block :=
  (List.range K).foldl (fun bl g => processDrumCell g cells bl) blocks

theorem drumFold_succ (cells : List Str) (K : ℕ) (blocks : List Block) :
    drumFold cells (K + 1) blocks = processDrumCell K cells (drumFold cells K blocks) := by
  unfold drumFold
  rw [List.range_succ, List.foldl_append]
  rfl

theorem processDrumCell_spec (g : ℕ) (cells : List Str) (blocks : List Block)
    (channels : List DrumChannel) (d : List ℕ)
    (hcell : cells.getD (g + 1) [] = drumCell channels d)
    (hch0 : channels ≠ []) :
    processDrumCell g cells blocks =
      match blocks.get? (g / TimeMatrix.totalSteps) with
      | some _ => writeDrums blocks (g / TimeMatrix.totalSteps) (g % TimeMatrix.totalSteps)
          ((List.range (drumCell channels d).length).filter fun bit =>
            (drumCell channels d).getD bit ' ' = '1')
      | none => blocks := by
  simp only [processDrumCell]
  rw [hcell]
  rw [if_neg (by
    intro he
    rw [List.isEmpty_iff] at he
    unfold drumCell at he
    rw [List.map_eq_nil_iff] at he
    exact hch0 he)]
  cases hb : blocks.get? (g / TimeMatrix.totalSteps) with
  | none =>
    rw [if_neg (by simp)]
  | some blk => rfl

theorem drumFold_spec (cells : List Str) (orig : List Block)
    (channels : List DrumChannel) (hch0 : channels ≠ []) (K : ℕ)
    (hK : K ≤ orig.length * TimeMatrix.totalSteps)
    (hcells : ∀ g, g < K → cells.getD (g + 1) [] =
      drumCell channels (blDrums orig (g / TimeMatrix.totalSteps)
        (g % TimeMatrix.totalSteps)))
    (blocks : List Block) (hlen : blocks.length = orig.length)
    (hdr : ∀ b blk, blocks.get? b = some blk →
      blk.drums.length = TimeMatrix.totalSteps) :
    (drumFold cells K blocks).length = orig.length ∧
    (∀ b blk, (drumFold cells K blocks).get? b = some blk →
      blk.drums.length = TimeMatrix.totalSteps) ∧
    (∀ id b s, blNote (drumFold cells K blocks) b id s = blNote blocks b id s) ∧
    (∀ b s, s < TimeMatrix.totalSteps →
      blDrums (drumFold cells K blocks) b s =
        if TimeMatrix.totalSteps * b + s < K
        then (List.range (drumCell channels (blDrums orig b s)).length).filter
          (fun bit => (drumCell channels (blDrums orig b s)).getD bit ' ' = '1')
        else blDrums blocks b s) := by
  induction K with
  | zero =>
    refine ⟨hlen, hdr, fun id b s => rfl, fun b s hs => ?_⟩
    rw [if_neg (by simp)]
    rfl
  | succ K ih =>
    obtain ⟨ha, hb2, hc, hf⟩ := ih (by omega) fun g hg => hcells g (by omega)
    rw [drumFold_succ]
    have hdivlt : K / TimeMatrix.totalSteps < orig.length :=
      Nat.div_lt_of_lt_mul (by rw [Nat.mul_comm]; omega)
    obtain ⟨blk, hblk⟩ : ∃ blk,
        (drumFold cells K blocks).get? (K / TimeMatrix.totalSteps) = some blk := by
      cases hres0 : (drumFold cells K blocks).get? (K / TimeMatrix.totalSteps) with
      | some blk => exact ⟨blk, rfl⟩
      | none =>
        exact absurd hres0
          (by simp [List.get?_eq_getElem?, List.getElem?_eq_none_iff]; omega)
    have hres : processDrumCell K cells (drumFold cells K blocks) =
        writeDrums (drumFold cells K blocks) (K / TimeMatrix.totalSteps)
          (K % TimeMatrix.totalSteps)
          ((List.range (drumCell channels (blDrums orig (K / TimeMatrix.totalSteps)
              (K % TimeMatrix.totalSteps))).length).filter fun bit =>
            (drumCell channels (blDrums orig (K / TimeMatrix.totalSteps)
              (K % TimeMatrix.totalSteps))).getD bit ' ' = '1') := by
      rw [processDrumCell_spec K cells _ channels _ (hcells K (by omega)) hch0, hblk]
    rw [hres]
    refine ⟨?_, writeDrums_drlen _ _ _ hb2, ?_, ?_⟩
    · rw [writeDrums_length]
      exact ha
    · intro id b s
      rw [blNote_writeDrums, hc id b s]
    · intro b s hs
      by_cases hbs : b = K / TimeMatrix.totalSteps ∧ s = K % TimeMatrix.totalSteps
      · obtain ⟨rfl, rfl⟩ := hbs
        rw [blDrums_writeDrums_same _ _ _ _ blk hblk
          (by rw [hb2 _ blk hblk]; exact Nat.mod_lt _ (by decide))]
        rw [if_pos (by rw [Nat.div_add_mod]; exact Nat.lt_succ_self K)]
      · rw [blDrums_writeDrums_ne _ _ _ _ _ _ hbs, hf b s hs]
        by_cases hcond : TimeMatrix.totalSteps * b + s < K
        · rw [if_pos hcond, if_pos (Nat.lt_succ_of_lt hcond)]
        · rw [if_neg hcond, if_neg (by
            intro hlt
            rcases Nat.lt_succ_iff_lt_or_eq.mp hlt with h1 | h1
            · exact hcond h1
            · exact hbs (stepSplit hs h1))]

theorem drumHits_mem (channels : List DrumChannel) (d : List ℕ)
    (hids : ∀ i ch, channels.get? i = some ch → ch.id = i) (k : ℕ) :
    k ∈ ((List.range (drumCell channels d).length).filter fun bit =>
      (drumCell channels d).getD bit ' ' = '1') ↔ k < channels.length ∧ k ∈ d := by
  have hlen : (drumCell channels d).length = channels.length := by simp [drumCell]
  rw [List.mem_filter, List.mem_range, hlen]
  simp only [decide_eq_true_eq]
  constructor
  · rintro ⟨hk, hbit⟩
    rw [drumCell_bit channels d k hk hids] at hbit
    by_cases hkd : k ∈ d
    · exact ⟨hk, hkd⟩
    · rw [if_neg hkd] at hbit
      exact absurd hbit (by decide)
  · rintro ⟨hk, hkd⟩
    refine ⟨hk, ?_⟩
    rw [drumCell_bit channels d k hk hids, if_pos hkd]

theorem processDrumLine_reduce (orig cur : EngineState) (total : ℕ)
    (hdrum : cur.drum = orig.drum)
    (hids : ∀ i ch, orig.drum.channels.get? i = some ch → ch.id = i)
    (hChOK : ∀ ch ∈ orig.drum.channels,
      (∀ c ∈ ch.type, ¬c = '-' ∧ ¬c = '|' ∧ ¬c = '[' ∧ ¬c = ']') ∧
      0 ≤ ch.variant.getD 0 ∧ (0 ≤ ch.volume.getD 0 ∧ ch.volume.getD 0 ≤ 100) ∧
      (ch.colorId.isSome = true ∧ 0 ≤ ch.colorId.getD 0)) :
    processDrumLine total (drumConfigCell orig :: drumCells orig) cur =
      { cur with
          drum := DrumSynth.setMasterVolume
            (parseIntJS (renderNum orig.drum.masterVolume)) orig.drum,
          blocks := drumFold (drumConfigCell orig :: drumCells orig) total cur.blocks } := by
  simp only [processDrumLine]
  simp only [List.getD_cons_zero]
  rw [drumConfigCell_parts orig fun ch hch c hc => ((hChOK ch hch).1 c hc).2.1]
  simp only [List.getD_cons_zero, List.getD_cons_succ]
  rw [drumMainHeader_parts]
  simp only [List.getD_cons_zero, List.getD_cons_succ, List.length_cons, List.length_map,
    Nat.add_sub_cancel]
  rw [hdrum]
  have hd0ch : (DrumSynth.setMasterVolume
      (parseIntJS (renderNum orig.drum.masterVolume)) orig.drum).channels
      = orig.drum.channels := rfl
  have hstep : ∀ c0, c0 < (DrumSynth.setMasterVolume
      (parseIntJS (renderNum orig.drum.masterVolume)) orig.drum).channels.length →
      processDrumChannel (drumMainHeader orig :: orig.drum.channels.map drumChannelBody)
        (c0 + 1)
        (DrumSynth.setMasterVolume (parseIntJS (renderNum orig.drum.masterVolume))
          orig.drum) =
      DrumSynth.setMasterVolume (parseIntJS (renderNum orig.drum.masterVolume))
        orig.drum := by
    intro c0 hc0
    rw [hd0ch] at hc0
    obtain ⟨ch, hch⟩ : ∃ ch, orig.drum.channels.get? c0 = some ch := by
      cases hg : orig.drum.channels.get? c0 with
      | some ch => exact ⟨ch, rfl⟩
      | none =>
        exact absurd hg
          (by simp [List.get?_eq_getElem?, List.getElem?_eq_none_iff]; omega)
    have hchmem : ch ∈ orig.drum.channels := List.get?_mem hch
    refine processDrumChannel_id _ c0 _ ch (by rw [hd0ch]; exact hch) ?_
      (fun c hc => ⟨((hChOK ch hchmem).1 c hc).1, ((hChOK ch hchmem).1 c hc).2.2.1,
        ((hChOK ch hchmem).1 c hc).2.2.2⟩)
      (hChOK ch hchmem).2.1 (hChOK ch hchmem).2.2.1 (hChOK ch hchmem).2.2.2
    rw [List.getD_cons_succ, List.getD_eq_get?, List.get?_map, hch]
    rfl
  rw [drumChannelFold_id _ _ hstep (List.range orig.drum.channels.length)
    (by
      intro c0 hc0
      rw [hd0ch]
      exact List.mem_range.mp hc0)]
  rfl

theorem processDrumLine_final (orig cur res : EngineState)
    (hres : res = processLine (orig.blocks.length * TimeMatrix.totalSteps) cur
      (drumRow orig))
    (hdrum : cur.drum = orig.drum)
    (hlen : cur.blocks.length = orig.blocks.length)
    (hdr : ∀ b blk, cur.blocks.get? b = some blk →
      blk.drums = List.replicate TimeMatrix.totalSteps [])
    (hch0 : orig.drum.channels ≠ [])
    (hids : ∀ i ch, orig.drum.channels.get? i = some ch → ch.id = i)
    (hChOK : ∀ ch ∈ orig.drum.channels,
      (∀ c ∈ ch.type, ¬c = ',' ∧ ¬c = '-' ∧ ¬c = '|' ∧ ¬c = '[' ∧ ¬c = ']') ∧
      0 ≤ ch.variant.getD 0 ∧ (0 ≤ ch.volume.getD 0 ∧ ch.volume.getD 0 ≤ 100) ∧
      (ch.colorId.isSome = true ∧ 0 ≤ ch.colorId.getD 0)) :
    res.bpm = cur.bpm ∧
    res.bassSynths = cur.bassSynths ∧
    res.blocks.length = orig.blocks.length ∧
    res.drum.channels = orig.drum.channels ∧
    (∀ id b s, blNote res.blocks b id s = blNote cur.blocks b id s) ∧
    (∀ b s k, b < orig.blocks.length → s < TimeMatrix.totalSteps →
      (k ∈ blDrums res.blocks b s ↔
        k < orig.drum.channels.length ∧ k ∈ blDrums orig.blocks b s)) := by
  have hcellsplit : splitOnChar ',' (drumRow orig)
      = drumConfigCell orig :: drumCells orig :=
    drumRow_split orig fun ch hch hc => ((hChOK ch hch).1 ',' hc).1 rfl
  have hpl : processLine (orig.blocks.length * TimeMatrix.totalSteps) cur (drumRow orig)
      = processDrumLine (orig.blocks.length * TimeMatrix.totalSteps)
        (drumConfigCell orig :: drumCells orig) cur := by
    simp only [processLine]
    rw [hcellsplit]
    simp only [List.getD_cons_zero]
    rw [if_pos (startsWith_drumConfigCell orig)]
  rw [hpl, processDrumLine_reduce orig cur _ hdrum hids
    (fun ch hch => ⟨fun c hc => ⟨((hChOK ch hch).1 c hc).2.1, ((hChOK ch hch).1 c hc).2.2.1,
        ((hChOK ch hch).1 c hc).2.2.2.1, ((hChOK ch hch).1 c hc).2.2.2.2⟩,
      (hChOK ch hch).2.1, (hChOK ch hch).2.2.1, (hChOK ch hch).2.2.2⟩)] at hres
  obtain ⟨fa, fb, fc, ff⟩ := drumFold_spec (drumConfigCell orig :: drumCells orig)
    orig.blocks orig.drum.channels hch0
    (orig.blocks.length * TimeMatrix.totalSteps) le_rfl
    (by
      intro g hg
      rw [List.getD_cons_succ]
      exact drumCells_getD orig g hg)
    cur.blocks hlen
    (fun b blk hblk => by rw [hdr b blk hblk]; exact List.length_replicate _ _)
  subst hres
  refine ⟨rfl, rfl, fa, rfl, fc, ?_⟩
  intro b s k hb hs
  rw [ff b s hs]
  have hlt : TimeMatrix.totalSteps * b + s <
      orig.blocks.length * TimeMatrix.totalSteps := by
    calc TimeMatrix.totalSteps * b + s
        < TimeMatrix.totalSteps * (b + 1) := by
          have : TimeMatrix.totalSteps * (b + 1)
              = TimeMatrix.totalSteps * b + TimeMatrix.totalSteps := by ring
          omega
      _ ≤ TimeMatrix.totalSteps * orig.blocks.length := Nat.mul_le_mul_left _ hb
      _ = orig.blocks.length * TimeMatrix.totalSteps := Nat.mul_comm _ _
  rw [if_pos hlt]
  exact drumHits_mem orig.drum.channels _ hids k

/-! ### Sessions that the CSV codec round-trips -/

theorem jsGetProp_mem {κ α : Type} [DecidableEq κ] {id : κ} {l : List (κ × α)} {v : α}
    (h : jsGetProp id l = some v) : (id, v) ∈ l := by
  induction l with
  | nil => simp [jsGetProp] at h
  | cons p t ih =>
    obtain ⟨k, w⟩ := p
    rw [jsGetProp] at h
    by_cases hk : k = id
    · rw [if_pos hk] at h
      simp only [Option.some.injEq] at h
      subst hk
      subst h
      exact List.mem_cons_self _ _
    · rw [if_neg hk] at h
      exact List.mem_cons_of_mem _ (ih h)

theorem blDrums_oob {blocks : List Block} {b : ℕ} (h : blocks.length ≤ b) (s : ℕ) :
    blDrums blocks b s = [] := by
  unfold blDrums
  rw [List.get?_eq_getElem?, List.getElem?_eq_none h]

/-- A stored note slot the codec can reproduce: a known pitch name and a
non-negative (or NaN) octave. -/
abbrev slotOK (o : Option Note) : Prop :=
  (o.getD ⟨['C'], none, false, false⟩).note ∈ TimeMatrix.noteMapRevList ∧
    0 ≤ (o.getD ⟨['C'], none, false, false⟩).octave.getD 0

/-- A synth id the CSV line format can carry. -/
abbrev SynthOK (σ : BassSynth) : Prop :=
  (∀ c ∈ σ.id, ¬c = '\n' ∧ ¬c = ',' ∧ ¬c = ':') ∧
    startsWithJS drumsTok σ.id = false

/-- A drum channel whose config cell parses back to itself. -/
abbrev ChannelOK (ch : DrumChannel) : Prop :=
  (∀ c ∈ ch.type, ¬c = ',' ∧ ¬c = '-' ∧ ¬c = '|' ∧ ¬c = '[' ∧ ¬c = ']' ∧ ¬c = '\n' ∧
    c.isWhitespace = false) ∧
  0 ≤ ch.variant.getD 0 ∧ (0 ≤ ch.volume.getD 0 ∧ ch.volume.getD 0 ≤ 100) ∧
  (ch.colorId.isSome = true ∧ 0 ≤ ch.colorId.getD 0)

/-- The sessions whose CSV export reimports to the same observable data:
non-negative BPM, reproducible note slots, in-range drum hits, clean synth
ids, and channels with index ids and reproducible config fields. -/
abbrev SessionOK (st : EngineState) : Prop :=
  0 ≤ st.bpm ∧
  (∀ b ∈ st.blocks, (∀ p ∈ b.tracks, ∀ o ∈ p.2, slotOK o) ∧
    (∀ hits ∈ b.drums, ∀ k ∈ hits, k < st.drum.channels.length)) ∧
  (∀ σ ∈ st.bassSynths, SynthOK σ) ∧
  st.drum.channels ≠ [] ∧
  st.drum.channels.map DrumChannel.id = List.range st.drum.channels.length ∧
  (∀ ch ∈ st.drum.channels, ChannelOK ch)

theorem channels_ids_of_map_range {channels : List DrumChannel}
    (h : channels.map DrumChannel.id = List.range channels.length) :
    ∀ i ch, channels.get? i = some ch → ch.id = i := by
  intro i ch hch
  have hlt : i < channels.length := by
    by_contra hge
    rw [List.get?_eq_getElem?, List.getElem?_eq_none (by omega)] at hch
    cases hch
  have h1 : (channels.map DrumChannel.id).get? i = some ch.id := by
    rw [List.get?_map, hch]
    rfl
  rw [h, List.get?_range hlt] at h1
  simpa using h1.symm

theorem sessionOK_notes {st : EngineState} (h : SessionOK st) (id : Str) :
    ∀ b s nt, blNote st.blocks b id s = some nt →
      nt.note ∈ TimeMatrix.noteMapRevList ∧ 0 ≤ nt.octave.getD 0 := by
  intro b s nt hnt
  unfold blNote at hnt
  cases hblk : st.blocks.get? b with
  | none =>
    rw [hblk] at hnt
    cases hnt
  | some blk =>
    rw [hblk] at hnt
    have hnt2 : trackNoteAt blk id s = some nt := hnt
    unfold trackNoteAt at hnt2
    cases htr : jsGetProp id blk.tracks with
    | none =>
      rw [htr] at hnt2
      cases hnt2
    | some tr =>
      rw [htr] at hnt2
      have hnt3 : tr.getD s none = some nt := hnt2
      rw [List.getD_eq_get?] at hnt3
      cases hg : tr.get? s with
      | none =>
        rw [hg] at hnt3
        cases hnt3
      | some o =>
        rw [hg] at hnt3
        simp only [Option.getD_some] at hnt3
        subst hnt3
        have hslot := (h.2.1 blk (List.get?_mem hblk)).1 (id, tr)
          (jsGetProp_mem htr) (some nt) (List.get?_mem hg)
        simpa [slotOK] using hslot

theorem sessionOK_hits {st : EngineState} (h : SessionOK st) :
    ∀ b s k, k ∈ blDrums st.blocks b s → k < st.drum.channels.length := by
  intro b s k hk
  unfold blDrums at hk
  cases hblk : st.blocks.get? b with
  | none =>
    rw [hblk] at hk
    simp at hk
  | some blk =>
    rw [hblk] at hk
    have hk2 : k ∈ blk.drums.getD s [] := hk
    rw [List.getD_eq_get?] at hk2
    cases hg : blk.drums.get? s with
    | none =>
      rw [hg] at hk2
      simp at hk2
    | some hits =>
      rw [hg] at hk2
      simp only [Option.getD_some] at hk2
      exact (h.2.1 blk (List.get?_mem hblk)).2 hits (List.get?_mem hg) k hk2

set_option maxHeartbeats 2000000 in
theorem importFromCSV_run (st : EngineState) (hok : SessionOK st) :
    importFromCSV st (exportToCSV st) =
      (true, processLine (st.blocks.length * TimeMatrix.totalSteps)
        ((st.bassSynths.map fun σ => bassRow st.blocks σ).foldl
          (processLine (st.blocks.length * TimeMatrix.totalSteps))
          { bpm := st.bpm, blocks := List.replicate st.blocks.length freshBlock,
            bassSynths := st.bassSynths, drum := st.drum })
        (drumRow st)) := by
  obtain ⟨hbpm, hblocksOK, hsynthOK, hch0, hchids, hChOK⟩ := hok
  have hcsvne : exportToCSV st ≠ [] := by
    intro he
    have hm : ('\n' : Char) ∈ exportToCSV st := by
      unfold exportToCSV
      simp
    rw [he] at hm
    simp at hm
  have htrim := trim_exportToCSV st hbpm
    fun ch hch c hc => ((hChOK ch hch).1 c hc).2.2.2.2.2.2
  have hlines := exportToCSV_lines st
    (fun σ hσ hc => ((hsynthOK σ hσ).1 _ hc).1 rfl)
    (fun ch hch hc => ((hChOK ch hch).1 _ hc).2.2.2.2.2.1 rfl)
  have htn : ((st.blocks.length * TimeMatrix.totalSteps : ℕ) : ℤ).toNat
      = st.blocks.length * TimeMatrix.totalSteps := by omega
  have hneeded : (st.blocks.length * TimeMatrix.totalSteps + TimeMatrix.totalSteps - 1)
      / TimeMatrix.totalSteps = st.blocks.length := by
    simp only [TimeMatrix.totalSteps]
    omega
  simp only [importFromCSV]
  rw [if_neg (fun he => hcsvne (List.isEmpty_iff.mp he))]
  rw [htrim, hlines]
  rw [if_neg (by
    simp only [List.length_cons, List.length_append, List.length_map]
    omega)]
  simp only [List.getD_cons_zero]
  rw [headerRow_cells]
  simp only [List.getD_cons_zero]
  rw [headerCell_meta st hbpm]
  simp only [List.getD_cons_zero, List.getD_cons_succ]
  rw [parseIntJS_natToChars, parseIntJS_natToChars]
  simp only [htn, hneeded, Int.toNat_of_nonneg hbpm, buildBlocks_eq_replicate,
    List.drop_succ_cons, List.drop_zero, List.foldl_append, List.foldl_cons,
    List.foldl_nil]

/-- Claim C1 (corrected): for every session whose stored data the CSV format
can carry — non-negative BPM, notes with known pitch names and non-negative
(or NaN) octaves, drum-hit indices below the channel count, synth ids free of
separator characters and not starting with `drums`, and the channel
configurations with positional ids, in-range volumes and explicit
non-negative colorIds — `importFromCSV (exportToCSV st)` succeeds and
reproduces the BPM, the block count, the note at every block/track/step of
every bass synth, the drum-hit membership at every block/step, and every
channel record (hence its `{variant, volume, colorId}`). -/
theorem c1_csv_roundtrip (st : EngineState) (hok : SessionOK st) :
    (importFromCSV st (exportToCSV st)).1 = true ∧
    (reimport st).bpm = st.bpm ∧
    (reimport st).blocks.length = st.blocks.length ∧
    (reimport st).drum.channels = st.drum.channels ∧
    (∀ σ ∈ st.bassSynths, ∀ b s, s < TimeMatrix.totalSteps →
      noteAt (reimport st) b σ.id s = noteAt st b σ.id s) ∧
    (∀ b s k, s < TimeMatrix.totalSteps →
      (k ∈ drumsAt (reimport st) b s ↔ k ∈ drumsAt st b s)) ∧
    (∀ i, i < st.drum.channels.length →
      chVariant (reimport st) i = chVariant st i ∧
      chVolume (reimport st) i = chVolume st i ∧
      chColor (reimport st) i = chColor st i) := by
  have himp := importFromCSV_run st hok
  obtain ⟨hbpm, hblocksOK, hsynthOK, hch0, hchids, hChOK⟩ := hok
  have hinv1 := foldBassLines st st.bassSynths []
    { bpm := st.bpm, blocks := List.replicate st.blocks.length freshBlock,
      bassSynths := st.bassSynths, drum := st.drum }
    (fun σ hσ => hσ) (fun σ hσ => hsynthOK σ hσ)
    (fun σ hσ => sessionOK_notes ⟨hbpm, hblocksOK, hsynthOK, hch0, hchids, hChOK⟩ σ.id)
    (ImportInv_initial st)
  obtain ⟨g1, g2, g3, g4, g5, g6, g7, g8⟩ := hinv1
  have hides := channels_ids_of_map_range hchids
  obtain ⟨d1, d2, d3, d4, d5, d6⟩ := processDrumLine_final st
    ((st.bassSynths.map fun σ => bassRow st.blocks σ).foldl
      (processLine (st.blocks.length * TimeMatrix.totalSteps))
      { bpm := st.bpm, blocks := List.replicate st.blocks.length freshBlock,
        bassSynths := st.bassSynths, drum := st.drum })
    (reimport st)
    (by
      unfold reimport
      rw [himp])
    g3 g4 g5 hch0 hides
    (fun ch hch => ⟨fun c hc => ⟨((hChOK ch hch).1 c hc).1, ((hChOK ch hch).1 c hc).2.1,
        ((hChOK ch hch).1 c hc).2.2.1, ((hChOK ch hch).1 c hc).2.2.2.1,
        ((hChOK ch hch).1 c hc).2.2.2.2.1⟩,
      (hChOK ch hch).2.1, (hChOK ch hch).2.2.1, (hChOK ch hch).2.2.2⟩)
  refine ⟨by rw [himp], by rw [d1, g1], d3, d4, ?_, ?_, ?_⟩
  · intro σ hσ b s hs
    rw [noteAt_eq_blNote, noteAt_eq_blNote, d5]
    exact g7 σ.id (by
      rw [List.mem_append]
      exact Or.inl (List.mem_map.mpr ⟨σ, hσ, rfl⟩)) b s hs
  · intro b s k hs
    rw [drumsAt_eq_blDrums, drumsAt_eq_blDrums]
    by_cases hb : b < st.blocks.length
    · rw [d6 b s k hb hs]
      constructor
      · rintro ⟨_, hk⟩
        exact hk
      · intro hk
        exact ⟨sessionOK_hits ⟨hbpm, hblocksOK, hsynthOK, hch0, hchids, hChOK⟩ b s k hk,
          hk⟩
    · have hb1 : (reimport st).blocks.length ≤ b := by
        rw [d3]
        omega
      rw [blDrums_oob hb1 s, blDrums_oob (le_of_not_lt hb) s]
  · intro i hi
    unfold chVariant chVolume chColor
    rw [d4]
    exact ⟨rfl, rfl, rfl⟩

/-- A session holding a note with octave `-1` (reachable in the app: the
MIDI importer stores `Math.floor(note/12) - 1`, i.e. `-1` for notes 0–11). -/
def negTrack : List (Option Note) :=
  some ⟨['C'], some (-1), false, false⟩ :: List.replicate 15 none

def negBlock : Block :=
  { tracks := [(TimeMatrix.defaultTrackId, negTrack)],
    drums := List.replicate 16 [] }

def negSt : EngineState :=
  { bpm := 174, blocks := [negBlock],
    bassSynths := [⟨TimeMatrix.defaultTrackId, defaultParams⟩],
    drum := DrumSynth.initState }

/-- Claim C1 counterexample: the CSV round trip is not an identity on every
session.  A note with octave `-1` exports as the cell `1--1-0-0`, whose
dash-split has five sub-fields instead of four, so the importer silently
skips it: the import still reports success, but the slot that held the note
comes back `null`. -/
theorem c1_counterexample :
    noteAt negSt 0 TimeMatrix.defaultTrackId 0 =
      some ⟨['C'], some (-1), false, false⟩ ∧
    (importFromCSV negSt (exportToCSV negSt)).1 = true ∧
    noteAt (reimport negSt) 0 TimeMatrix.defaultTrackId 0 = none := by
  refine ⟨by decide, by decide, by decide⟩

theorem c1_csv_roundtrip_witness :
    SessionOK sampleState ∧
      (importFromCSV sampleState (exportToCSV sampleState)).1 = true :=
  ⟨by decide, (c1_csv_roundtrip sampleState (by decide)).1⟩

end SynthND






